import Mathlib

/-!
# Verification development for wonsoh/cloudkitchens

A shallow embedding of the kitchen-dispatch simulation (Go packages `resource` and
`service`) and theorems about its two pairing strategies.

Conventions of the embedding
* A `time.Time` is an integer count of nanoseconds on the monotonic clock; every call of
  `time.Now()` in the source is an explicit clock reading passed to the model.
* Go `int` counters are unbounded integers; the statistics are sums of millisecond waits,
  far below the 64-bit range.
* A `*rand.Rand` is the stream of values its `Source` hands out together with the number
  of values already consumed.
* `sync.Map` is an association list, `container/list` a sequence of elements that carry
  the identity of their `*list.Element`.
* An unbuffered notification channel is represented by the flag `parked` of its owner
  (the owner is blocked in the receive); a send to a parked owner runs the rest of the
  function of the owner, a send to an owner that is not parked blocks the sender for ever.
* A finite `float64` is the rational it stands for; a conversion or division rounds its
  exact result to the nearest `float64`, ties to even (`float64Round`).
* `DispatchOrder` records the two goroutines it starts; they run as the arrivals of a
  run.
* A call of `finishOrder` or `finishPickUp` in a run (`run`) is executed without another
  call in between; the interleaving of the critical sections of different calls is the
  subject of `FifoSched`.
-/

namespace CloudKitchens

/-! ## Package `resource` -/

namespace resource

/-- MaxTravelTimeRange, the size of the range of travel times: `[3-15] == [0-13)`. -/
def MaxTravelTimeRange : Int := 13

/-- MinTravelTime, the minimum travel time. -/
def MinTravelTime : Int := 3

/-- Order, an order to dispatch (`PrepTime` in seconds). -/
structure Order where
  ID : String
  Name : String
  PrepTime : Int
deriving DecidableEq, Repr

/-- Courier, a courier that picks up an order (`TravelTime` in seconds). -/
structure Courier where
  ID : String
  OrderID : String
  TravelTime : Int
deriving DecidableEq, Repr

/-- NewCourier builds a courier; `uuid` stands for the value of `uuid.NewString()`. -/
def NewCourier (uuid : String) (orderID : String) (travelTime : Int) : Courier :=
  { ID := uuid, OrderID := orderID, TravelTime := travelTime }

/-- Rand is a `*rand.Rand`: the values its `Source` returns from `Int63`, in order, and
the number of values consumed so far. -/
structure Rand where
  src : Nat → Nat
  pos : Nat

/-- Int63 of `math/rand`: the next value of the source, a non-negative 63-bit integer. -/
def Rand.Int63 (r : Rand) : Nat × Rand :=
  (r.src r.pos % 2 ^ 63, { r with pos := r.pos + 1 })

/-- Int31 of `math/rand`: `int32(r.Int63() >> 32)`. -/
def Rand.Int31 (r : Rand) : Nat × Rand :=
  ((r.Int63).1 / 2 ^ 32, (r.Int63).2)

/-- The rejection loop of `Int31n`: `for v > max { v = r.Int31() }`, with `fuel` bounding
the number of further draws. -/
def Rand.rejectLoop (max : Nat) : Nat → Nat → Rand → Option (Nat × Rand)
  | fuel, v, r =>
    if v ≤ max then some (v, r)
    else
      match fuel with
      | 0 => none
      | fuel + 1 => rejectLoop max fuel (r.Int31).1 (r.Int31).2

/-- Int31n of `math/rand` for `0 < n < 2^31`: a mask when `n` is a power of two, and
otherwise rejection sampling below `max = 2^31 - 1 - 2^31 % n` followed by `v % n`.
The result is `none` when the loop has not ended within `fuel` further draws. -/
def Rand.Int31n (r : Rand) (n : Nat) (fuel : Nat) : Option (Nat × Rand) :=
  if Nat.land n (n - 1) = 0 then
    some (Nat.land (r.Int31).1 (n - 1), (r.Int31).2)
  else
    let max := 2 ^ 31 - 1 - 2 ^ 31 % n
    match Rand.rejectLoop max fuel (r.Int31).1 (r.Int31).2 with
    | some (v, r1) => some (v % n, r1)
    | none => none

/-- Intn of `math/rand` on the branch `n <= 1<<31 - 1`, the only one `MaxTravelTimeRange`
reaches: `int(r.Int31n(int32(n)))`. -/
def Rand.Intn (r : Rand) (n : Nat) (fuel : Nat) : Option (Int × Rand) :=
  match r.Int31n n fuel with
  | some (v, r1) => some ((v : Int), r1)
  | none => none

/-- GetCourierTravelTime: `Intn(MaxTravelTimeRange) + MinTravelTime` on `r`, or on the
global generator `glob` of `math/rand` when `r` is nil. The generator that was used is
returned with its new position. -/
def GetCourierTravelTime (glob : Rand) (r : Option Rand) (fuel : Nat) : Option (Int × Rand) :=
  match r with
  | none =>
    match glob.Intn MaxTravelTimeRange.toNat fuel with
    | some (v, g1) => some (v + MinTravelTime, g1)
    | none => none
  | some r0 =>
    match r0.Intn MaxTravelTimeRange.toNat fuel with
    | some (v, r1) => some (v + MinTravelTime, r1)
    | none => none

end resource

/-! ## Package `service`: events and statistics -/

/-- Chan is an unbuffered notification channel seen from its only receiver: `parked` holds
while the owner is blocked in `<-notification`. -/
structure Chan where
  parked : Bool
deriving DecidableEq, Repr

/-- The `time.Duration.Milliseconds` of a difference of two clock readings: the quotient
by `1e6`, truncated toward zero. -/
def Milliseconds (d : Int) : Int := Int.tdiv d 1000000

/-- dispatchedOrder, the order-ready event. -/
structure dispatchedOrder where
  Order : resource.Order
  StartTime : Int
  FinishTime : Int
  PickedUpTime : Int
  notification : Chan
deriving DecidableEq, Repr

/-- dispatchedCourier, the courier-ready event. -/
structure dispatchedCourier where
  Courier : resource.Courier
  DispatchedTime : Int
  ArrivedTime : Int
  PickedUpTime : Int
  notification : Chan
deriving DecidableEq, Repr

/-- getWaitTimeInMs of an order: `PickedUpTime.Sub(FinishTime).Milliseconds()`. -/
def dispatchedOrder.getWaitTimeInMs (d : dispatchedOrder) : Int :=
  Milliseconds (d.PickedUpTime - d.FinishTime)

/-- getWaitTimeInMs of a courier: `PickedUpTime.Sub(ArrivedTime).Milliseconds()`. -/
def dispatchedCourier.getWaitTimeInMs (d : dispatchedCourier) : Int :=
  Milliseconds (d.PickedUpTime - d.ArrivedTime)

/-- getDispatchedOrder: a fresh event with `StartTime: time.Now()` and a new channel. -/
def getDispatchedOrder (order : resource.Order) (now : Int) : dispatchedOrder :=
  { Order := order, StartTime := now, FinishTime := 0, PickedUpTime := 0,
    notification := ⟨false⟩ }

/-- getDispatchedCourier: a fresh event with `DispatchedTime: time.Now()` and a new channel. -/
def getDispatchedCourier (courier : resource.Courier) (now : Int) : dispatchedCourier :=
  { Courier := courier, DispatchedTime := now, ArrivedTime := 0, PickedUpTime := 0,
    notification := ⟨false⟩ }

/-- OrderManagerStatistics, the three counters of the aggregator. -/
structure OrderManagerStatistics where
  TotalOrderCount : Int
  TotalFoodWaitTime : Int
  TotalCourierWaitTime : Int
deriving DecidableEq, Repr

/-- IncrementTotalOrderCount: `o.TotalOrderCount++` under the statistics lock. -/
def OrderManagerStatistics.IncrementTotalOrderCount (o : OrderManagerStatistics) :
    OrderManagerStatistics :=
  { o with TotalOrderCount := o.TotalOrderCount + 1 }

/-- IncrementTotalFoodWaitTime: `o.TotalFoodWaitTime += byMs` under the statistics lock. -/
def OrderManagerStatistics.IncrementTotalFoodWaitTime (o : OrderManagerStatistics)
    (byMs : Int) : OrderManagerStatistics :=
  { o with TotalFoodWaitTime := o.TotalFoodWaitTime + byMs }

/-- IncrementTotalCourierWaitTime: `o.TotalCourierWaitTime += byMs` under the statistics
lock. -/
def OrderManagerStatistics.IncrementTotalCourierWaitTime (o : OrderManagerStatistics)
    (byMs : Int) : OrderManagerStatistics :=
  { o with TotalCourierWaitTime := o.TotalCourierWaitTime + byMs }

/-- orderManagerBase: the counter of the `sync.WaitGroup` (the completion barrier), the
generator, the statistics, and the arguments of the calls of `logPickUpEvent` so far
(the pick-up lines of the log, oldest first). The mutex is represented by the atomicity
of the functions that hold it. -/
structure orderManagerBase where
  wg : Int
  random : Option resource.Rand
  stats : OrderManagerStatistics
  pickUpLog : List (dispatchedOrder × dispatchedCourier)

/-- wgAdd: `o.wg.Add(1)`. -/
def orderManagerBase.wgAdd (o : orderManagerBase) : orderManagerBase :=
  { o with wg := o.wg + 1 }

/-- wgDone: `o.wg.Done()`. Go panics when the counter would become negative; the theorems
on complete runs show that the counter stays non-negative. -/
def orderManagerBase.wgDone (o : orderManagerBase) : orderManagerBase :=
  { o with wg := o.wg - 1 }

/-- completeOrder: `o.stats.IncrementTotalOrderCount()` then `o.wgDone()`. -/
def orderManagerBase.completeOrder (o : orderManagerBase) : orderManagerBase :=
  ({ o with stats := o.stats.IncrementTotalOrderCount }).wgDone

/-- incrementTotalFoodWaitTime forwards to the statistics. -/
def orderManagerBase.incrementTotalFoodWaitTime (o : orderManagerBase) (byMs : Int) :
    orderManagerBase :=
  { o with stats := o.stats.IncrementTotalFoodWaitTime byMs }

/-- incrementTotalCourierWaitTime forwards to the statistics. -/
def orderManagerBase.incrementTotalCourierWaitTime (o : orderManagerBase) (byMs : Int) :
    orderManagerBase :=
  { o with stats := o.stats.IncrementTotalCourierWaitTime byMs }

/-- logPickUpEvent only prints; the model records its two arguments. -/
def orderManagerBase.logPickUpEvent (o : orderManagerBase) (order : dispatchedOrder)
    (courier : dispatchedCourier) : orderManagerBase :=
  { o with pickUpLog := o.pickUpLog ++ [(order, courier)] }

/-- getOrderManagerBaseClass: a base with a zero barrier and zero statistics. -/
def getOrderManagerBaseClass (random : Option resource.Rand) : orderManagerBase :=
  { wg := 0, random := random, stats := ⟨0, 0, 0⟩, pickUpLog := [] }

/-! ## `sync.Map` -/

/-- SyncMap is a `sync.Map` with string keys: the stores so far, newest first. -/
abbrev SyncMap (V : Type) := List (String × V)

/-- Store of `sync.Map`: the value for a key is replaced by the newest store. -/
def SyncMap.Store {V : Type} (m : SyncMap V) (k : String) (v : V) : SyncMap V :=
  (k, v) :: m

/-- Load of `sync.Map`: the value stored last under the key, if any. -/
def SyncMap.Load {V : Type} (m : SyncMap V) (k : String) : Option V :=
  List.lookup k m

/-! ## Ready events -/

/-- Ready is a ready event handed to the order manager: an order whose preparation is
over or a courier that has arrived. -/
inductive Ready where
  | order (d : dispatchedOrder)
  | courier (d : dispatchedCourier)
deriving DecidableEq, Repr

/-- Arrival is one call of `processOrder` or `pickUpOrder` after its sleep, with the clock
readings the call can consume: `ready` is the `time.Now()` stored in `FinishTime` or
`ArrivedTime`, `now` the `time.Now()` read on the path where the counterpart is found,
and `wake` the `time.Now()` read by the counterpart that this call wakes. -/
structure Arrival where
  ev : Ready
  ready : Int
  now : Int
  wake : Int
deriving DecidableEq, Repr

/-- The key of a ready event: the order identifier the event was dispatched for. -/
def Ready.key : Ready → String
  | .order d => d.Order.ID
  | .courier d => d.Courier.OrderID

/-- Whether the ready event is an order (`true`) or a courier (`false`). -/
def Ready.isOrder : Ready → Bool
  | .order _ => true
  | .courier _ => false

/-- The side and the key of an arrival. -/
def Arrival.tag (a : Arrival) : Bool × String := (a.ev.isOrder, a.ev.key)

/-! ## Matched strategy -/

/-- matchedOrderManager: the base and the two maps keyed by order identifier. -/
structure matchedOrderManager where
  base : orderManagerBase
  finishedOrderMap : SyncMap dispatchedOrder
  courierMap : SyncMap dispatchedCourier

/-- GetMatchedOrderManager, on first use: a new base and two empty maps. -/
def newMatchedOrderManager (random : Option resource.Rand) : matchedOrderManager :=
  { base := getOrderManagerBaseClass random, finishedOrderMap := [], courierMap := [] }

namespace matchedOrderManager

/-- The critical section of `finishOrder` (lock, Store, Load, unlock): the order is
published under its identifier and the courier map is probed with the same key. -/
def lockedFinishOrder (m : matchedOrderManager) (order : dispatchedOrder) :
    matchedOrderManager × Option dispatchedCourier :=
  let m1 := { m with finishedOrderMap := m.finishedOrderMap.Store order.Order.ID order }
  (m1, m1.courierMap.Load order.Order.ID)

/-- The critical section of `finishPickUp` (lock, Store, Load, unlock). -/
def lockedFinishPickUp (m : matchedOrderManager) (courier : dispatchedCourier) :
    matchedOrderManager × Option dispatchedOrder :=
  let m1 := { m with courierMap := m.courierMap.Store courier.Courier.OrderID courier }
  (m1, m1.finishedOrderMap.Load courier.Courier.OrderID)

/-- The rest of `finishOrder` for an order that was parked on `<-order.notification` and
has received: `order.PickedUpTime = time.Now()`, then the food wait is added. The map
holds a pointer to the event, so the entry shows the new fields. -/
def resumeFinishOrder (m : matchedOrderManager) (order : dispatchedOrder) (now : Int) :
    matchedOrderManager × dispatchedOrder :=
  let order1 := { order with PickedUpTime := now, notification := ⟨false⟩ }
  let m1 := { m with finishedOrderMap := m.finishedOrderMap.Store order1.Order.ID order1 }
  ({ m1 with base := m1.base.incrementTotalFoodWaitTime order1.getWaitTimeInMs }, order1)

/-- The rest of `finishPickUp` for a courier that was parked on `<-courier.notification`
and has received `order`: `courier.PickedUpTime = time.Now()`, the pick-up is logged,
then the courier wait is added. -/
def resumeFinishPickUp (m : matchedOrderManager) (courier : dispatchedCourier)
    (order : dispatchedOrder) (now : Int) : matchedOrderManager :=
  let courier1 := { courier with PickedUpTime := now, notification := ⟨false⟩ }
  let m1 := { m with courierMap := m.courierMap.Store courier1.Courier.OrderID courier1 }
  let m2 := { m1 with base := m1.base.logPickUpEvent order courier1 }
  { m2 with base := m2.base.incrementTotalCourierWaitTime courier1.getWaitTimeInMs }

/-- finishOrder for the matched strategy. When the probe finds the courier the order is
the matcher: it takes `now` as pick-up time (the map holds a pointer to the event, so the
entry shows the new field), writes itself to the notification channel of the courier
(which resumes the parked courier, reading `wake`), adds its food wait and, deferred,
completes the order. A courier that is not parked never receives, and the send
blocks for ever before any statistic is touched. When the probe finds nothing the order
parks on its own channel. -/
def finishOrder (m : matchedOrderManager) (order : dispatchedOrder) (now wake : Int) :
    matchedOrderManager :=
  match m.lockedFinishOrder order with
  | (m1, some courier) =>
    let order1 := { order with PickedUpTime := now }
    let m2 := { m1 with
      finishedOrderMap := m1.finishedOrderMap.Store order1.Order.ID order1 }
    if courier.notification.parked then
      let m3 := m2.resumeFinishPickUp courier order1 wake
      let m4 := { m3 with base := m3.base.incrementTotalFoodWaitTime order1.getWaitTimeInMs }
      { m4 with base := m4.base.completeOrder }
    else m2
  | (m1, none) =>
    { m1 with finishedOrderMap :=
        m1.finishedOrderMap.Store order.Order.ID { order with notification := ⟨true⟩ } }

/-- finishPickUp for the matched strategy. When the probe finds the order the courier is
the matcher: it takes `now` as pick-up time, writes itself to the notification channel of
the order (which resumes the parked order, reading `wake`), logs the pick-up, adds its
courier wait and, deferred, completes the order. When the probe finds nothing the
courier parks on its own channel. -/
def finishPickUp (m : matchedOrderManager) (courier : dispatchedCourier) (now wake : Int) :
    matchedOrderManager :=
  match m.lockedFinishPickUp courier with
  | (m1, some order) =>
    let courier1 := { courier with PickedUpTime := now }
    let m2 := { m1 with
      courierMap := m1.courierMap.Store courier1.Courier.OrderID courier1 }
    if order.notification.parked then
      let (m3, order1) := m2.resumeFinishOrder order wake
      let m4 := { m3 with base := m3.base.logPickUpEvent order1 courier1 }
      let m5 := { m4 with
        base := m4.base.incrementTotalCourierWaitTime courier1.getWaitTimeInMs }
      { m5 with base := m5.base.completeOrder }
    else m2
  | (m1, none) =>
    { m1 with courierMap :=
        m1.courierMap.Store courier.Courier.OrderID { courier with notification := ⟨true⟩ } }

/-- processOrder after its sleep: `d.FinishTime = time.Now()`, then `finishOrder`. -/
def processOrder (m : matchedOrderManager) (d : dispatchedOrder) (ready now wake : Int) :
    matchedOrderManager :=
  m.finishOrder { d with FinishTime := ready } now wake

/-- pickUpOrder after its sleep: `d.ArrivedTime = time.Now()`, then `finishPickUp`. -/
def pickUpOrder (m : matchedOrderManager) (d : dispatchedCourier) (ready now wake : Int) :
    matchedOrderManager :=
  m.finishPickUp { d with ArrivedTime := ready } now wake

/-- One arrival handled by the matched manager. -/
def arrive (m : matchedOrderManager) (a : Arrival) : matchedOrderManager :=
  match a.ev with
  | .order d => m.processOrder d a.ready a.now a.wake
  | .courier d => m.pickUpOrder d a.ready a.now a.wake

/-- The arrivals handled one after the other, in the order in which they pass through
the locked publish and probe step. -/
def run (m : matchedOrderManager) (evs : List Arrival) : matchedOrderManager :=
  evs.foldl arrive m

/-- Whether an arrival takes the matcher path in state `m`: the `ok` of its probe. -/
def takesMatcherPath (m : matchedOrderManager) (a : Arrival) : Bool :=
  match a.ev with
  | .order d => (m.lockedFinishOrder { d with FinishTime := a.ready }).2.isSome
  | .courier d => (m.lockedFinishPickUp { d with ArrivedTime := a.ready }).2.isSome

/-- The counterpart that the probe of an arrival finds in state `m`, as a ready event. -/
def probed (m : matchedOrderManager) (a : Arrival) : Option Ready :=
  match a.ev with
  | .order d => (m.lockedFinishOrder { d with FinishTime := a.ready }).2.map Ready.courier
  | .courier d => (m.lockedFinishPickUp { d with ArrivedTime := a.ready }).2.map Ready.order

/-- The `ok` of every arrival of a run, in arrival order. -/
def matcherFlags : matchedOrderManager → List Arrival → List Bool
  | _, [] => []
  | m, a :: evs => m.takesMatcherPath a :: matcherFlags (m.arrive a) evs

end matchedOrderManager

/-- The state after `n` calls of `DispatchOrder` on a new matched manager, as far as the
barrier is concerned: `wgAdd` has run `n` times. -/
def matchedDispatched (random : Option resource.Rand) (n : Nat) : matchedOrderManager :=
  { newMatchedOrderManager random with
    base := (orderManagerBase.wgAdd)^[n] (getOrderManagerBaseClass random) }

/-- The sides and keys of a list of arrivals. -/
def tags (evs : List Arrival) : List (Bool × String) := evs.map Arrival.tag

/-- MapInv relates the two maps of a matched manager to the arrivals handled so far:
an entry exists exactly for the arrivals of its side, is stored under its own order
identifier, carries the ready reading of its arrival, and is parked as long as no
counterpart with the same key has arrived. -/
structure MapInv (pre : List Arrival) (m : matchedOrderManager) : Prop where
  ord : ∀ k o, m.finishedOrderMap.Load k = some o →
    o.Order.ID = k ∧ ((false, k) ∉ tags pre → o.notification.parked = true) ∧
    ∃ a ∈ pre, ∃ d, a.ev = Ready.order d ∧ d.Order = o.Order ∧ o.FinishTime = a.ready
  ordNone : ∀ k, m.finishedOrderMap.Load k = none → (true, k) ∉ tags pre
  cou : ∀ k c, m.courierMap.Load k = some c →
    c.Courier.OrderID = k ∧ ((true, k) ∉ tags pre → c.notification.parked = true) ∧
    ∃ a ∈ pre, ∃ d, a.ev = Ready.courier d ∧ d.Courier = c.Courier ∧ c.ArrivedTime = a.ready
  couNone : ∀ k, m.courierMap.Load k = none → (false, k) ∉ tags pre

/-- The order event after its pick-up as matcher. -/
def matcherOrder (d : dispatchedOrder) (a : Arrival) : dispatchedOrder :=
  { d with FinishTime := a.ready, PickedUpTime := a.now }

/-- The courier event after it was woken by the arrival `a`. -/
def wokenCourier (c : dispatchedCourier) (a : Arrival) : dispatchedCourier :=
  { c with PickedUpTime := a.wake, notification := ⟨false⟩ }

/-- The courier event after its pick-up as matcher. -/
def matcherCourier (d : dispatchedCourier) (a : Arrival) : dispatchedCourier :=
  { d with ArrivedTime := a.ready, PickedUpTime := a.now }

/-- The order event after it was woken by the arrival `a`. -/
def wokenOrder (o : dispatchedOrder) (a : Arrival) : dispatchedOrder :=
  { o with PickedUpTime := a.wake, notification := ⟨false⟩ }

/-- The base after one resolved pair: the pick-up is logged, both waits are added and the
order is completed. -/
def pairedBase (b : orderManagerBase) (o : dispatchedOrder) (c : dispatchedCourier) :
    orderManagerBase :=
  { wg := b.wg - 1, random := b.random,
    stats := ⟨b.stats.TotalOrderCount + 1, b.stats.TotalFoodWaitTime + o.getWaitTimeInMs,
      b.stats.TotalCourierWaitTime + c.getWaitTimeInMs⟩,
    pickUpLog := b.pickUpLog ++ [(o, c)] }

/-- The side and key of the counterpart of an arrival. -/
def Arrival.cotag (a : Arrival) : Bool × String := (!a.ev.isOrder, a.ev.key)

/-- The food wait recorded for a pair resolved by the matcher `a` with the parked
counterpart `b`: the order reads `now` when it is the matcher and `wake` when it is woken. -/
def foodWaitOf (a b : Arrival) : Int :=
  if a.ev.isOrder then Milliseconds (a.now - a.ready) else Milliseconds (a.wake - b.ready)

/-- The courier wait recorded for a pair resolved by the matcher `a` with the parked
counterpart `b`. -/
def courierWaitOf (a b : Arrival) : Int :=
  if a.ev.isOrder then Milliseconds (a.wake - b.ready) else Milliseconds (a.now - a.ready)

/-- The identifiers of `ids` for which both the order and the courier are among the
arrivals `pre`. -/
def pairedIds (ids : List String) (pre : List Arrival) : List String :=
  ids.filter (fun k => decide ((true, k) ∈ tags pre) && decide ((false, k) ∈ tags pre))

/-! ## `container/list` -/

/-- Element is a `*list.Element`: `ptr` is the identity of the pointer, `Value` the value
stored in the element. -/
structure Element (α : Type) where
  ptr : Nat
  Value : α
deriving DecidableEq, Repr

/-- GoList is a `*list.List`: the elements linked in it (those with `e.list == l`), front
to back, and the number of elements allocated by it so far, which names the next one. -/
structure GoList (α : Type) where
  elems : List (Element α)
  next : Nat
deriving DecidableEq, Repr

namespace GoList

variable {α : Type}

/-- New of `container/list`: an empty list. -/
def New : GoList α := ⟨[], 0⟩

/-- Len of `container/list`. -/
def Len (l : GoList α) : Int := l.elems.length

/-- Front of `container/list`: the first element, or nil for an empty list. -/
def Front (l : GoList α) : Option (Element α) := l.elems.head?

/-- PushBack of `container/list`: a new element at the back, returned as handle. -/
def PushBack (l : GoList α) (v : α) : GoList α × Element α :=
  (⟨l.elems ++ [⟨l.next, v⟩], l.next + 1⟩, ⟨l.next, v⟩)

/-- The test `e.list == l` of `Remove`: the element is linked in the list. -/
def linked (l : GoList α) (e : Element α) : Bool := l.elems.any (fun x => x.ptr == e.ptr)

/-- Remove of `container/list`: `if e.list == l { l.remove(e) }; return e.Value`. -/
def Remove (l : GoList α) (e : Element α) : GoList α × α :=
  if l.linked e then (⟨l.elems.eraseP (fun x => x.ptr == e.ptr), l.next⟩, e.Value)
  else (l, e.Value)

/-- A write through the pointer stored in the element `e`: the value the list shows for
`e` becomes `v`. -/
def setValue (l : GoList α) (e : Element α) (v : α) : GoList α :=
  ⟨l.elems.map (fun x => if x.ptr = e.ptr then ⟨x.ptr, v⟩ else x), l.next⟩

/-- The values in the list, front to back. -/
def values (l : GoList α) : List α := l.elems.map (fun x => x.Value)

/-- The handles of a list are sound when no pointer is linked twice and every linked
pointer was allocated by the list. -/
def WF (l : GoList α) : Prop :=
  (l.elems.map (fun x => x.ptr)).Nodup ∧ ∀ x ∈ l.elems, x.ptr < l.next

end GoList

/-- Op is an operation on a queue of the FIFO strategy: an append, the pop of the
front by a probe (`Remove(Front())` under `Len() > 0`), or the removal of a handle. -/
inductive Op (α : Type) where
  | pushBack (v : α)
  | popFront
  | remove (e : Element α)

/-- One queue operation. -/
def GoList.apply {α : Type} (l : GoList α) : Op α → GoList α
  | .pushBack v => (l.PushBack v).1
  | .popFront =>
    if l.Len > 0 then
      match l.Front with
      | some e => (l.Remove e).1
      | none => l
    else l
  | .remove e => (l.Remove e).1

/-- A sequence of queue operations, oldest first. -/
def GoList.applyAll {α : Type} (l : GoList α) (ops : List (Op α)) : GoList α :=
  ops.foldl GoList.apply l

/-- A queue state and a handle into it: the queue is built from `New` by the operations
`ops1`, then `PushBack v` returns the handle, then the operations `ops2` follow. -/
def GoList.handleAfter {α : Type} (ops1 : List (Op α)) (v : α) (ops2 : List (Op α)) :
    GoList α × Element α :=
  ((((GoList.New : GoList α).applyAll ops1).PushBack v).1.applyAll ops2,
   (((GoList.New : GoList α).applyAll ops1).PushBack v).2)

/-! ## FIFO strategy -/

/-- fifoOrderManager: the base and the two queues. -/
structure fifoOrderManager where
  base : orderManagerBase
  finishedOrderQueue : GoList dispatchedOrder
  courierQueue : GoList dispatchedCourier

/-- GetFIFOOrderManager, on first use: a new base and two empty queues. -/
def newFIFOOrderManager (random : Option resource.Rand) : fifoOrderManager :=
  { base := getOrderManagerBaseClass random, finishedOrderQueue := GoList.New,
    courierQueue := GoList.New }

namespace fifoOrderManager

/-- evictFromFinishedOrderQueue: `f.finishedOrderQueue.Remove(elem)` under the lock. -/
def evictFromFinishedOrderQueue (f : fifoOrderManager) (elem : Element dispatchedOrder) :
    fifoOrderManager :=
  { f with finishedOrderQueue := (f.finishedOrderQueue.Remove elem).1 }

/-- evictFromCourierQueue: `f.courierQueue.Remove(elem)` under the lock. -/
def evictFromCourierQueue (f : fifoOrderManager) (elem : Element dispatchedCourier) :
    fifoOrderManager :=
  { f with courierQueue := (f.courierQueue.Remove elem).1 }

/-- The first critical section of `finishOrder` (lock, PushBack, Len, Remove of the
front, unlock): the order is appended to its queue and, when the courier queue is not
empty, its front is popped. The handle of the order and the popped element are returned.
`Front` is nil only when `Len` is 0, so the branch without a front is never taken. -/
def lockedFinishOrder (f : fifoOrderManager) (order : dispatchedOrder) :
    fifoOrderManager × Element dispatchedOrder × Option (Element dispatchedCourier) :=
  let pushed := f.finishedOrderQueue.PushBack order
  let f1 := { f with finishedOrderQueue := pushed.1 }
  if f1.courierQueue.Len > 0 then
    match f1.courierQueue.Front with
    | some front =>
      let removed := f1.courierQueue.Remove front
      ({ f1 with courierQueue := removed.1 }, pushed.2, some ⟨front.ptr, removed.2⟩)
    | none => (f1, pushed.2, none)
  else (f1, pushed.2, none)

/-- The first critical section of `finishPickUp`. -/
def lockedFinishPickUp (f : fifoOrderManager) (courier : dispatchedCourier) :
    fifoOrderManager × Element dispatchedCourier × Option (Element dispatchedOrder) :=
  let pushed := f.courierQueue.PushBack courier
  let f1 := { f with courierQueue := pushed.1 }
  if f1.finishedOrderQueue.Len > 0 then
    match f1.finishedOrderQueue.Front with
    | some front =>
      let removed := f1.finishedOrderQueue.Remove front
      ({ f1 with finishedOrderQueue := removed.1 }, pushed.2, some ⟨front.ptr, removed.2⟩)
    | none => (f1, pushed.2, none)
  else (f1, pushed.2, none)

/-- The rest of `finishOrder` for an order that was parked on `<-order.notification` and
has received: it evicts its own handle, takes `now` as pick-up time and adds its food
wait. -/
def resumeFinishOrder (f : fifoOrderManager) (elem : Element dispatchedOrder) (now : Int) :
    fifoOrderManager × dispatchedOrder :=
  let f1 := f.evictFromFinishedOrderQueue elem
  let order1 := { elem.Value with PickedUpTime := now, notification := ⟨false⟩ }
  ({ f1 with base := f1.base.incrementTotalFoodWaitTime order1.getWaitTimeInMs }, order1)

/-- The rest of `finishPickUp` for a courier that was parked on `<-courier.notification`
and has received `order`: it evicts its own handle, takes `now` as pick-up time, logs
the pick-up and adds its courier wait. -/
def resumeFinishPickUp (f : fifoOrderManager) (elem : Element dispatchedCourier)
    (order : dispatchedOrder) (now : Int) : fifoOrderManager :=
  let f1 := f.evictFromCourierQueue elem
  let courier1 := { elem.Value with PickedUpTime := now, notification := ⟨false⟩ }
  let f2 := { f1 with base := f1.base.logPickUpEvent order courier1 }
  { f2 with base := f2.base.incrementTotalCourierWaitTime courier1.getWaitTimeInMs }

/-- The matcher path of `finishOrder`, after the first critical section has popped the
courier element `popped`: the order takes `now` as pick-up time, evicts its own handle in
a second critical section, and writes itself to the channel of the popped courier. A
parked courier resumes (reading `wake`); then the order adds its food wait and, deferred,
completes the order. A courier that is not parked never receives, and the send blocks
for ever. -/
def matchedFinishOrder (f : fifoOrderManager) (order : dispatchedOrder)
    (elem : Element dispatchedOrder) (popped : Element dispatchedCourier) (now wake : Int) :
    fifoOrderManager :=
  let order1 := { order with PickedUpTime := now }
  let f1 := f.evictFromFinishedOrderQueue elem
  if popped.Value.notification.parked then
    let f2 := f1.resumeFinishPickUp popped order1 wake
    let f3 := { f2 with base := f2.base.incrementTotalFoodWaitTime order1.getWaitTimeInMs }
    { f3 with base := f3.base.completeOrder }
  else f1

/-- The matcher path of `finishPickUp`, after the first critical section has popped the
order element `popped`. -/
def matchedFinishPickUp (f : fifoOrderManager) (courier : dispatchedCourier)
    (elem : Element dispatchedCourier) (popped : Element dispatchedOrder) (now wake : Int) :
    fifoOrderManager :=
  let courier1 := { courier with PickedUpTime := now }
  let f1 := f.evictFromCourierQueue elem
  if popped.Value.notification.parked then
    let resumed := f1.resumeFinishOrder popped wake
    let f3 := { resumed.1 with base := resumed.1.base.logPickUpEvent resumed.2 courier1 }
    let f4 := { f3 with
      base := f3.base.incrementTotalCourierWaitTime courier1.getWaitTimeInMs }
    { f4 with base := f4.base.completeOrder }
  else f1

/-- The waiter path of `finishOrder`: the order blocks on its own channel; its entry in
the queue is the parked event. -/
def parkOrder (f : fifoOrderManager) (order : dispatchedOrder)
    (elem : Element dispatchedOrder) : fifoOrderManager :=
  { f with finishedOrderQueue :=
      f.finishedOrderQueue.setValue elem { order with notification := ⟨true⟩ } }

/-- The waiter path of `finishPickUp`. -/
def parkCourier (f : fifoOrderManager) (courier : dispatchedCourier)
    (elem : Element dispatchedCourier) : fifoOrderManager :=
  { f with courierQueue :=
      f.courierQueue.setValue elem { courier with notification := ⟨true⟩ } }

/-- finishOrder for the FIFO strategy, run without another call in between: the first
critical section, then the matcher path or the waiter path. -/
def finishOrder (f : fifoOrderManager) (order : dispatchedOrder) (now wake : Int) :
    fifoOrderManager :=
  match f.lockedFinishOrder order with
  | (f1, elem, some popped) => f1.matchedFinishOrder order elem popped now wake
  | (f1, elem, none) => f1.parkOrder order elem

/-- finishPickUp for the FIFO strategy, run without another call in between. -/
def finishPickUp (f : fifoOrderManager) (courier : dispatchedCourier) (now wake : Int) :
    fifoOrderManager :=
  match f.lockedFinishPickUp courier with
  | (f1, elem, some popped) => f1.matchedFinishPickUp courier elem popped now wake
  | (f1, elem, none) => f1.parkCourier courier elem

/-- processOrder after its sleep: `d.FinishTime = time.Now()`, then `finishOrder`. -/
def processOrder (f : fifoOrderManager) (d : dispatchedOrder) (ready now wake : Int) :
    fifoOrderManager :=
  f.finishOrder { d with FinishTime := ready } now wake

/-- pickUpOrder after its sleep: `d.ArrivedTime = time.Now()`, then `finishPickUp`. -/
def pickUpOrder (f : fifoOrderManager) (d : dispatchedCourier) (ready now wake : Int) :
    fifoOrderManager :=
  f.finishPickUp { d with ArrivedTime := ready } now wake

/-- One arrival handled by the FIFO manager. -/
def arrive (f : fifoOrderManager) (a : Arrival) : fifoOrderManager :=
  match a.ev with
  | .order d => f.processOrder d a.ready a.now a.wake
  | .courier d => f.pickUpOrder d a.ready a.now a.wake

/-- The arrivals handled one call after the other, in arrival order. -/
def run (f : fifoOrderManager) (evs : List Arrival) : fifoOrderManager :=
  evs.foldl arrive f

/-- Whether an arrival takes the matcher path in state `f`: the `ok` of its probe. -/
def takesMatcherPath (f : fifoOrderManager) (a : Arrival) : Bool :=
  match a.ev with
  | .order d => (f.lockedFinishOrder { d with FinishTime := a.ready }).2.2.isSome
  | .courier d => (f.lockedFinishPickUp { d with ArrivedTime := a.ready }).2.2.isSome

/-- The `ok` of every arrival of a run, in arrival order. -/
def matcherFlags : fifoOrderManager → List Arrival → List Bool
  | _, [] => []
  | f, a :: evs => f.takesMatcherPath a :: matcherFlags (f.arrive a) evs

end fifoOrderManager

/-- The state after `n` calls of `DispatchOrder` on a new FIFO manager, as far as the
barrier is concerned: `wgAdd` has run `n` times. -/
def fifoDispatched (random : Option resource.Rand) (n : Nat) : fifoOrderManager :=
  { newFIFOOrderManager random with
    base := (orderManagerBase.wgAdd)^[n] (getOrderManagerBaseClass random) }

/-! ## The FIFO strategy on plain lists

The same transitions as `fifoOrderManager.arrive`, written on the lists of parked events
without handles; `FifoRel` relates the two, and the proofs about runs are done here. -/

/-- The order event left in the queue by an arrival that parks. -/
def parkedOrder (d : dispatchedOrder) (a : Arrival) : dispatchedOrder :=
  { d with FinishTime := a.ready, notification := ⟨true⟩ }

/-- The courier event left in the queue by an arrival that parks. -/
def parkedCourier (d : dispatchedCourier) (a : Arrival) : dispatchedCourier :=
  { d with ArrivedTime := a.ready, notification := ⟨true⟩ }

/-- FifoAbs: the base, the parked orders and the parked couriers, oldest first. -/
structure FifoAbs where
  base : orderManagerBase
  waitO : List dispatchedOrder
  waitC : List dispatchedCourier

/-- One arrival on the plain lists: the oldest parked counterpart is taken when there is
one, and the arrival parks otherwise. -/
def FifoAbs.arrive (s : FifoAbs) (a : Arrival) : FifoAbs :=
  match a.ev with
  | .order d =>
    match s.waitC with
    | c :: rest => ⟨pairedBase s.base (matcherOrder d a) (wokenCourier c a), s.waitO, rest⟩
    | [] => ⟨s.base, s.waitO ++ [parkedOrder d a], []⟩
  | .courier d =>
    match s.waitO with
    | o :: rest => ⟨pairedBase s.base (wokenOrder o a) (matcherCourier d a), rest, s.waitC⟩
    | [] => ⟨s.base, [], s.waitC ++ [parkedCourier d a]⟩

/-- The arrivals handled one after the other on the plain lists. -/
def FifoAbs.run (s : FifoAbs) (evs : List Arrival) : FifoAbs := evs.foldl FifoAbs.arrive s

/-- Whether an arrival finds a parked counterpart on the plain lists. -/
def FifoAbs.takesMatcherPath (s : FifoAbs) (a : Arrival) : Bool :=
  match a.ev with
  | .order _ => !s.waitC.isEmpty
  | .courier _ => !s.waitO.isEmpty

/-- FifoRel: the manager and the plain lists agree: same base, the queues hold the parked
events in the same order, every queued event is parked, and the handles are sound. -/
structure FifoRel (f : fifoOrderManager) (s : FifoAbs) : Prop where
  base : f.base = s.base
  orders : f.finishedOrderQueue.values = s.waitO
  couriers : f.courierQueue.values = s.waitC
  wfO : f.finishedOrderQueue.WF
  wfC : f.courierQueue.WF
  parkedO : ∀ o ∈ s.waitO, o.notification.parked = true
  parkedC : ∀ c ∈ s.waitC, c.notification.parked = true

/-- The order-ready events of a list of arrivals, in arrival order: the order and the
instant at which it became ready. -/
def orderKeys : List Arrival → List (resource.Order × Int)
  | [] => []
  | a :: evs =>
    match a.ev with
    | .order d => (d.Order, a.ready) :: orderKeys evs
    | .courier _ => orderKeys evs

/-- The courier-ready events of a list of arrivals, in arrival order: the courier and the
instant at which it arrived. -/
def courierKeys : List Arrival → List (resource.Courier × Int)
  | [] => []
  | a :: evs =>
    match a.ev with
    | .order _ => courierKeys evs
    | .courier d => (d.Courier, a.ready) :: courierKeys evs

/-- The order and ready instant of an order event. -/
def okey (o : dispatchedOrder) : resource.Order × Int := (o.Order, o.FinishTime)

/-- The courier and arrival instant of a courier event. -/
def ckey (c : dispatchedCourier) : resource.Courier × Int := (c.Courier, c.ArrivedTime)

/-- FifoInv describes the plain lists after the arrivals `pre`, with `log` the pairs
resolved so far: at most one side is waiting; the orders of the pairs followed by the
waiting orders are the order-ready events in arrival order, and likewise the couriers;
the counters of the base have moved by the pairs of `log`. -/
structure FifoInv (b0 : orderManagerBase) (pre : List Arrival) (s : FifoAbs)
    (log : List (dispatchedOrder × dispatchedCourier)) : Prop where
  oneSide : s.waitO = [] ∨ s.waitC = []
  logEq : s.base.pickUpLog = b0.pickUpLog ++ log
  okeys : log.map (fun p => okey p.1) ++ s.waitO.map okey = orderKeys pre
  ckeys : log.map (fun p => ckey p.2) ++ s.waitC.map ckey = courierKeys pre
  count : s.base.stats.TotalOrderCount = b0.stats.TotalOrderCount + log.length
  wg : s.base.wg = b0.wg - log.length
  food : s.base.stats.TotalFoodWaitTime
    = b0.stats.TotalFoodWaitTime + (log.map (fun p => p.1.getWaitTimeInMs)).sum
  courier : s.base.stats.TotalCourierWaitTime
    = b0.stats.TotalCourierWaitTime + (log.map (fun p => p.2.getWaitTimeInMs)).sum

/-! ## Scenario of the tests -/

/-- One second, in nanoseconds (`time.Second`). -/
def Second : Int := 1000000000

/-- The arrival of an order dispatched at time 0 in the scenario without latency: the
order is ready after `PrepTime` seconds and every clock reading of its call is that
instant. -/
def readyOrder (o : resource.Order) : Arrival :=
  { ev := Ready.order (getDispatchedOrder o 0), ready := o.PrepTime * Second,
    now := o.PrepTime * Second, wake := o.PrepTime * Second }

/-- The arrival of a courier dispatched at time 0 in the scenario without latency: the
courier arrives after `TravelTime` seconds and every clock reading of its call is that
instant. -/
def readyCourier (c : resource.Courier) : Arrival :=
  { ev := Ready.courier (getDispatchedCourier c 0), ready := c.TravelTime * Second,
    now := c.TravelTime * Second, wake := c.TravelTime * Second }

/-- testOrders of `order_manager_test.go`. -/
def testOrders : List resource.Order :=
  [⟨"1", "Food 1", 2⟩, ⟨"2", "Food 2", 10⟩, ⟨"3", "Food 3", 4⟩, ⟨"4", "Food 4", 6⟩]

/-- testCourierTravelTimes of `order_manager_test.go`. -/
def testCourierTravelTimes : List Int := [4, 5, 3, 8]

/-- The couriers `DispatchOrder` creates for `testOrders` with the mock generator. -/
def testCouriers : List resource.Courier :=
  List.zipWith (fun (o : resource.Order) t => resource.NewCourier ("courier-" ++ o.ID) o.ID t)
    testOrders testCourierTravelTimes

/-- The eight arrivals of the test scenario in the order of their instants (2, 3, 4, 4,
5, 6, 8 and 10 seconds), the order ready at 4 s before the courier arriving at 4 s. -/
def testArrivals : List Arrival :=
  [readyOrder ⟨"1", "Food 1", 2⟩,
   readyCourier (resource.NewCourier "courier-3" "3" 3),
   readyOrder ⟨"3", "Food 3", 4⟩,
   readyCourier (resource.NewCourier "courier-1" "1" 4),
   readyCourier (resource.NewCourier "courier-2" "2" 5),
   readyOrder ⟨"4", "Food 4", 6⟩,
   readyCourier (resource.NewCourier "courier-4" "4" 8),
   readyOrder ⟨"2", "Food 2", 10⟩]

/-- The preparation time of the test order with the given identifier. -/
def testPrep (i : String) : Int :=
  ((testOrders.find? (fun o => o.ID = i)).map (fun o => o.PrepTime)).getD 0

/-- The travel time of the courier of the test order with the given identifier. -/
def testTravel (i : String) : Int :=
  ((testCouriers.find? (fun c => c.OrderID = i)).map (fun c => c.TravelTime)).getD 0

/-- ScenInv: in the scenario without latency every parked event became ready at its
nominal instant, not after the latest arrival, and every logged pair has the waits given
by the preparation time of its order and the travel time of its courier. -/
structure ScenInv (pre : List Arrival) (s : FifoAbs) : Prop where
  wO : ∀ o ∈ s.waitO, o.FinishTime = o.Order.PrepTime * Second ∧
    ∃ b ∈ pre, b.ready = o.FinishTime
  wC : ∀ c ∈ s.waitC, c.ArrivedTime = c.Courier.TravelTime * Second ∧
    ∃ b ∈ pre, b.ready = c.ArrivedTime
  lg : ∀ p ∈ s.base.pickUpLog,
    p.1.getWaitTimeInMs = 1000 * max 0 (p.2.Courier.TravelTime - p.1.Order.PrepTime) ∧
    p.2.getWaitTimeInMs = 1000 * max 0 (p.1.Order.PrepTime - p.2.Courier.TravelTime)

/-! ## FIFO strategy: the critical sections as separate steps

In the source the matcher leaves the lock after the publish and probe step and takes it
again for its own eviction. `FifoSched` keeps the calls that are between the two. -/

/-- Pending is a call on the matcher path between its two critical sections: the event,
its own handle and the element it popped. -/
inductive Pending where
  | order (order : dispatchedOrder) (elem : Element dispatchedOrder)
      (popped : Element dispatchedCourier)
  | courier (courier : dispatchedCourier) (elem : Element dispatchedCourier)
      (popped : Element dispatchedOrder)
deriving DecidableEq, Repr

/-- FifoSched: the manager and the calls between their two critical sections, oldest
first. -/
structure FifoSched where
  mgr : fifoOrderManager
  pending : List Pending

/-- Action is one atomic step of a task: `enter` is the first critical section of a
call (publish and probe-pop), after which a call that found nothing is parked; `finish`
is the rest of the matcher path of the pending call number `i`, which begins with the
second critical section (the eviction of its own handle) and ends with the return of
the call or, when the popped counterpart is not parked, in the send that blocks for
ever. -/
inductive Action where
  | enter (a : Arrival)
  | finish (i : Nat) (now wake : Int)
deriving DecidableEq, Repr

namespace FifoSched

/-- One atomic step. -/
def step (s : FifoSched) : Action → FifoSched
  | .enter a =>
    match a.ev with
    | .order d =>
      match s.mgr.lockedFinishOrder { d with FinishTime := a.ready } with
      | (f1, elem, some popped) =>
        ⟨f1, s.pending ++ [Pending.order { d with FinishTime := a.ready } elem popped]⟩
      | (f1, elem, none) => ⟨f1.parkOrder { d with FinishTime := a.ready } elem, s.pending⟩
    | .courier d =>
      match s.mgr.lockedFinishPickUp { d with ArrivedTime := a.ready } with
      | (f1, elem, some popped) =>
        ⟨f1, s.pending ++ [Pending.courier { d with ArrivedTime := a.ready } elem popped]⟩
      | (f1, elem, none) => ⟨f1.parkCourier { d with ArrivedTime := a.ready } elem, s.pending⟩
  | .finish i now wake =>
    match s.pending[i]? with
    | some (Pending.order order elem popped) =>
      ⟨s.mgr.matchedFinishOrder order elem popped now wake, s.pending.eraseIdx i⟩
    | some (Pending.courier courier elem popped) =>
      ⟨s.mgr.matchedFinishPickUp courier elem popped now wake, s.pending.eraseIdx i⟩
    | none => s

/-- A sequence of atomic steps, an interleaving of the tasks. -/
def steps (s : FifoSched) (acts : List Action) : FifoSched := acts.foldl step s

/-- Whether the element popped by the pending call `q` is the own handle of the pending
call `p` of the other side: `p` has taken the matcher path and is then popped from its
queue by the counterpart `q`. -/
def poppedMatcher : Pending → Pending → Bool
  | Pending.order _ elem _, Pending.courier _ _ popped => elem.ptr == popped.ptr
  | Pending.courier _ elem _, Pending.order _ _ popped => elem.ptr == popped.ptr
  | _, _ => false

/-- Whether some pending matcher has been popped by a later pending call. -/
def matcherPopped (s : FifoSched) : Bool :=
  s.pending.any (fun p => s.pending.any (fun q => poppedMatcher p q))

end FifoSched

/-- Two orders dispatched at time 0, with preparation times 1 s and 3 s and travel times
3 s and 4 s: order 1 is ready at 1 s. -/
def raceOrder1 : Arrival := readyOrder ⟨"1", "Food 1", 1⟩

/-- The courier of order 1, which arrives at 3 s. -/
def raceCourier1 : Arrival := readyCourier (resource.NewCourier "courier-1" "1" 3)

/-- Order 2, which is ready at 3 s, the instant at which courier 1 arrives. -/
def raceOrder2 : Arrival := readyOrder ⟨"2", "Food 2", 3⟩

/-- The courier of order 2, which arrives at 4 s. -/
def raceCourier2 : Arrival := readyCourier (resource.NewCourier "courier-2" "2" 4)

/-- The interleaving of the race: courier 1 pops order 1 and leaves the lock; order 2
enters before courier 1 has evicted its own handle; then both finish and courier 2
enters. -/
def raceSchedule : List Action :=
  [Action.enter raceOrder1, Action.enter raceCourier1, Action.enter raceOrder2,
   Action.finish 0 (3 * Second) (3 * Second), Action.finish 0 (3 * Second) (3 * Second),
   Action.enter raceCourier2]

/-- The four arrivals of the race in the order in which they enter: order 1, courier 1,
order 2, courier 2. -/
def raceArrivals : List Arrival := [raceOrder1, raceCourier1, raceOrder2, raceCourier2]

/-- The state of a FIFO manager with the barrier raised twice after the interleaving of
the race. -/
def raceFinal : FifoSched := (⟨fifoDispatched none 2, []⟩ : FifoSched).steps raceSchedule

/-- What a pending call holds: the key of its own event, whether it is an order, and the
identifier of the courier or order it popped with the `parked` flag of that event. -/
def Pending.summary : Pending → Bool × String × String × Bool
  | Pending.order o _ popped =>
    (true, o.Order.ID, popped.Value.Courier.ID, popped.Value.notification.parked)
  | Pending.courier c _ popped =>
    (false, c.Courier.ID, popped.Value.Order.ID, popped.Value.notification.parked)

/-! ## Clock readings -/

/-- The clock readings of the calls of a list of arrivals, in the order in which they
are taken: for each call the ready instant, the pick-up instant of the matcher path and
the pick-up instant of the counterpart it wakes. -/
def readings : List Arrival → List Int
  | [] => []
  | a :: evs => a.ready :: a.now :: a.wake :: readings evs

/-- Grows relates the base before and after some calls: pairs were logged, each with
non-negative waits, and the two wait totals grew by the waits of these pairs. -/
def Grows (b b1 : orderManagerBase) : Prop :=
  ∃ newlog : List (dispatchedOrder × dispatchedCourier),
    b1.pickUpLog = b.pickUpLog ++ newlog ∧
    (∀ p ∈ newlog, 0 ≤ p.1.getWaitTimeInMs ∧ 0 ≤ p.2.getWaitTimeInMs) ∧
    b1.stats.TotalFoodWaitTime
      = b.stats.TotalFoodWaitTime + (newlog.map (fun p => p.1.getWaitTimeInMs)).sum ∧
    b1.stats.TotalCourierWaitTime
      = b.stats.TotalCourierWaitTime + (newlog.map (fun p => p.2.getWaitTimeInMs)).sum

/-- MatchedClock: no event in the maps became ready after the instant `t`. -/
structure MatchedClock (m : matchedOrderManager) (t : Int) : Prop where
  ord : ∀ k o, m.finishedOrderMap.Load k = some o → o.FinishTime ≤ t
  cou : ∀ k c, m.courierMap.Load k = some c → c.ArrivedTime ≤ t

/-- FifoClock: no parked event became ready after the instant `t`. -/
structure FifoClock (s : FifoAbs) (t : Int) : Prop where
  ord : ∀ o ∈ s.waitO, o.FinishTime ≤ t
  cou : ∀ c ∈ s.waitC, c.ArrivedTime ≤ t

/-! ## Averages, reporting, initialization and singletons -/

/-- The integer nearest to a rational, a tie going to the even one. -/
def roundHalfEven (x : ℚ) : Int :=
  if x - ⌊x⌋ < 1 / 2 then ⌊x⌋
  else if 1 / 2 < x - ⌊x⌋ then ⌊x⌋ + 1
  else if ⌊x⌋ % 2 = 0 then ⌊x⌋ else ⌊x⌋ + 1

/-- The `float64` nearest to a real value, ties to even (the rounding of IEEE 754
binary64, which the `float64` operations of Go apply to their exact result). A finite
`float64` is the rational it stands for. With `e` the exponent of the value, at least
`-1022`, the result is a multiple of `2^(e - 52)`: 53 bits of precision, and the fixed
spacing `2^-1074` below `2^-1022`. The result `none` stands for an infinity, when the
rounded magnitude reaches `2^1024`. The sign of a zero is not represented. -/
def float64Round (q : ℚ) : Option ℚ :=
  if q = 0 then some 0
  else
    if (2 : ℚ) ^ (1024 : Nat)
        ≤ (roundHalfEven (|q| / 2 ^ (max (Int.log 2 |q|) (-1022) - 52)) : ℚ)
          * 2 ^ (max (Int.log 2 |q|) (-1022) - 52) then none
    else
      some ((if q < 0 then -1 else 1)
        * ((roundHalfEven (|q| / 2 ^ (max (Int.log 2 |q|) (-1022) - 52)) : ℚ)
          * 2 ^ (max (Int.log 2 |q|) (-1022) - 52)))

/-- The conversion `float64(n)` of an `int`: the nearest `float64`. -/
def float64OfInt (n : Int) : Option ℚ := float64Round n

/-- A `float64` division `x / y` of finite operands: the exact quotient rounded to the
nearest `float64`; `none` stands for the infinity or NaN of a division by zero and for
an overflow. -/
def float64Div (x y : ℚ) : Option ℚ := if y = 0 then none else float64Round (x / y)

/-- The expression `float64(total) / float64(count)` of `GetAverageStatistics`. -/
def float64Quotient (total count : Int) : Option ℚ :=
  match float64OfInt total, float64OfInt count with
  | some x, some y => float64Div x y
  | _, _ => none

/-- GetAverageStatistics: on an object that is not nil and has `TotalOrderCount > 0`
the two quotients `float64(total) / float64(count)`, and the zero values of the named
results otherwise. The result `none` stands for a result that is not a finite number. -/
def OrderManagerStatistics.GetAverageStatistics (o : Option OrderManagerStatistics) :
    Option (ℚ × ℚ) :=
  match o with
  | some s =>
    if s.TotalOrderCount > 0 then
      match float64Quotient s.TotalFoodWaitTime s.TotalOrderCount,
        float64Quotient s.TotalCourierWaitTime s.TotalOrderCount with
      | some f, some c => some (f, c)
      | _, _ => none
    else some (0, 0)
  | none => some (0, 0)

/-- Report is what `ReportStatistics` prints: the line for no orders, or the summary
with the count and the two averages. -/
inductive Report where
  | noOrders
  | summary (count : Int) (avgFoodWaitTime avgCourierWaitTime : ℚ)
deriving DecidableEq

/-- ReportStatistics: the line for no orders when the object is nil or
`TotalOrderCount == 0`, and otherwise the summary with the averages of
`GetAverageStatistics`. The result is `none` if an average were a division by zero. -/
def OrderManagerStatistics.ReportStatistics (o : Option OrderManagerStatistics) :
    Option Report :=
  match o with
  | none => some Report.noOrders
  | some s =>
    if s.TotalOrderCount = 0 then some Report.noOrders
    else
      match OrderManagerStatistics.GetAverageStatistics (some s) with
      | some avg => some (Report.summary s.TotalOrderCount avg.1 avg.2)
      | none => none

/-- Init of the base: the generator is stored and the statistics are replaced by a new
object; the barrier is not touched. -/
def orderManagerBase.Init (o : orderManagerBase) (random : Option resource.Rand) :
    orderManagerBase :=
  { o with random := random, stats := ⟨0, 0, 0⟩ }

/-- GetStatistics returns the statistics object of the base. -/
def orderManagerBase.GetStatistics (o : orderManagerBase) : Option OrderManagerStatistics :=
  some o.stats

/-- Init of `container/list`: the list is emptied (`len = 0`, the root linked to itself).
The elements cut off keep their `list` field in Go; handles taken before an `Init` are
outside this model. -/
def GoList.Init {α : Type} (l : GoList α) : GoList α := ⟨[], l.next⟩

/-- Init of the matched manager: the base is initialized and both maps are new. -/
def matchedOrderManager.Init (m : matchedOrderManager) (random : Option resource.Rand) :
    matchedOrderManager :=
  { base := m.base.Init random, finishedOrderMap := [], courierMap := [] }

/-- Init of the FIFO manager: the base is initialized and both queues are emptied. -/
def fifoOrderManager.Init (f : fifoOrderManager) (random : Option resource.Rand) :
    fifoOrderManager :=
  { base := f.base.Init random, finishedOrderQueue := f.finishedOrderQueue.Init,
    courierQueue := f.courierQueue.Init }

/-- Package holds the two package-level variables `matchedOrderManagerInstance` and
`fifoOrderManagerInstance`; `none` is the nil interface value. -/
structure Package where
  matchedOrderManagerInstance : Option matchedOrderManager
  fifoOrderManagerInstance : Option fifoOrderManager

/-- GetMatchedOrderManager: the instance is created on first use and returned as it is
afterwards. -/
def GetMatchedOrderManager (p : Package) (random : Option resource.Rand) :
    Package × matchedOrderManager :=
  match p.matchedOrderManagerInstance with
  | none =>
    ({ p with matchedOrderManagerInstance := some (newMatchedOrderManager random) },
      newMatchedOrderManager random)
  | some m => (p, m)

/-- GetFIFOOrderManager: the instance is created on first use and returned as it is
afterwards. -/
def GetFIFOOrderManager (p : Package) (random : Option resource.Rand) :
    Package × fifoOrderManager :=
  match p.fifoOrderManagerInstance with
  | none =>
    ({ p with fifoOrderManagerInstance := some (newFIFOOrderManager random) },
      newFIFOOrderManager random)
  | some f => (p, f)

/-- StatCall is one call on the base that touches the statistics. -/
inductive StatCall where
  | completeOrder
  | incrementTotalFoodWaitTime (byMs : Int)
  | incrementTotalCourierWaitTime (byMs : Int)
deriving DecidableEq, Repr

/-- One call on the base. -/
def orderManagerBase.call (o : orderManagerBase) : StatCall → orderManagerBase
  | .completeOrder => o.completeOrder
  | .incrementTotalFoodWaitTime byMs => o.incrementTotalFoodWaitTime byMs
  | .incrementTotalCourierWaitTime byMs => o.incrementTotalCourierWaitTime byMs

/-- A sequence of calls on the base, in the order in which the statistics lock admits
them. -/
def orderManagerBase.calls (o : orderManagerBase) (cs : List StatCall) : orderManagerBase :=
  cs.foldl orderManagerBase.call o

/-- The number of `completeOrder` calls in a sequence. -/
def StatCall.completions : List StatCall → Nat
  | [] => 0
  | .completeOrder :: cs => completions cs + 1
  | _ :: cs => completions cs

/-- The sum of the arguments of the `incrementTotalFoodWaitTime` calls in a sequence. -/
def StatCall.foodSum : List StatCall → Int
  | [] => 0
  | .incrementTotalFoodWaitTime a :: cs => a + foodSum cs
  | _ :: cs => foodSum cs

/-- The sum of the arguments of the `incrementTotalCourierWaitTime` calls in a
sequence. -/
def StatCall.courierSum : List StatCall → Int
  | [] => 0
  | .incrementTotalCourierWaitTime b :: cs => b + courierSum cs
  | _ :: cs => courierSum cs

/-! ## DispatchOrder -/

/-- Task is a goroutine started by a `go` statement of `DispatchOrder`. -/
inductive Task where
  | processOrder (d : dispatchedOrder)
  | pickUpOrder (d : dispatchedCourier)
deriving DecidableEq, Repr

/-- Fault is a reason for which a call of `DispatchOrder` does not return: the order is
nil (the dereference `order.ID` panics), or the generator has accepted no draw within
the draws allowed. -/
inductive Fault where
  | nilOrder
  | noDraw
deriving DecidableEq, Repr

/-- Dispatched is what a call of `DispatchOrder` that returns leaves behind: the manager,
the global generator of `math/rand`, the returned error (`none` is nil) and the
goroutines started, in the order of the `go` statements. -/
structure Dispatched (M : Type) where
  manager : M
  glob : resource.Rand
  err : Option String
  started : List Task

namespace resource

/-- The global generator and the generator behind the pointer `r` after a call of
`GetCourierTravelTime` that left the generator it drew from in the state `g`. -/
def afterDraw (glob : Rand) (r : Option Rand) (g : Rand) : Rand × Option Rand :=
  match r with
  | none => (g, none)
  | some _ => (glob, some g)

/-- The values of `n` calls of `GetCourierTravelTime` on the same pointer, one after the
other, oldest first. -/
def travelTimes (fuel : Nat) : Rand → Option Rand → Nat → Option (List Int)
  | _, _, 0 => some []
  | glob, r, n + 1 =>
    match GetCourierTravelTime glob r fuel with
    | none => none
    | some (t, g) =>
      match travelTimes fuel (afterDraw glob r g).1 (afterDraw glob r g).2 n with
      | none => none
      | some ts => some (t :: ts)

end resource

/-- DispatchOrder of the matched manager: `wgAdd`, the log line, `getDispatchedOrder`
(clock reading `now1`), `GetCourierTravelTime(m.random)`, `NewCourier` (with `uuid` the
value of `uuid.NewString()`), `getDispatchedCourier` (clock reading `now2`), the two `go`
statements and `return nil`. -/
def matchedOrderManager.DispatchOrder (m : matchedOrderManager) (glob : resource.Rand)
    (order : Option resource.Order) (uuid : String) (now1 now2 : Int) (fuel : Nat) :
    Except Fault (Dispatched matchedOrderManager) :=
  let m1 : matchedOrderManager := { m with base := m.base.wgAdd }
  match order with
  | none => .error Fault.nilOrder
  | some o =>
    let dOrder := getDispatchedOrder o now1
    match resource.GetCourierTravelTime glob m1.base.random fuel with
    | none => .error Fault.noDraw
    | some (t, g) =>
      let dCourier := getDispatchedCourier (resource.NewCourier uuid o.ID t) now2
      .ok
        { manager :=
            { m1 with
              base :=
                { m1.base with random := (resource.afterDraw glob m1.base.random g).2 } },
          glob := (resource.afterDraw glob m1.base.random g).1,
          err := none,
          started := [Task.processOrder dOrder, Task.pickUpOrder dCourier] }

/-- DispatchOrder of the FIFO manager: the same statements as for the matched manager. -/
def fifoOrderManager.DispatchOrder (f : fifoOrderManager) (glob : resource.Rand)
    (order : Option resource.Order) (uuid : String) (now1 now2 : Int) (fuel : Nat) :
    Except Fault (Dispatched fifoOrderManager) :=
  let f1 : fifoOrderManager := { f with base := f.base.wgAdd }
  match order with
  | none => .error Fault.nilOrder
  | some o =>
    let dOrder := getDispatchedOrder o now1
    match resource.GetCourierTravelTime glob f1.base.random fuel with
    | none => .error Fault.noDraw
    | some (t, g) =>
      let dCourier := getDispatchedCourier (resource.NewCourier uuid o.ID t) now2
      .ok
        { manager :=
            { f1 with
              base :=
                { f1.base with random := (resource.afterDraw glob f1.base.random g).2 } },
          glob := (resource.afterDraw glob f1.base.random g).1,
          err := none,
          started := [Task.processOrder dOrder, Task.pickUpOrder dCourier] }

/-- DispatchCall is one iteration of the loop `for _, order := range orders` around
`DispatchOrder`: a present order, the value of `uuid.NewString()` and the two clock
readings of the call. -/
structure DispatchCall where
  order : resource.Order
  uuid : String
  now1 : Int
  now2 : Int
deriving DecidableEq, Repr

/-- The two goroutines a call is to start when the provider hands out the value `t`. -/
def DispatchCall.tasks (c : DispatchCall) (t : Int) : List Task :=
  [Task.processOrder (getDispatchedOrder c.order c.now1),
   Task.pickUpOrder (getDispatchedCourier (resource.NewCourier c.uuid c.order.ID t) c.now2)]

/-- The goroutines a sequence of calls is to start when the provider hands out the values
`ts`, one per call. -/
def DispatchCall.allTasks : List DispatchCall → List Int → List Task
  | c :: cs, t :: ts => c.tasks t ++ allTasks cs ts
  | _, _ => []

/-- The couriers of the courier goroutines of a list, as pairs of `OrderID` and
`TravelTime`. -/
def Task.couriers : List Task → List (String × Int)
  | [] => []
  | Task.pickUpOrder d :: ts => (d.Courier.OrderID, d.Courier.TravelTime) :: couriers ts
  | Task.processOrder _ :: ts => couriers ts

/-- The orders of the order goroutines of a list. -/
def Task.orders : List Task → List resource.Order
  | [] => []
  | Task.processOrder d :: ts => d.Order :: orders ts
  | Task.pickUpOrder _ :: ts => orders ts

/-- Dispatches is what a loop of calls of `DispatchOrder` leaves behind: the manager, the
global generator, the returned errors and the goroutines started, oldest first. -/
structure Dispatches (M : Type) where
  manager : M
  glob : resource.Rand
  errs : List (Option String)
  started : List Task

/-- The loop `for _, order := range orders { manager.DispatchOrder(order) }` on the
matched manager. -/
def matchedOrderManager.dispatchAll (fuel : Nat) :
    matchedOrderManager → resource.Rand → List DispatchCall →
      Except Fault (Dispatches matchedOrderManager)
  | m, glob, [] => .ok ⟨m, glob, [], []⟩
  | m, glob, c :: cs =>
    match m.DispatchOrder glob (some c.order) c.uuid c.now1 c.now2 fuel with
    | .error e => .error e
    | .ok d =>
      match dispatchAll fuel d.manager d.glob cs with
      | .error e => .error e
      | .ok ds => .ok ⟨ds.manager, ds.glob, d.err :: ds.errs, d.started ++ ds.started⟩

/-- The loop `for _, order := range orders { manager.DispatchOrder(order) }` on the FIFO
manager. -/
def fifoOrderManager.dispatchAll (fuel : Nat) :
    fifoOrderManager → resource.Rand → List DispatchCall →
      Except Fault (Dispatches fifoOrderManager)
  | f, glob, [] => .ok ⟨f, glob, [], []⟩
  | f, glob, c :: cs =>
    match f.DispatchOrder glob (some c.order) c.uuid c.now1 c.now2 fuel with
    | .error e => .error e
    | .ok d =>
      match dispatchAll fuel d.manager d.glob cs with
      | .error e => .error e
      | .ok ds => .ok ⟨ds.manager, ds.glob, d.err :: ds.errs, d.started ++ ds.started⟩

/-- getMockRand of `order_manager_test.go`: the source returns
`(testCourierTravelTimes[pointer % n] - MinTravelTime) << 32` at its call number
`pointer`. -/
def getMockRand : resource.Rand :=
  ⟨fun pointer =>
      Nat.shiftLeft
        ((testCourierTravelTimes.getD (pointer % testCourierTravelTimes.length) 0
          - resource.MinTravelTime).toNat) 32,
    0⟩

/-- The calls of `DispatchOrder` of the tests, on `testOrders`, all at the clock
reading 0. -/
def testCalls : List DispatchCall :=
  testOrders.map (fun o => ⟨o, "courier-" ++ o.ID, 0, 0⟩)

/-! ## Wait difference -/

/-- The sum of the instants at which the orders of a list of arrivals became ready (the
values of `FinishTime`), in nanoseconds. -/
def finishSum (evs : List Arrival) : Int := ((orderKeys evs).map Prod.snd).sum

/-- The sum of the instants at which the couriers of a list of arrivals arrived (the
values of `ArrivedTime`), in nanoseconds. -/
def arrivedSum (evs : List Arrival) : Int := ((courierKeys evs).map Prod.snd).sum

/-- The ready instant of the arrival of the given side and key in a list of arrivals. -/
def readyOf (evs : List Arrival) (t : Bool × String) : Int :=
  ((evs.find? (fun a => a.tag = t)).map (fun a => a.ready)).getD 0

/-- The arrival of an order that becomes ready at the instant `t`, each clock reading of
its call being that instant. -/
def orderAt (o : resource.Order) (t : Int) : Arrival :=
  { ev := Ready.order (getDispatchedOrder o 0), ready := t, now := t, wake := t }

/-- The arrival of a courier that arrives at the instant `t`, each clock reading of its
call being that instant. -/
def courierAt (c : resource.Courier) (t : Int) : Arrival :=
  { ev := Ready.courier (getDispatchedCourier c 0), ready := t, now := t, wake := t }

/-- Four arrivals half a millisecond apart: order 1 at 0, order 2 and the courier of
order 2 at 0.5 ms, and the courier of order 1 at 1 ms. -/
def halfMsArrivals : List Arrival :=
  [orderAt ⟨"1", "Food 1", 0⟩ 0,
   orderAt ⟨"2", "Food 2", 0⟩ 500000,
   courierAt (resource.NewCourier "courier-2" "2" 3) 500000,
   courierAt (resource.NewCourier "courier-1" "1" 3) 1000000]

/-! ## Theorems -/

/-! ### `sync.Map` -/

theorem SyncMap.Load_Store {V : Type} (m : SyncMap V) (k k1 : String) (v : V) :
    SyncMap.Load (SyncMap.Store m k v) k1 = if k1 = k then some v else SyncMap.Load m k1 := by
  unfold SyncMap.Load SyncMap.Store
  rw [List.lookup_cons]
  by_cases h : k1 = k
  · subst h; simp
  · have : (k1 == k) = false := by simpa using h
    simp [this, h]

theorem SyncMap.Load_Store_self {V : Type} (m : SyncMap V) (k : String) (v : V) :
    SyncMap.Load (SyncMap.Store m k v) k = some v := by
  rw [SyncMap.Load_Store]; simp

theorem SyncMap.Load_Store_ne {V : Type} (m : SyncMap V) (k k1 : String) (v : V)
    (h : k1 ≠ k) : SyncMap.Load (SyncMap.Store m k v) k1 = SyncMap.Load m k1 := by
  rw [SyncMap.Load_Store]; simp [h]

theorem tags_append (pre : List Arrival) (a : Arrival) :
    tags (pre ++ [a]) = tags pre ++ [a.tag] := by
  simp [tags]

theorem mem_tags_append (pre : List Arrival) (a : Arrival) (t : Bool × String) :
    t ∈ tags (pre ++ [a]) ↔ t ∈ tags pre ∨ t = a.tag := by
  simp [tags_append]

/-! ### Matched strategy: one arrival -/

theorem MapInv.nil (b : orderManagerBase) : MapInv [] ⟨b, [], []⟩ := by
  constructor
  · intro k o h; simp [SyncMap.Load] at h
  · intro k _; simp [tags]
  · intro k c h; simp [SyncMap.Load] at h
  · intro k _; simp [tags]

theorem MapInv.order_mem_iff {pre : List Arrival} {m : matchedOrderManager}
    (h : MapInv pre m) (k : String) :
    (m.finishedOrderMap.Load k).isSome = true ↔ (true, k) ∈ tags pre := by
  cases hl : m.finishedOrderMap.Load k with
  | none => simpa using h.ordNone k hl
  | some o =>
    obtain ⟨hid, _, a, ha, d, hev, hdo, _⟩ := h.ord k o hl
    simp only [Option.isSome_some, true_iff]
    refine List.mem_map.mpr ⟨a, ha, ?_⟩
    simp [Arrival.tag, hev, Ready.isOrder, Ready.key, hdo, hid]

theorem MapInv.courier_mem_iff {pre : List Arrival} {m : matchedOrderManager}
    (h : MapInv pre m) (k : String) :
    (m.courierMap.Load k).isSome = true ↔ (false, k) ∈ tags pre := by
  cases hl : m.courierMap.Load k with
  | none => simpa using h.couNone k hl
  | some c =>
    obtain ⟨hid, _, a, ha, d, hev, hdo, _⟩ := h.cou k c hl
    simp only [Option.isSome_some, true_iff]
    refine List.mem_map.mpr ⟨a, ha, ?_⟩
    simp [Arrival.tag, hev, Ready.isOrder, Ready.key, hdo, hid]


/-- An order that finds no courier under its key parks; nothing but its own map changes. -/
theorem matchedOrderManager.arrive_order_none (m : matchedOrderManager) (a : Arrival)
    (d : dispatchedOrder) (ha : a.ev = Ready.order d)
    (hl : m.courierMap.Load d.Order.ID = none) :
    m.arrive a =
      { m with
        finishedOrderMap :=
          SyncMap.Store
            (SyncMap.Store m.finishedOrderMap d.Order.ID { d with FinishTime := a.ready })
            d.Order.ID ({ d with FinishTime := a.ready, notification := ⟨true⟩ }) } := by
  simp only [matchedOrderManager.arrive, ha, matchedOrderManager.processOrder,
    matchedOrderManager.finishOrder, matchedOrderManager.lockedFinishOrder, hl]

/-- A courier that finds no order under its key parks; nothing but its own map changes. -/
theorem matchedOrderManager.arrive_courier_none (m : matchedOrderManager) (a : Arrival)
    (d : dispatchedCourier) (ha : a.ev = Ready.courier d)
    (hl : m.finishedOrderMap.Load d.Courier.OrderID = none) :
    m.arrive a =
      { m with
        courierMap :=
          SyncMap.Store
            (SyncMap.Store m.courierMap d.Courier.OrderID { d with ArrivedTime := a.ready })
            d.Courier.OrderID ({ d with ArrivedTime := a.ready, notification := ⟨true⟩ }) } := by
  simp only [matchedOrderManager.arrive, ha, matchedOrderManager.pickUpOrder,
    matchedOrderManager.finishPickUp, matchedOrderManager.lockedFinishPickUp, hl]

/-- An order that finds a parked courier under its key resolves the pair. -/
theorem matchedOrderManager.arrive_order_some (m : matchedOrderManager) (a : Arrival)
    (d : dispatchedOrder) (c : dispatchedCourier) (ha : a.ev = Ready.order d)
    (hl : m.courierMap.Load d.Order.ID = some c) (hp : c.notification.parked = true) :
    m.arrive a =
      { base := pairedBase m.base (matcherOrder d a) (wokenCourier c a),
        finishedOrderMap :=
          SyncMap.Store
            (SyncMap.Store m.finishedOrderMap d.Order.ID { d with FinishTime := a.ready })
            d.Order.ID (matcherOrder d a),
        courierMap := m.courierMap.Store c.Courier.OrderID (wokenCourier c a) } := by
  simp only [matchedOrderManager.arrive, ha, matchedOrderManager.processOrder,
    matchedOrderManager.finishOrder, matchedOrderManager.lockedFinishOrder, hl, hp,
    if_true, matchedOrderManager.resumeFinishPickUp, pairedBase, matcherOrder, wokenCourier,
    orderManagerBase.completeOrder, orderManagerBase.wgDone,
    orderManagerBase.incrementTotalFoodWaitTime, orderManagerBase.logPickUpEvent,
    orderManagerBase.incrementTotalCourierWaitTime,
    OrderManagerStatistics.IncrementTotalOrderCount,
    OrderManagerStatistics.IncrementTotalFoodWaitTime,
    OrderManagerStatistics.IncrementTotalCourierWaitTime]

/-- A courier that finds a parked order under its key resolves the pair. -/
theorem matchedOrderManager.arrive_courier_some (m : matchedOrderManager) (a : Arrival)
    (d : dispatchedCourier) (o : dispatchedOrder) (ha : a.ev = Ready.courier d)
    (hl : m.finishedOrderMap.Load d.Courier.OrderID = some o)
    (hp : o.notification.parked = true) :
    m.arrive a =
      { base := pairedBase m.base (wokenOrder o a) (matcherCourier d a),
        finishedOrderMap := m.finishedOrderMap.Store o.Order.ID (wokenOrder o a),
        courierMap :=
          SyncMap.Store
            (SyncMap.Store m.courierMap d.Courier.OrderID { d with ArrivedTime := a.ready })
            d.Courier.OrderID (matcherCourier d a) } := by
  simp only [matchedOrderManager.arrive, ha, matchedOrderManager.pickUpOrder,
    matchedOrderManager.finishPickUp, matchedOrderManager.lockedFinishPickUp, hl, hp,
    if_true, matchedOrderManager.resumeFinishOrder, pairedBase, matcherCourier, wokenOrder,
    orderManagerBase.completeOrder, orderManagerBase.wgDone,
    orderManagerBase.incrementTotalFoodWaitTime, orderManagerBase.logPickUpEvent,
    orderManagerBase.incrementTotalCourierWaitTime,
    OrderManagerStatistics.IncrementTotalOrderCount,
    OrderManagerStatistics.IncrementTotalFoodWaitTime,
    OrderManagerStatistics.IncrementTotalCourierWaitTime]


theorem MapInv.step_order {pre : List Arrival} {m : matchedOrderManager}
    (h : MapInv pre m) (a : Arrival) (d : dispatchedOrder) (ha : a.ev = Ready.order d)
    (hfresh : a.tag ∉ tags pre) :
    MapInv (pre ++ [a]) (m.arrive a) ∧
    (m.takesMatcherPath a = true ↔ a.cotag ∈ tags pre) ∧
    (a.cotag ∉ tags pre → (m.arrive a).base = m.base) ∧
    (a.cotag ∈ tags pre → ∃ b ∈ pre, b.tag = a.cotag ∧ ∃ o c,
      (m.arrive a).base = pairedBase m.base o c ∧ o.Order.ID = a.ev.key ∧
      c.Courier.OrderID = a.ev.key ∧
      (∃ r, m.probed a = some r ∧ r.isOrder = false ∧ r.key = a.ev.key) ∧
      o.getWaitTimeInMs = foodWaitOf a b ∧ c.getWaitTimeInMs = courierWaitOf a b) := by
  have htag : a.tag = (true, d.Order.ID) := by simp [Arrival.tag, ha, Ready.isOrder, Ready.key]
  have hcotag : a.cotag = (false, d.Order.ID) := by
    simp [Arrival.cotag, ha, Ready.isOrder, Ready.key]
  have hkey : a.ev.key = d.Order.ID := by simp [ha, Ready.key]
  have hpath : m.takesMatcherPath a = (m.courierMap.Load d.Order.ID).isSome := by
    simp [matchedOrderManager.takesMatcherPath, ha, matchedOrderManager.lockedFinishOrder]
  rw [htag] at hfresh
  rw [hcotag, hpath, h.courier_mem_iff]
  refine ⟨?_, Iff.rfl, ?_, ?_⟩
  · -- invariant
    cases hl : m.courierMap.Load d.Order.ID with
    | none =>
      have hnc : (false, d.Order.ID) ∉ tags pre := h.couNone _ hl
      rw [matchedOrderManager.arrive_order_none m a d ha hl]
      constructor
      · intro k o hk
        simp only [SyncMap.Load_Store] at hk
        by_cases hkk : k = d.Order.ID
        · simp only [hkk, if_true, Option.some.injEq] at hk
          subst hk
          refine ⟨hkk.symm, fun _ => rfl, a, by simp, d, ha, rfl, rfl⟩
        · simp only [hkk, if_false] at hk
          obtain ⟨h1, h2, b, hb, hrest⟩ := h.ord k o hk
          refine ⟨h1, fun hn => h2 ?_, b, by simp [hb], hrest⟩
          intro hmem; exact hn ((mem_tags_append _ _ _).mpr (Or.inl hmem))
      · intro k hk
        simp only [SyncMap.Load_Store] at hk
        by_cases hkk : k = d.Order.ID
        · simp [hkk] at hk
        · simp only [hkk, if_false] at hk
          rw [mem_tags_append, htag]
          rintro (hmem | heq)
          · exact h.ordNone k hk hmem
          · exact hkk (by simpa using heq)
      · intro k c hk
        obtain ⟨h1, h2, b, hb, hrest⟩ := h.cou k c hk
        refine ⟨h1, fun hn => h2 ?_, b, by simp [hb], hrest⟩
        intro hmem; exact hn ((mem_tags_append _ _ _).mpr (Or.inl hmem))
      · intro k hk
        rw [mem_tags_append, htag]
        rintro (hmem | heq)
        · exact h.couNone k hk hmem
        · simp at heq
    | some c =>
      obtain ⟨hcid, hcp, b, hb, d0, hbev, hd0, hbt⟩ := h.cou _ c hl
      have hp := hcp hfresh
      rw [matchedOrderManager.arrive_order_some m a d c ha hl hp]
      constructor
      · intro k o hk
        simp only [SyncMap.Load_Store] at hk
        by_cases hkk : k = d.Order.ID
        · simp only [hkk, if_true, Option.some.injEq] at hk
          subst hk
          refine ⟨hkk.symm, fun hn => ?_, a, by simp, d, ha, rfl, rfl⟩
          exfalso; apply hn
          rw [mem_tags_append]; left
          rw [hkk, ← h.courier_mem_iff, hl]; rfl
        · simp only [hkk, if_false] at hk
          obtain ⟨h1, h2, b1, hb1, hrest⟩ := h.ord k o hk
          refine ⟨h1, fun hn => h2 ?_, b1, by simp [hb1], hrest⟩
          intro hmem; exact hn ((mem_tags_append _ _ _).mpr (Or.inl hmem))
      · intro k hk
        simp only [SyncMap.Load_Store] at hk
        by_cases hkk : k = d.Order.ID
        · simp [hkk] at hk
        · simp only [hkk, if_false] at hk
          rw [mem_tags_append, htag]
          rintro (hmem | heq)
          · exact h.ordNone k hk hmem
          · exact hkk (by simpa using heq)
      · intro k c1 hk
        simp only [SyncMap.Load_Store, hcid] at hk
        by_cases hkk : k = d.Order.ID
        · simp only [hkk, if_true, Option.some.injEq] at hk
          subst hk
          refine ⟨by simpa [wokenCourier, hkk] using hcid, fun hn => ?_, b, by simp [hb], d0,
            hbev, by simpa [wokenCourier] using hd0, by simpa [wokenCourier] using hbt⟩
          exfalso; apply hn
          rw [mem_tags_append, htag, hkk]; right; rfl
        · simp only [hkk, if_false] at hk
          obtain ⟨h1, h2, b1, hb1, hrest⟩ := h.cou k c1 hk
          refine ⟨h1, fun hn => h2 ?_, b1, by simp [hb1], hrest⟩
          intro hmem; exact hn ((mem_tags_append _ _ _).mpr (Or.inl hmem))
      · intro k hk
        simp only [SyncMap.Load_Store, hcid] at hk
        by_cases hkk : k = d.Order.ID
        · simp [hkk] at hk
        · simp only [hkk, if_false] at hk
          rw [mem_tags_append, htag]
          rintro (hmem | heq)
          · exact h.couNone k hk hmem
          · simp at heq
  · intro hn
    have hl : m.courierMap.Load d.Order.ID = none := by
      cases hl : m.courierMap.Load d.Order.ID with
      | none => rfl
      | some c => exact absurd ((h.courier_mem_iff _).mp (by rw [hl]; rfl)) hn
    rw [matchedOrderManager.arrive_order_none m a d ha hl]
  · intro hmem
    have hsome := (h.courier_mem_iff _).mpr hmem
    cases hl : m.courierMap.Load d.Order.ID with
    | none => rw [hl] at hsome; simp at hsome
    | some c =>
      obtain ⟨hcid, hcp, b, hb, d0, hbev, hd0, hbt⟩ := h.cou _ c hl
      have hp := hcp hfresh
      have hbtag : b.tag = (false, d.Order.ID) := by
        simp [Arrival.tag, hbev, Ready.isOrder, Ready.key, hd0, hcid]
      refine ⟨b, hb, hbtag, matcherOrder d a, wokenCourier c a, ?_, ?_, ?_, ?_, ?_, ?_⟩
      · rw [matchedOrderManager.arrive_order_some m a d c ha hl hp]
      · simp [matcherOrder, hkey]
      · simp [wokenCourier, hkey, hcid]
      · refine ⟨Ready.courier c, ?_, rfl, ?_⟩
        · simp [matchedOrderManager.probed, ha, matchedOrderManager.lockedFinishOrder, hl]
        · rw [hkey]; simp [Ready.key, hcid]
      · simp [foodWaitOf, ha, Ready.isOrder, matcherOrder, dispatchedOrder.getWaitTimeInMs]
      · simp [courierWaitOf, ha, Ready.isOrder, wokenCourier,
          dispatchedCourier.getWaitTimeInMs, hbt]


theorem MapInv.step_courier {pre : List Arrival} {m : matchedOrderManager}
    (h : MapInv pre m) (a : Arrival) (d : dispatchedCourier) (ha : a.ev = Ready.courier d)
    (hfresh : a.tag ∉ tags pre) :
    MapInv (pre ++ [a]) (m.arrive a) ∧
    (m.takesMatcherPath a = true ↔ a.cotag ∈ tags pre) ∧
    (a.cotag ∉ tags pre → (m.arrive a).base = m.base) ∧
    (a.cotag ∈ tags pre → ∃ b ∈ pre, b.tag = a.cotag ∧ ∃ o c,
      (m.arrive a).base = pairedBase m.base o c ∧ o.Order.ID = a.ev.key ∧
      c.Courier.OrderID = a.ev.key ∧
      (∃ r, m.probed a = some r ∧ r.isOrder = true ∧ r.key = a.ev.key) ∧
      o.getWaitTimeInMs = foodWaitOf a b ∧ c.getWaitTimeInMs = courierWaitOf a b) := by
  have htag : a.tag = (false, d.Courier.OrderID) := by
    simp [Arrival.tag, ha, Ready.isOrder, Ready.key]
  have hcotag : a.cotag = (true, d.Courier.OrderID) := by
    simp [Arrival.cotag, ha, Ready.isOrder, Ready.key]
  have hkey : a.ev.key = d.Courier.OrderID := by simp [ha, Ready.key]
  have hpath : m.takesMatcherPath a = (m.finishedOrderMap.Load d.Courier.OrderID).isSome := by
    simp [matchedOrderManager.takesMatcherPath, ha, matchedOrderManager.lockedFinishPickUp]
  rw [htag] at hfresh
  rw [hcotag, hpath, h.order_mem_iff]
  refine ⟨?_, Iff.rfl, ?_, ?_⟩
  · -- invariant
    cases hl : m.finishedOrderMap.Load d.Courier.OrderID with
    | none =>
      rw [matchedOrderManager.arrive_courier_none m a d ha hl]
      constructor
      · intro k o hk
        obtain ⟨h1, h2, b, hb, hrest⟩ := h.ord k o hk
        refine ⟨h1, fun hn => h2 ?_, b, by simp [hb], hrest⟩
        intro hmem; exact hn ((mem_tags_append _ _ _).mpr (Or.inl hmem))
      · intro k hk
        rw [mem_tags_append, htag]
        rintro (hmem | heq)
        · exact h.ordNone k hk hmem
        · simp at heq
      · intro k c hk
        simp only [SyncMap.Load_Store] at hk
        by_cases hkk : k = d.Courier.OrderID
        · simp only [hkk, if_true, Option.some.injEq] at hk
          subst hk
          refine ⟨hkk.symm, fun _ => rfl, a, by simp, d, ha, rfl, rfl⟩
        · simp only [hkk, if_false] at hk
          obtain ⟨h1, h2, b, hb, hrest⟩ := h.cou k c hk
          refine ⟨h1, fun hn => h2 ?_, b, by simp [hb], hrest⟩
          intro hmem; exact hn ((mem_tags_append _ _ _).mpr (Or.inl hmem))
      · intro k hk
        simp only [SyncMap.Load_Store] at hk
        by_cases hkk : k = d.Courier.OrderID
        · simp [hkk] at hk
        · simp only [hkk, if_false] at hk
          rw [mem_tags_append, htag]
          rintro (hmem | heq)
          · exact h.couNone k hk hmem
          · exact hkk (by simpa using heq)
    | some o =>
      obtain ⟨hoid, hop, b, hb, d0, hbev, hd0, hbt⟩ := h.ord _ o hl
      have hp := hop hfresh
      rw [matchedOrderManager.arrive_courier_some m a d o ha hl hp]
      constructor
      · intro k o1 hk
        simp only [SyncMap.Load_Store, hoid] at hk
        by_cases hkk : k = d.Courier.OrderID
        · simp only [hkk, if_true, Option.some.injEq] at hk
          subst hk
          refine ⟨by simpa [wokenOrder, hkk] using hoid, fun hn => ?_, b, by simp [hb], d0,
            hbev, by simpa [wokenOrder] using hd0, by simpa [wokenOrder] using hbt⟩
          exfalso; apply hn
          rw [mem_tags_append, htag, hkk]; right; rfl
        · simp only [hkk, if_false] at hk
          obtain ⟨h1, h2, b1, hb1, hrest⟩ := h.ord k o1 hk
          refine ⟨h1, fun hn => h2 ?_, b1, by simp [hb1], hrest⟩
          intro hmem; exact hn ((mem_tags_append _ _ _).mpr (Or.inl hmem))
      · intro k hk
        simp only [SyncMap.Load_Store, hoid] at hk
        by_cases hkk : k = d.Courier.OrderID
        · simp [hkk] at hk
        · simp only [hkk, if_false] at hk
          rw [mem_tags_append, htag]
          rintro (hmem | heq)
          · exact h.ordNone k hk hmem
          · simp at heq
      · intro k c hk
        simp only [SyncMap.Load_Store] at hk
        by_cases hkk : k = d.Courier.OrderID
        · simp only [hkk, if_true, Option.some.injEq] at hk
          subst hk
          refine ⟨hkk.symm, fun hn => ?_, a, by simp, d, ha, rfl, rfl⟩
          exfalso; apply hn
          rw [mem_tags_append]; left
          rw [hkk, ← h.order_mem_iff, hl]; rfl
        · simp only [hkk, if_false] at hk
          obtain ⟨h1, h2, b1, hb1, hrest⟩ := h.cou k c hk
          refine ⟨h1, fun hn => h2 ?_, b1, by simp [hb1], hrest⟩
          intro hmem; exact hn ((mem_tags_append _ _ _).mpr (Or.inl hmem))
      · intro k hk
        simp only [SyncMap.Load_Store] at hk
        by_cases hkk : k = d.Courier.OrderID
        · simp [hkk] at hk
        · simp only [hkk, if_false] at hk
          rw [mem_tags_append, htag]
          rintro (hmem | heq)
          · exact h.couNone k hk hmem
          · exact hkk (by simpa using heq)
  · intro hn
    have hl : m.finishedOrderMap.Load d.Courier.OrderID = none := by
      cases hl : m.finishedOrderMap.Load d.Courier.OrderID with
      | none => rfl
      | some c => exact absurd ((h.order_mem_iff _).mp (by rw [hl]; rfl)) hn
    rw [matchedOrderManager.arrive_courier_none m a d ha hl]
  · intro hmem
    have hsome := (h.order_mem_iff _).mpr hmem
    cases hl : m.finishedOrderMap.Load d.Courier.OrderID with
    | none => rw [hl] at hsome; simp at hsome
    | some o =>
      obtain ⟨hoid, hop, b, hb, d0, hbev, hd0, hbt⟩ := h.ord _ o hl
      have hp := hop hfresh
      have hbtag : b.tag = (true, d.Courier.OrderID) := by
        simp [Arrival.tag, hbev, Ready.isOrder, Ready.key, hd0, hoid]
      refine ⟨b, hb, hbtag, wokenOrder o a, matcherCourier d a, ?_, ?_, ?_, ?_, ?_, ?_⟩
      · rw [matchedOrderManager.arrive_courier_some m a d o ha hl hp]
      · simp [wokenOrder, hkey, hoid]
      · simp [matcherCourier, hkey]
      · refine ⟨Ready.order o, ?_, rfl, ?_⟩
        · simp [matchedOrderManager.probed, ha, matchedOrderManager.lockedFinishPickUp, hl]
        · rw [hkey]; simp [Ready.key, hoid]
      · simp [foodWaitOf, ha, Ready.isOrder, wokenOrder, dispatchedOrder.getWaitTimeInMs, hbt]
      · simp [courierWaitOf, ha, Ready.isOrder, matcherCourier,
          dispatchedCourier.getWaitTimeInMs]

/-- One arrival of the matched strategy, for an arrival whose side and key are new:
the invariant is kept, the matcher path is taken exactly when the counterpart has
arrived, and the base changes by one resolved pair in that case and not at all
otherwise. -/
theorem MapInv.map_step {pre : List Arrival} {m : matchedOrderManager}
    (h : MapInv pre m) (a : Arrival) (hfresh : a.tag ∉ tags pre) :
    MapInv (pre ++ [a]) (m.arrive a) ∧
    (m.takesMatcherPath a = true ↔ a.cotag ∈ tags pre) ∧
    (a.cotag ∉ tags pre → (m.arrive a).base = m.base) ∧
    (a.cotag ∈ tags pre → ∃ b ∈ pre, b.tag = a.cotag ∧ ∃ o c,
      (m.arrive a).base = pairedBase m.base o c ∧ o.Order.ID = a.ev.key ∧
      c.Courier.OrderID = a.ev.key ∧
      (∃ r, m.probed a = some r ∧ r.isOrder = !a.ev.isOrder ∧ r.key = a.ev.key) ∧
      o.getWaitTimeInMs = foodWaitOf a b ∧ c.getWaitTimeInMs = courierWaitOf a b) := by
  cases hev : a.ev with
  | order d =>
    have := h.step_order a d hev hfresh
    simpa [hev, Ready.isOrder] using this
  | courier d =>
    have := h.step_courier a d hev hfresh
    simpa [hev, Ready.isOrder] using this


/-! ### Matched strategy: runs -/

theorem matchedOrderManager.run_append (m : matchedOrderManager) (pre : List Arrival)
    (a : Arrival) : m.run (pre ++ [a]) = (m.run pre).arrive a := by
  simp [matchedOrderManager.run, List.foldl_append]

theorem matchedOrderManager.run_cons (m : matchedOrderManager) (a : Arrival)
    (evs : List Arrival) : m.run (a :: evs) = (m.arrive a).run evs := rfl

theorem matchedOrderManager.matcherFlags_append (m : matchedOrderManager)
    (pre : List Arrival) (a : Arrival) :
    m.matcherFlags (pre ++ [a]) = m.matcherFlags pre ++ [(m.run pre).takesMatcherPath a] := by
  induction pre generalizing m with
  | nil => simp [matchedOrderManager.matcherFlags, matchedOrderManager.run]
  | cons b pre ih =>
    simp [matchedOrderManager.matcherFlags, ih, matchedOrderManager.run_cons]

theorem pairedIds_append_of_not_mem (ids : List String) (pre : List Arrival) (a : Arrival)
    (hco : a.cotag ∉ tags pre) :
    pairedIds ids (pre ++ [a]) = pairedIds ids pre := by
  unfold pairedIds
  apply List.filter_congr
  intro k _
  have h1 : ((true, k) ∈ tags (pre ++ [a]) ∧ (false, k) ∈ tags (pre ++ [a])) ↔
      ((true, k) ∈ tags pre ∧ (false, k) ∈ tags pre) := by
    simp only [mem_tags_append]
    constructor
    · rintro ⟨h1 | h1, h2 | h2⟩
      · exact ⟨h1, h2⟩
      · exfalso; apply hco
        have : a.cotag = (true, k) := by
          simp only [Arrival.cotag, Arrival.tag] at *
          rw [Prod.mk.injEq] at h2 ⊢
          obtain ⟨h2a, h2b⟩ := h2
          rw [← h2a, ← h2b]; simp
        rw [this]; exact h1
      · exfalso; apply hco
        have : a.cotag = (false, k) := by
          simp only [Arrival.cotag, Arrival.tag] at *
          rw [Prod.mk.injEq] at h1 ⊢
          obtain ⟨h1a, h1b⟩ := h1
          rw [← h1a, ← h1b]; simp
        rw [this]; exact h2
      · rw [← h1] at h2; simp at h2
    · rintro ⟨h1, h2⟩; exact ⟨Or.inl h1, Or.inl h2⟩
  by_cases hp : (true, k) ∈ tags pre ∧ (false, k) ∈ tags pre
  · have := h1.mpr hp
    simp [hp.1, hp.2, this.1, this.2]
  · have hq := fun hx => hp (h1.mp hx)
    have e1 : (decide ((true, k) ∈ tags pre) && decide ((false, k) ∈ tags pre)) = false := by
      simpa using hp
    have e2 : (decide ((true, k) ∈ tags (pre ++ [a])) &&
        decide ((false, k) ∈ tags (pre ++ [a]))) = false := by
      simpa using hq
    rw [e1, e2]

theorem pairedIds_append_of_mem (ids : List String) (hids : ids.Nodup) (pre : List Arrival)
    (a : Arrival) (hco : a.cotag ∈ tags pre) (hfresh : a.tag ∉ tags pre)
    (hkey : a.ev.key ∈ ids) :
    (pairedIds ids (pre ++ [a])).Perm (a.ev.key :: pairedIds ids pre) := by
  have hnd1 : (pairedIds ids (pre ++ [a])).Nodup := hids.filter _
  have hnot : a.ev.key ∉ pairedIds ids pre := by
    unfold pairedIds
    simp only [List.mem_filter, Bool.and_eq_true, decide_eq_true_eq, not_and]
    intro _ h1 h2
    apply hfresh
    cases hside : a.ev.isOrder with
    | true => simpa [Arrival.tag, hside] using h1
    | false => simpa [Arrival.tag, hside] using h2
  have hnd2 : (a.ev.key :: pairedIds ids pre).Nodup :=
    List.nodup_cons.mpr ⟨hnot, hids.filter _⟩
  rw [List.perm_ext_iff_of_nodup hnd1 hnd2]
  intro k
  unfold pairedIds
  simp only [List.mem_filter, Bool.and_eq_true, decide_eq_true_eq, List.mem_cons,
    mem_tags_append]
  constructor
  · rintro ⟨hk, h1, h2⟩
    by_cases hka : k = a.ev.key
    · exact Or.inl hka
    · right
      refine ⟨hk, ?_, ?_⟩
      · rcases h1 with h1 | h1
        · exact h1
        · exfalso; apply hka; simp only [Arrival.tag, Prod.mk.injEq] at h1; exact h1.2
      · rcases h2 with h2 | h2
        · exact h2
        · exfalso; apply hka; simp only [Arrival.tag, Prod.mk.injEq] at h2; exact h2.2
  · rintro (hka | ⟨hk, h1, h2⟩)
    · subst hka
      refine ⟨hkey, ?_, ?_⟩
      · cases hside : a.ev.isOrder with
        | true => right; simp [Arrival.tag, hside]
        | false => left; simpa [Arrival.cotag, hside] using hco
      · cases hside : a.ev.isOrder with
        | true => left; simpa [Arrival.cotag, hside] using hco
        | false => right; simp [Arrival.tag, hside]
    · exact ⟨hk, Or.inl h1, Or.inl h2⟩


/-- The state of a matched run after any arrivals with pairwise distinct sides and keys:
the maps mirror the arrivals, and the matcher count, the completed-order count and the
barrier move by the number of identifiers of which both halves have arrived. -/
theorem matched_run_state (b0 : orderManagerBase) (ids : List String) (hids : ids.Nodup)
    (pre : List Arrival) (hnd : (tags pre).Nodup) (hsub : ∀ a ∈ pre, a.ev.key ∈ ids) :
    MapInv pre (matchedOrderManager.run ⟨b0, [], []⟩ pre) ∧
    (matchedOrderManager.matcherFlags ⟨b0, [], []⟩ pre).count true
      = (pairedIds ids pre).length ∧
    (matchedOrderManager.run ⟨b0, [], []⟩ pre).base.stats.TotalOrderCount
      = b0.stats.TotalOrderCount + (pairedIds ids pre).length ∧
    (matchedOrderManager.run ⟨b0, [], []⟩ pre).base.wg
      = b0.wg - (pairedIds ids pre).length := by
  induction pre using List.reverseRecOn with
  | nil =>
    refine ⟨MapInv.nil b0, ?_, ?_, ?_⟩
    · simp [matchedOrderManager.matcherFlags, pairedIds, tags]
    · simp [matchedOrderManager.run, pairedIds, tags]
    · simp [matchedOrderManager.run, pairedIds, tags]
  | append_singleton pre a ih =>
    have hnd1 : (tags pre).Nodup ∧ a.tag ∉ tags pre := by
      rw [tags_append] at hnd
      have := List.nodup_append.mp hnd
      refine ⟨this.1, fun hmem => ?_⟩
      exact this.2.2 hmem (by simp) 
    have hsub1 : ∀ b ∈ pre, b.ev.key ∈ ids := fun b hb => hsub b (by simp [hb])
    have hkey : a.ev.key ∈ ids := hsub a (by simp)
    obtain ⟨hinv, hflags, hcount, hwg⟩ := ih hnd1.1 hsub1
    obtain ⟨hinv1, hpath, hno, hyes⟩ := hinv.map_step a hnd1.2
    rw [matchedOrderManager.run_append, matchedOrderManager.matcherFlags_append]
    refine ⟨hinv1, ?_, ?_, ?_⟩
    · by_cases hco : a.cotag ∈ tags pre
      · rw [(pairedIds_append_of_mem ids hids pre a hco hnd1.2 hkey).length_eq,
          hpath.mpr hco]
        simp [List.count_append, hflags]
      · have hf : (matchedOrderManager.run ⟨b0, [], []⟩ pre).takesMatcherPath a = false := by
          cases hx : (matchedOrderManager.run ⟨b0, [], []⟩ pre).takesMatcherPath a with
          | false => rfl
          | true => exact absurd (hpath.mp hx) hco
        rw [pairedIds_append_of_not_mem ids pre a hco, hf]
        simp [List.count_append, hflags]
    · by_cases hco : a.cotag ∈ tags pre
      · obtain ⟨b, _, _, o, c, hbase, _⟩ := hyes hco
        rw [(pairedIds_append_of_mem ids hids pre a hco hnd1.2 hkey).length_eq, hbase]
        simp only [pairedBase, hcount, List.length_cons]
        push_cast; ring
      · rw [pairedIds_append_of_not_mem ids pre a hco, hno hco, hcount]
    · by_cases hco : a.cotag ∈ tags pre
      · obtain ⟨b, _, _, o, c, hbase, _⟩ := hyes hco
        rw [(pairedIds_append_of_mem ids hids pre a hco hnd1.2 hkey).length_eq, hbase]
        simp only [pairedBase, hwg, List.length_cons]
        push_cast; ring
      · rw [pairedIds_append_of_not_mem ids pre a hco, hno hco, hwg]


theorem wgAdd_iterate (n : Nat) (b : orderManagerBase) :
    ((orderManagerBase.wgAdd)^[n] b).wg = b.wg + n ∧
    ((orderManagerBase.wgAdd)^[n] b).stats = b.stats ∧
    ((orderManagerBase.wgAdd)^[n] b).pickUpLog = b.pickUpLog := by
  induction n generalizing b with
  | zero => simp
  | succ n ih =>
    rw [Function.iterate_succ_apply]
    obtain ⟨h1, h2, h3⟩ := ih b.wgAdd
    refine ⟨?_, ?_, ?_⟩
    · rw [h1]; simp only [orderManagerBase.wgAdd]; push_cast; ring
    · rw [h2]; rfl
    · rw [h3]; rfl

theorem matchedDispatched_eq (random : Option resource.Rand) (n : Nat) :
    matchedDispatched random n
      = ⟨(orderManagerBase.wgAdd)^[n] (getOrderManagerBaseClass random), [], []⟩ := rfl

/-- Facts about a full set of arrivals: one order and one courier per identifier. -/
theorem full_arrivals (ids : List String) (hids : ids.Nodup) (evs : List Arrival)
    (hperm : (tags evs).Perm (ids.map (Prod.mk true) ++ ids.map (Prod.mk false))) :
    (tags evs).Nodup ∧ (∀ a ∈ evs, a.ev.key ∈ ids) ∧ (∀ a ∈ evs, a.cotag ∈ tags evs) ∧
    pairedIds ids evs = ids := by
  have hfull : (ids.map (Prod.mk true) ++ ids.map (Prod.mk false)).Nodup := by
    rw [List.nodup_append]
    refine ⟨hids.map (fun x y h => by simpa using h), hids.map (fun x y h => by simpa using h), ?_⟩
    intro t h1 h2
    simp only [List.mem_map] at h1 h2
    obtain ⟨x, _, hx⟩ := h1
    obtain ⟨y, _, hy⟩ := h2
    rw [← hx] at hy; simp at hy
  have hmem : ∀ s k, (s, k) ∈ tags evs ↔ k ∈ ids := by
    intro s k
    rw [hperm.mem_iff]
    cases s <;> simp
  refine ⟨hperm.nodup_iff.mpr hfull, ?_, ?_, ?_⟩
  · intro a ha
    have : a.tag ∈ tags evs := List.mem_map.mpr ⟨a, ha, rfl⟩
    exact (hmem _ _).mp this
  · intro a ha
    have : a.tag ∈ tags evs := List.mem_map.mpr ⟨a, ha, rfl⟩
    exact (hmem _ _).mpr ((hmem _ _).mp this)
  · unfold pairedIds
    rw [List.filter_eq_self]
    intro k hk
    simp [(hmem true k).mpr hk, (hmem false k).mpr hk]

theorem pairedIds_length_le (ids : List String) (pre : List Arrival) :
    (pairedIds ids pre).length ≤ ids.length := List.length_filter_le _ _

/-- C1: matched strategy, exactly-once completion. For pairwise distinct order
identifiers `ids` (N of them) and every order `evs` in which the 2N ready events, one
order and one courier per identifier, pass through the locked publish and probe step,
starting from empty maps with the barrier raised N times: exactly N events take the
matcher path; an event takes it exactly when its counterpart passed before it and waits
exactly when its counterpart passes after it, so each identifier has one matcher, the
later of its two events; `completeOrder` runs N times (`TotalOrderCount` ends at N); the
barrier ends at zero and is never negative on the way. -/
theorem matched_exactly_once (random : Option resource.Rand) (ids : List String)
    (hids : ids.Nodup) (evs : List Arrival)
    (hperm : (tags evs).Perm (ids.map (Prod.mk true) ++ ids.map (Prod.mk false))) :
    ((matchedDispatched random ids.length).matcherFlags evs).count true = ids.length ∧
    (∀ pre a post, evs = pre ++ a :: post →
      ((((matchedDispatched random ids.length).run pre).takesMatcherPath a = true
          ↔ a.cotag ∈ tags pre) ∧
       (((matchedDispatched random ids.length).run pre).takesMatcherPath a = false
          ↔ a.cotag ∈ tags post))) ∧
    ((matchedDispatched random ids.length).run evs).base.stats.TotalOrderCount
      = ids.length ∧
    ((matchedDispatched random ids.length).run evs).base.wg = 0 ∧
    (∀ pre post, evs = pre ++ post →
      0 ≤ ((matchedDispatched random ids.length).run pre).base.wg) := by
  obtain ⟨hnd, hsub, hco, hpaired⟩ := full_arrivals ids hids evs hperm
  obtain ⟨hw, hs, _⟩ := wgAdd_iterate ids.length (getOrderManagerBaseClass random)
  rw [matchedDispatched_eq]
  obtain ⟨_, hflags, hcount, hwg⟩ := matched_run_state
    ((orderManagerBase.wgAdd)^[ids.length] (getOrderManagerBaseClass random)) ids hids evs
    hnd hsub
  refine ⟨?_, ?_, ?_, ?_, ?_⟩
  · rw [hflags, hpaired]
  · intro pre a post hsplit
    have hnd2 : (tags pre ++ a.tag :: tags post).Nodup := by
      have := hnd; rw [hsplit] at this; simpa [tags] using this
    have hndpre : (tags pre).Nodup := (List.nodup_append.mp hnd2).1
    have hfresh : a.tag ∉ tags pre := fun hmem =>
      (List.nodup_append.mp hnd2).2.2 hmem (by simp)
    have hsubpre : ∀ b ∈ pre, b.ev.key ∈ ids := fun b hb => hsub b (by simp [hsplit, hb])
    obtain ⟨hinv, _⟩ := matched_run_state
      ((orderManagerBase.wgAdd)^[ids.length] (getOrderManagerBaseClass random)) ids hids pre
      hndpre hsubpre
    obtain ⟨_, hpath, _⟩ := hinv.map_step a hfresh
    refine ⟨hpath, ?_⟩
    have hin : a.cotag ∈ tags pre ++ a.tag :: tags post := by
      have := hco a (by simp [hsplit]); rw [hsplit] at this; simpa [tags] using this
    have hne : a.cotag ≠ a.tag := by
      simp only [Arrival.cotag, Arrival.tag, ne_eq, Prod.mk.injEq, not_and]
      intro h; cases hb : a.ev.isOrder <;> simp [hb] at h
    have hexcl : a.cotag ∈ tags pre → a.cotag ∉ tags post := fun h1 h2 =>
      (List.nodup_append.mp hnd2).2.2 h1 (by simp [h2])
    constructor
    · intro hf
      have hnpre : a.cotag ∉ tags pre := fun h => by
        rw [hpath.mpr h] at hf; simp at hf
      rcases List.mem_append.mp hin with h | h
      · exact absurd h hnpre
      · rcases List.mem_cons.mp h with h | h
        · exact absurd h hne
        · exact h
    · intro hpost
      cases hx : matchedOrderManager.takesMatcherPath _ a with
      | false => rfl
      | true => exact absurd hpost (hexcl (hpath.mp hx))
  · rw [hcount, hpaired, hs]; simp [getOrderManagerBaseClass]
  · rw [hwg, hpaired, hw]; simp [getOrderManagerBaseClass]
  · intro pre post hsplit
    have hndpre : (tags pre).Nodup := by
      have := hnd; rw [hsplit] at this
      simp only [tags, List.map_append] at this
      exact (List.nodup_append.mp this).1
    have hsubpre : ∀ b ∈ pre, b.ev.key ∈ ids := fun b hb => hsub b (by simp [hsplit, hb])
    obtain ⟨_, _, _, hwgp⟩ := matched_run_state
      ((orderManagerBase.wgAdd)^[ids.length] (getOrderManagerBaseClass random)) ids hids pre
      hndpre hsubpre
    rw [hwgp, hw]
    have := pairedIds_length_le ids pre
    simp only [getOrderManagerBaseClass]
    omega


/-- C1 at the four orders of the tests, in the arrival order of the test scenario. -/
theorem matched_exactly_once_witness :
    (["1", "2", "3", "4"] : List String).Nodup ∧
    (tags testArrivals).Perm
      ((["1", "2", "3", "4"] : List String).map (Prod.mk true)
        ++ (["1", "2", "3", "4"] : List String).map (Prod.mk false)) ∧
    ((matchedDispatched none 4).matcherFlags testArrivals).count true = 4 ∧
    ((matchedDispatched none 4).run testArrivals).base.stats.TotalOrderCount = 4 ∧
    ((matchedDispatched none 4).run testArrivals).base.wg = 0 :=
  have h := matched_exactly_once none ["1", "2", "3", "4"] (by decide) testArrivals
    (by decide)
  ⟨by decide, by decide, h.1, h.2.2.1, h.2.2.2.1⟩


/-! ### Matched strategy: identity of the pairs -/

theorem matchedOrderManager.probed_isSome (m : matchedOrderManager) (a : Arrival) :
    (m.probed a).isSome = m.takesMatcherPath a := by
  cases hev : a.ev <;>
    simp [matchedOrderManager.probed, matchedOrderManager.takesMatcherPath, hev]

/-- The maps mirror the arrivals after any run over pairwise distinct sides and keys. -/
theorem matched_inv (b0 : orderManagerBase) (pre : List Arrival) (hnd : (tags pre).Nodup) :
    MapInv pre (matchedOrderManager.run ⟨b0, [], []⟩ pre) :=
  (matched_run_state b0 (pre.map (fun a => a.ev.key)).dedup (List.nodup_dedup _) pre hnd
    (fun a ha => List.mem_dedup.mpr (List.mem_map.mpr ⟨a, ha, rfl⟩))).1

/-- Every pick-up logged by a matched run pairs an order with a courier dispatched for
that order. -/
theorem matched_log_identity (b0 : orderManagerBase)
    (hb0 : ∀ p ∈ b0.pickUpLog, p.2.Courier.OrderID = p.1.Order.ID)
    (pre : List Arrival) (hnd : (tags pre).Nodup) :
    ∀ p ∈ (matchedOrderManager.run ⟨b0, [], []⟩ pre).base.pickUpLog,
      p.2.Courier.OrderID = p.1.Order.ID := by
  induction pre using List.reverseRecOn with
  | nil => simpa [matchedOrderManager.run] using hb0
  | append_singleton pre a ih =>
    have hnd1 : (tags pre).Nodup ∧ a.tag ∉ tags pre := by
      rw [tags_append] at hnd
      have := List.nodup_append.mp hnd
      exact ⟨this.1, fun hmem => this.2.2 hmem (by simp)⟩
    have hinv := matched_inv b0 pre hnd1.1
    obtain ⟨_, _, hno, hyes⟩ := hinv.map_step a hnd1.2
    rw [matchedOrderManager.run_append]
    by_cases hco : a.cotag ∈ tags pre
    · obtain ⟨b, _, _, o, c, hbase, ho, hc, _⟩ := hyes hco
      rw [hbase]
      intro p hp
      simp only [pairedBase, List.mem_append, List.mem_singleton] at hp
      rcases hp with hp | hp
      · exact ih hnd1.1 p hp
      · subst hp; simp [ho, hc]
    · rw [hno hco]; exact ih hnd1.1

/-- C4: matched-strategy identity invariant. For every sequence of `finishOrder` and
`finishPickUp` calls on a new matched manager in which no order identifier is used
twice on the same side: whenever the keyed probe of a call finds a counterpart, the
counterpart is of the other side and carries the same order identifier, and every pair
written to a notification slot and logged has the courier OrderID equal to the order
ID. -/
theorem matched_identity (random : Option resource.Rand) (evs : List Arrival)
    (hnd : (tags evs).Nodup) :
    (∀ pre a post r, evs = pre ++ a :: post →
      ((newMatchedOrderManager random).run pre).probed a = some r →
      r.isOrder = (!a.ev.isOrder) ∧ r.key = a.ev.key) ∧
    (∀ p ∈ ((newMatchedOrderManager random).run evs).base.pickUpLog,
      p.2.Courier.OrderID = p.1.Order.ID) := by
  constructor
  · intro pre a post r hsplit hprobe
    have hnd2 : (tags pre ++ a.tag :: tags post).Nodup := by
      have := hnd; rw [hsplit] at this; simpa [tags] using this
    have hndpre : (tags pre).Nodup := (List.nodup_append.mp hnd2).1
    have hfresh : a.tag ∉ tags pre := fun hmem =>
      (List.nodup_append.mp hnd2).2.2 hmem (by simp)
    have hinv := matched_inv (getOrderManagerBaseClass random) pre hndpre
    obtain ⟨_, hpath, _, hyes⟩ := hinv.map_step a hfresh
    have hsome : (matchedOrderManager.run ⟨getOrderManagerBaseClass random, [], []⟩
        pre).takesMatcherPath a = true := by
      rw [← matchedOrderManager.probed_isSome]
      show (((newMatchedOrderManager random).run pre).probed a).isSome = true
      rw [hprobe]; rfl
    obtain ⟨_, _, _, _, _, _, _, _, ⟨r1, hr1, hside, hkey⟩, _⟩ := hyes (hpath.mp hsome)
    have : r = r1 := by
      have h2 : ((newMatchedOrderManager random).run pre).probed a = some r1 := hr1
      rw [hprobe] at h2; exact Option.some.inj h2
    subst this
    exact ⟨hside, hkey⟩
  · exact matched_log_identity (getOrderManagerBaseClass random)
      (by simp [getOrderManagerBaseClass]) evs hnd

/-- C4 at the arrivals of the test scenario: the four logged pairs. -/
theorem matched_identity_witness :
    (tags testArrivals).Nodup ∧
    ((newMatchedOrderManager none).run testArrivals).base.pickUpLog.length = 4 ∧
    (∀ p ∈ ((newMatchedOrderManager none).run testArrivals).base.pickUpLog,
      p.2.Courier.OrderID = p.1.Order.ID) :=
  ⟨by decide, by decide, (matched_identity none testArrivals (by decide)).2⟩


/-! ### Matched strategy: wait times -/

theorem Milliseconds_seconds (x : Int) : Milliseconds (x * Second) = 1000 * x := by
  have : x * Second = (x * 1000) * 1000000 := by simp only [Second]; ring
  rw [Milliseconds, this, Int.mul_tdiv_cancel _ (by norm_num)]; ring

theorem Milliseconds_nonneg (x : Int) (h : 0 ≤ x) : 0 ≤ Milliseconds x :=
  Int.tdiv_nonneg h (by norm_num)

/-- The wait totals of a matched run when the waits of the pair of each identifier are
given by `F` (food) and `G` (courier): the totals are the sums of `F` and `G` over the
identifiers of which both halves have arrived, and every logged pair has these waits. -/
theorem matched_sums (b0 : orderManagerBase) (ids : List String) (hids : ids.Nodup)
    (F G : String → Int) (pre : List Arrival) (hnd : (tags pre).Nodup)
    (hsub : ∀ a ∈ pre, a.ev.key ∈ ids)
    (hFG : ∀ p a q, pre = p ++ a :: q → ∀ b ∈ p, b.tag = a.cotag →
      foodWaitOf a b = F a.ev.key ∧ courierWaitOf a b = G a.ev.key) :
    (matchedOrderManager.run ⟨b0, [], []⟩ pre).base.stats.TotalFoodWaitTime
      = b0.stats.TotalFoodWaitTime + ((pairedIds ids pre).map F).sum ∧
    (matchedOrderManager.run ⟨b0, [], []⟩ pre).base.stats.TotalCourierWaitTime
      = b0.stats.TotalCourierWaitTime + ((pairedIds ids pre).map G).sum ∧
    (∀ pr ∈ (matchedOrderManager.run ⟨b0, [], []⟩ pre).base.pickUpLog,
      pr ∈ b0.pickUpLog ∨
      (pr.1.getWaitTimeInMs = F pr.1.Order.ID ∧ pr.2.getWaitTimeInMs = G pr.1.Order.ID)) := by
  induction pre using List.reverseRecOn with
  | nil =>
    exact ⟨by simp [matchedOrderManager.run, pairedIds, tags],
      by simp [matchedOrderManager.run, pairedIds, tags], fun pr h => Or.inl h⟩
  | append_singleton pre a ih =>
    have hnd1 : (tags pre).Nodup ∧ a.tag ∉ tags pre := by
      rw [tags_append] at hnd
      have := List.nodup_append.mp hnd
      exact ⟨this.1, fun hmem => this.2.2 hmem (by simp)⟩
    have hsub1 : ∀ b ∈ pre, b.ev.key ∈ ids := fun b hb => hsub b (by simp [hb])
    have hkey : a.ev.key ∈ ids := hsub a (by simp)
    have hFG1 : ∀ p a1 q, pre = p ++ a1 :: q → ∀ b ∈ p, b.tag = a1.cotag →
        foodWaitOf a1 b = F a1.ev.key ∧ courierWaitOf a1 b = G a1.ev.key := by
      intro p a1 q hsplit
      exact hFG p a1 (q ++ [a]) (by rw [hsplit]; simp)
    obtain ⟨hfood, hcour, hlog⟩ := ih hnd1.1 hsub1 hFG1
    have hinv := matched_inv b0 pre hnd1.1
    obtain ⟨_, _, hno, hyes⟩ := hinv.map_step a hnd1.2
    rw [matchedOrderManager.run_append]
    by_cases hco : a.cotag ∈ tags pre
    · obtain ⟨b, hb, hbt, o, c, hbase, ho, _, _, hfw, hcw⟩ := hyes hco
      obtain ⟨hF, hG⟩ := hFG pre a [] rfl b hb hbt
      have hperm := pairedIds_append_of_mem ids hids pre a hco hnd1.2 hkey
      rw [hbase]
      refine ⟨?_, ?_, ?_⟩
      · rw [(hperm.map F).sum_eq]
        simp only [pairedBase, hfood, List.map_cons, List.sum_cons, hfw, hF]; ring
      · rw [(hperm.map G).sum_eq]
        simp only [pairedBase, hcour, List.map_cons, List.sum_cons, hcw, hG]; ring
      · intro pr hpr
        simp only [pairedBase, List.mem_append, List.mem_singleton] at hpr
        rcases hpr with hpr | hpr
        · exact hlog pr hpr
        · right; subst hpr; simp only [hfw, hcw, ho, hF, hG, and_self]
    · rw [pairedIds_append_of_not_mem ids pre a hco, hno hco]
      exact ⟨hfood, hcour, hlog⟩

/-- C7: matched scenario. Orders with pairwise distinct identifiers `ids` are dispatched
at time 0; the order of identifier `i` has preparation time `prep i` and its courier
travel time `travel i` (seconds), so that the order is ready at `prep i` and the courier
at `travel i`, and the ready events pass in the order of their instants. Then every
logged pair of identifier `i` has a food wait of `max 0 (travel i - prep i)` seconds and
a courier wait of `max 0 (prep i - travel i)` seconds (in milliseconds), and the totals
are the number of orders and the two sums. For the preparation times `[2,10,4,6]` and
travel times `[4,5,3,8]` of the tests: 4000 ms, 6000 ms and 4 orders. -/
theorem matched_scenario (random : Option resource.Rand) (ids : List String)
    (hids : ids.Nodup) (prep travel : String → Int) (evs : List Arrival)
    (hperm : (tags evs).Perm (ids.map (Prod.mk true) ++ ids.map (Prod.mk false)))
    (hev : ∀ a ∈ evs,
      (∃ o : resource.Order, a = readyOrder o ∧ o.PrepTime = prep o.ID) ∨
      (∃ c : resource.Courier, a = readyCourier c ∧ c.TravelTime = travel c.OrderID))
    (hsorted : evs.Pairwise (fun a b => a.ready ≤ b.ready)) :
    (∀ pr ∈ ((matchedDispatched random ids.length).run evs).base.pickUpLog,
      pr.1.getWaitTimeInMs = 1000 * max 0 (travel pr.1.Order.ID - prep pr.1.Order.ID) ∧
      pr.2.getWaitTimeInMs = 1000 * max 0 (prep pr.1.Order.ID - travel pr.1.Order.ID)) ∧
    ((matchedDispatched random ids.length).run evs).base.stats.TotalOrderCount
      = ids.length ∧
    ((matchedDispatched random ids.length).run evs).base.stats.TotalFoodWaitTime
      = (ids.map (fun i => 1000 * max 0 (travel i - prep i))).sum ∧
    ((matchedDispatched random ids.length).run evs).base.stats.TotalCourierWaitTime
      = (ids.map (fun i => 1000 * max 0 (prep i - travel i))).sum ∧
    ((matchedDispatched none testOrders.length).run testArrivals).base.stats
      = ⟨4, 4000, 6000⟩ := by
  obtain ⟨hnd, hsub, _, hpaired⟩ := full_arrivals ids hids evs hperm
  obtain ⟨_, hs, hl⟩ := wgAdd_iterate ids.length (getOrderManagerBaseClass random)
  have hFG : ∀ p a q, evs = p ++ a :: q → ∀ b ∈ p, b.tag = a.cotag →
      foodWaitOf a b = 1000 * max 0 (travel a.ev.key - prep a.ev.key) ∧
      courierWaitOf a b = 1000 * max 0 (prep a.ev.key - travel a.ev.key) := by
    intro p a q hsplit b hb hbt
    have hle : b.ready ≤ a.ready := by
      rw [hsplit] at hsorted
      exact (List.pairwise_append.mp hsorted).2.2 b hb a (by simp)
    have hbmem : b ∈ evs := by simp [hsplit, hb]
    have hamem : a ∈ evs := by simp [hsplit]
    rcases hev a hamem with ⟨o, rfl, ho⟩ | ⟨c, rfl, hc⟩
    · rcases hev b hbmem with ⟨o1, rfl, _⟩ | ⟨c, rfl, hc⟩
      · simp [Arrival.tag, Arrival.cotag, readyOrder, Ready.isOrder] at hbt
      · have hk : c.OrderID = o.ID := by
          simpa [Arrival.tag, Arrival.cotag, readyOrder, readyCourier, Ready.isOrder,
            Ready.key, getDispatchedOrder, getDispatchedCourier] using hbt
        have hle1 : c.TravelTime ≤ o.PrepTime := by
          have : c.TravelTime * Second ≤ o.PrepTime * Second := hle
          simp only [Second] at this; omega
        have e1 : foodWaitOf (readyOrder o) (readyCourier c) = 0 := by
          simp [foodWaitOf, readyOrder, Ready.isOrder, Milliseconds]
        have e2 : courierWaitOf (readyOrder o) (readyCourier c)
            = 1000 * (o.PrepTime - c.TravelTime) := by
          simp only [courierWaitOf, readyOrder, readyCourier, Ready.isOrder, if_true]
          rw [← sub_mul, Milliseconds_seconds]
        have hkey : (readyOrder o).ev.key = o.ID := rfl
        rw [e1, e2, hkey, ← ho, ← hk, ← hc]
        constructor
        · rw [max_eq_left (by omega)]; ring
        · rw [max_eq_right (by omega)]
    · rcases hev b hbmem with ⟨o, rfl, ho⟩ | ⟨c1, rfl, _⟩
      · have hk : o.ID = c.OrderID := by
          simpa [Arrival.tag, Arrival.cotag, readyOrder, readyCourier, Ready.isOrder,
            Ready.key, getDispatchedOrder, getDispatchedCourier] using hbt
        have hle1 : o.PrepTime ≤ c.TravelTime := by
          have : o.PrepTime * Second ≤ c.TravelTime * Second := hle
          simp only [Second] at this; omega
        have e1 : courierWaitOf (readyCourier c) (readyOrder o) = 0 := by
          simp [courierWaitOf, readyCourier, Ready.isOrder, Milliseconds]
        have e2 : foodWaitOf (readyCourier c) (readyOrder o)
            = 1000 * (c.TravelTime - o.PrepTime) := by
          simp only [foodWaitOf, readyOrder, readyCourier, Ready.isOrder, Bool.false_eq_true,
            if_false]
          rw [← sub_mul, Milliseconds_seconds]
        have hkey : (readyCourier c).ev.key = c.OrderID := rfl
        rw [e1, e2, hkey, ← hc, ← hk, ← ho]
        constructor
        · rw [max_eq_right (by omega)]
        · rw [max_eq_left (by omega)]; ring
      · simp [Arrival.tag, Arrival.cotag, readyCourier, Ready.isOrder] at hbt
  obtain ⟨hfood, hcour, hlog⟩ := matched_sums
    ((orderManagerBase.wgAdd)^[ids.length] (getOrderManagerBaseClass random)) ids hids
    (fun i => 1000 * max 0 (travel i - prep i)) (fun i => 1000 * max 0 (prep i - travel i))
    evs hnd hsub hFG
  obtain ⟨_, _, hcount, _⟩ := matched_run_state
    ((orderManagerBase.wgAdd)^[ids.length] (getOrderManagerBaseClass random)) ids hids evs
    hnd hsub
  rw [matchedDispatched_eq]
  refine ⟨?_, ?_, ?_, ?_, by decide⟩
  · intro pr hpr
    rcases hlog pr hpr with h | h
    · rw [hl] at h; simp [getOrderManagerBaseClass] at h
    · exact h
  · rw [hcount, hpaired, hs]; simp [getOrderManagerBaseClass]
  · rw [hfood, hpaired, hs]; simp [getOrderManagerBaseClass]
  · rw [hcour, hpaired, hs]; simp [getOrderManagerBaseClass]


theorem testArrivals_scenario : ∀ a ∈ testArrivals,
    (∃ o : resource.Order, a = readyOrder o ∧ o.PrepTime = testPrep o.ID) ∨
    (∃ c : resource.Courier, a = readyCourier c ∧ c.TravelTime = testTravel c.OrderID) := by
  intro a ha
  simp only [testArrivals, List.mem_cons, List.mem_singleton, List.not_mem_nil, or_false] at ha
  rcases ha with rfl | rfl | rfl | rfl | rfl | rfl | rfl | rfl
  · exact Or.inl ⟨_, rfl, by decide⟩
  · exact Or.inr ⟨_, rfl, by decide⟩
  · exact Or.inl ⟨_, rfl, by decide⟩
  · exact Or.inr ⟨_, rfl, by decide⟩
  · exact Or.inr ⟨_, rfl, by decide⟩
  · exact Or.inl ⟨_, rfl, by decide⟩
  · exact Or.inr ⟨_, rfl, by decide⟩
  · exact Or.inl ⟨_, rfl, by decide⟩

/-- C7 at the test scenario: the arrivals are those of `testOrders` and of their
couriers, in the order of their instants. -/
theorem matched_scenario_witness :
    testArrivals.Perm (testOrders.map readyOrder ++ testCouriers.map readyCourier) ∧
    testArrivals.Pairwise (fun a b => a.ready ≤ b.ready) ∧
    ((matchedDispatched none 4).run testArrivals).base.stats.TotalFoodWaitTime
      = ((["1", "2", "3", "4"] : List String).map
          (fun i => 1000 * max 0 (testTravel i - testPrep i))).sum ∧
    ((matchedDispatched none 4).run testArrivals).base.stats.TotalCourierWaitTime
      = ((["1", "2", "3", "4"] : List String).map
          (fun i => 1000 * max 0 (testPrep i - testTravel i))).sum ∧
    ((["1", "2", "3", "4"] : List String).map
        (fun i => 1000 * max 0 (testTravel i - testPrep i))).sum = 4000 ∧
    ((["1", "2", "3", "4"] : List String).map
        (fun i => 1000 * max 0 (testPrep i - testTravel i))).sum = 6000 :=
  have h := matched_scenario none ["1", "2", "3", "4"] (by decide) testPrep testTravel
    testArrivals (by decide) testArrivals_scenario (by decide)
  ⟨by decide, by decide, h.2.2.1, h.2.2.2.1, by decide, by decide⟩


/-! ### `container/list` -/

theorem GoList.linked_iff {α : Type} (l : GoList α) (e : Element α) :
    l.linked e = true ↔ e.ptr ∈ l.elems.map (fun x => x.ptr) := by
  simp only [GoList.linked, List.any_eq_true, beq_iff_eq, List.mem_map]

theorem GoList.Remove_not_linked {α : Type} (l : GoList α) (e : Element α)
    (h : l.linked e = false) : l.Remove e = (l, e.Value) := by
  simp [GoList.Remove, h]

theorem GoList.Remove_snd {α : Type} (l : GoList α) (e : Element α) :
    (l.Remove e).2 = e.Value := by
  unfold GoList.Remove; split <;> rfl

theorem GoList.Remove_next {α : Type} (l : GoList α) (e : Element α) :
    (l.Remove e).1.next = l.next := by
  unfold GoList.Remove; split <;> rfl

theorem eraseP_ptr_not_mem {α : Type} (p : Nat) (xs : List (Element α))
    (hnd : (xs.map (fun x => x.ptr)).Nodup) :
    p ∉ (xs.eraseP (fun x => x.ptr == p)).map (fun x => x.ptr) := by
  induction xs with
  | nil => simp
  | cons x xs ih =>
    rw [List.map_cons, List.nodup_cons] at hnd
    by_cases hx : x.ptr = p
    · have hp : (x.ptr == p) = true := by simpa using hx
      rw [List.eraseP_cons]
      simp only [hp, cond_true]
      rw [← hx]; exact hnd.1
    · have hp : (x.ptr == p) = false := by simpa using hx
      rw [List.eraseP_cons]
      simp only [hp, cond_false, List.map_cons, List.mem_cons]
      rintro (h | h)
      · exact hx h.symm
      · exact ih hnd.2 h

theorem GoList.WF_New {α : Type} : (GoList.New : GoList α).WF := by
  simp [GoList.WF, GoList.New]

theorem GoList.WF_PushBack {α : Type} (l : GoList α) (v : α) (h : l.WF) :
    (l.PushBack v).1.WF := by
  obtain ⟨hnd, hlt⟩ := h
  constructor
  · simp only [GoList.PushBack, List.map_append, List.map_cons, List.map_nil]
    rw [List.nodup_append]
    refine ⟨hnd, by simp, ?_⟩
    intro p hp hq
    simp only [List.mem_singleton] at hq
    obtain ⟨x, hx, rfl⟩ := List.mem_map.mp hp
    have := hlt x hx
    omega
  · intro x hx
    simp only [GoList.PushBack, List.mem_append, List.mem_singleton] at hx ⊢
    rcases hx with hx | hx
    · have := hlt x hx; omega
    · subst hx; simp

theorem GoList.WF_Remove {α : Type} (l : GoList α) (e : Element α) (h : l.WF) :
    (l.Remove e).1.WF := by
  obtain ⟨hnd, hlt⟩ := h
  unfold GoList.Remove
  split
  · constructor
    · exact hnd.sublist ((List.eraseP_sublist _).map _)
    · intro x hx; exact hlt x (List.mem_of_mem_eraseP hx)
  · exact ⟨hnd, hlt⟩

theorem GoList.WF_setValue {α : Type} (l : GoList α) (e : Element α) (v : α) (h : l.WF) :
    (l.setValue e v).WF := by
  obtain ⟨hnd, hlt⟩ := h
  have hmap : (l.setValue e v).elems.map (fun x => x.ptr) = l.elems.map (fun x => x.ptr) := by
    simp only [GoList.setValue, List.map_map]
    apply List.map_congr_left
    intro x _
    simp only [Function.comp]
    split <;> rfl
  constructor
  · rw [hmap]; exact hnd
  · intro x hx
    have : x.ptr ∈ (l.setValue e v).elems.map (fun x => x.ptr) := List.mem_map.mpr ⟨x, hx, rfl⟩
    rw [hmap] at this
    obtain ⟨y, hy, hxy⟩ := List.mem_map.mp this
    have := hlt y hy
    simp only [GoList.setValue]
    omega

theorem GoList.WF_apply {α : Type} (l : GoList α) (op : Op α) (h : l.WF) :
    (l.apply op).WF := by
  cases op with
  | pushBack v => exact GoList.WF_PushBack l v h
  | popFront =>
    simp only [GoList.apply]
    split
    · split
      · exact GoList.WF_Remove l _ h
      · exact h
    · exact h
  | remove e => exact GoList.WF_Remove l e h

theorem GoList.WF_applyAll {α : Type} (ops : List (Op α)) (l : GoList α) (h : l.WF) :
    (l.applyAll ops).WF := by
  induction ops generalizing l with
  | nil => exact h
  | cons op ops ih => exact ih (l.apply op) (GoList.WF_apply l op h)

/-- After its removal from a list with sound handles an element is not linked. -/
theorem GoList.not_linked_after_Remove {α : Type} (l : GoList α) (e : Element α)
    (h : l.WF) : (l.Remove e).1.linked e = false := by
  cases hl : (l.Remove e).1.linked e with
  | false => rfl
  | true =>
    exfalso
    rw [GoList.linked_iff] at hl
    unfold GoList.Remove at hl
    split at hl
    · exact eraseP_ptr_not_mem e.ptr l.elems h.1 hl
    · rename_i hnot
      exact hnot ((GoList.linked_iff l e).mpr hl)

/-- The removal of the element just pushed restores the elements of the list. -/
theorem GoList.Remove_PushBack {α : Type} (l : GoList α) (v : α) (h : l.WF) :
    ((l.PushBack v).1.Remove (l.PushBack v).2).1 = ⟨l.elems, l.next + 1⟩ := by
  have hlinked : (l.PushBack v).1.linked (l.PushBack v).2 = true := by
    simp [GoList.linked, GoList.PushBack]
  have hnone : ∀ x ∈ l.elems, ¬ ((x.ptr == l.next) = true) := by
    intro x hx
    have := h.2 x hx
    simp only [beq_iff_eq]; omega
  simp only [GoList.Remove, hlinked, if_true]
  simp only [GoList.PushBack]
  rw [List.eraseP_append_right _ hnone]
  simp

/-- The removal of the front element leaves the tail. -/
theorem GoList.Remove_Front {α : Type} (l : GoList α) (e : Element α)
    (hf : l.Front = some e) : (l.Remove e).1 = ⟨l.elems.tail, l.next⟩ := by
  cases hl : l.elems with
  | nil => simp [GoList.Front, hl] at hf
  | cons x xs =>
    have hx : x = e := by simpa [GoList.Front, hl] using hf
    subst hx
    simp [GoList.Remove, GoList.linked, hl]


theorem GoList.handleAfter_WF {α : Type} (ops1 : List (Op α)) (v : α) (ops2 : List (Op α)) :
    (GoList.handleAfter ops1 v ops2).1.WF :=
  GoList.WF_applyAll ops2 _ (GoList.WF_PushBack _ v (GoList.WF_applyAll ops1 _ GoList.WF_New))

theorem GoList.handleAfter_Value {α : Type} (ops1 : List (Op α)) (v : α)
    (ops2 : List (Op α)) : (GoList.handleAfter ops1 v ops2).2.Value = v := rfl

/-- C6: idempotent removal. For every queue state reached from an empty list by
`PushBack`, pops of the front and removals, and every handle `h` returned by an earlier
`PushBack v` on that queue: when `h` is no longer linked (popped by a probe, or evicted
before), `Remove(h)` is total, returns the value `v` and leaves the elements, their order,
the length and the allocator unchanged; removing `h` twice is the same as removing it
once, so later operations behave as if the second removal had not happened; and the two
eviction functions of the FIFO manager inherit both facts. -/
theorem evict_idempotent {α : Type} (ops1 : List (Op α)) (v : α) (ops2 : List (Op α)) :
    ((GoList.handleAfter ops1 v ops2).1.linked (GoList.handleAfter ops1 v ops2).2 = false →
      (GoList.handleAfter ops1 v ops2).1.Remove (GoList.handleAfter ops1 v ops2).2
        = ((GoList.handleAfter ops1 v ops2).1, v)) ∧
    (((GoList.handleAfter ops1 v ops2).1.Remove (GoList.handleAfter ops1 v ops2).2).1.Remove
        (GoList.handleAfter ops1 v ops2).2
      = (((GoList.handleAfter ops1 v ops2).1.Remove (GoList.handleAfter ops1 v ops2).2).1, v)) ∧
    (∀ ops : List (Op α),
      ((((GoList.handleAfter ops1 v ops2).1.Remove (GoList.handleAfter ops1 v ops2).2).1.Remove
        (GoList.handleAfter ops1 v ops2).2).1).applyAll ops
      = (((GoList.handleAfter ops1 v ops2).1.Remove
          (GoList.handleAfter ops1 v ops2).2).1).applyAll ops) ∧
    (∀ (b : orderManagerBase) (qc : GoList dispatchedCourier) (o1 o2 : List (Op dispatchedOrder))
        (d : dispatchedOrder),
      ((⟨b, (GoList.handleAfter o1 d o2).1, qc⟩ : fifoOrderManager).evictFromFinishedOrderQueue
          (GoList.handleAfter o1 d o2).2).evictFromFinishedOrderQueue
          (GoList.handleAfter o1 d o2).2
        = (⟨b, (GoList.handleAfter o1 d o2).1, qc⟩ : fifoOrderManager).evictFromFinishedOrderQueue
          (GoList.handleAfter o1 d o2).2) ∧
    (∀ (b : orderManagerBase) (qo : GoList dispatchedOrder) (c1 c2 : List (Op dispatchedCourier))
        (d : dispatchedCourier),
      ((⟨b, qo, (GoList.handleAfter c1 d c2).1⟩ : fifoOrderManager).evictFromCourierQueue
          (GoList.handleAfter c1 d c2).2).evictFromCourierQueue (GoList.handleAfter c1 d c2).2
        = (⟨b, qo, (GoList.handleAfter c1 d c2).1⟩ : fifoOrderManager).evictFromCourierQueue
          (GoList.handleAfter c1 d c2).2) := by
  have key : ∀ {β : Type} (p1 : List (Op β)) (w : β) (p2 : List (Op β)),
      ((GoList.handleAfter p1 w p2).1.Remove (GoList.handleAfter p1 w p2).2).1.Remove
          (GoList.handleAfter p1 w p2).2
        = (((GoList.handleAfter p1 w p2).1.Remove (GoList.handleAfter p1 w p2).2).1, w) := by
    intro β p1 w p2
    have hwf := GoList.handleAfter_WF p1 w p2
    rw [GoList.Remove_not_linked _ _ (GoList.not_linked_after_Remove _ _ hwf)]
    rfl
  refine ⟨?_, key ops1 v ops2, ?_, ?_, ?_⟩
  · intro h
    rw [GoList.Remove_not_linked _ _ h]; rfl
  · intro ops
    rw [key ops1 v ops2]
  · intro b qc o1 o2 d
    simp only [fifoOrderManager.evictFromFinishedOrderQueue, key o1 d o2]
  · intro b qo c1 c2 d
    simp only [fifoOrderManager.evictFromCourierQueue, key c1 d c2]

/-- C6 at a concrete queue: two orders are queued, the first is popped by a probe and
its handle is then removed twice. -/
theorem evict_idempotent_witness :
    (GoList.handleAfter [] (5 : Nat) [Op.pushBack 7, Op.popFront]).1.linked
        (GoList.handleAfter [] (5 : Nat) [Op.pushBack 7, Op.popFront]).2 = false ∧
    (GoList.handleAfter [] (5 : Nat) [Op.pushBack 7, Op.popFront]).1.Remove
        (GoList.handleAfter [] (5 : Nat) [Op.pushBack 7, Op.popFront]).2
      = (⟨[⟨1, 7⟩], 2⟩, 5) :=
  ⟨by decide,
   ((evict_idempotent [] (5 : Nat) [Op.pushBack 7, Op.popFront]).1 (by decide)).trans
     (by decide)⟩


/-! ### FIFO strategy: one arrival -/

theorem GoList.setValue_PushBack {α : Type} (l : GoList α) (v w : α) (h : l.WF) :
    (l.PushBack v).1.setValue (l.PushBack v).2 w = ⟨l.elems ++ [⟨l.next, w⟩], l.next + 1⟩ := by
  simp only [GoList.setValue, GoList.PushBack, List.map_append, List.map_cons, List.map_nil,
    if_true]
  congr 1
  congr 1
  conv_rhs => rw [← List.map_id l.elems]
  apply List.map_congr_left
  intro x hx
  have := h.2 x hx
  have hne : x.ptr ≠ l.next := by omega
  simp [hne]

theorem GoList.Len_pos_iff {α : Type} (l : GoList α) : l.Len > 0 ↔ l.elems ≠ [] := by
  simp only [GoList.Len, gt_iff_lt, Int.natCast_pos, List.length_pos, ne_eq]

theorem GoList.not_linked_tail {α : Type} (l : GoList α) (x : Element α)
    (xs : List (Element α)) (h : l.WF) (hl : l.elems = x :: xs) :
    (⟨xs, l.next⟩ : GoList α).linked x = false := by
  cases hx : (⟨xs, l.next⟩ : GoList α).linked x with
  | false => rfl
  | true =>
    exfalso
    rw [GoList.linked_iff] at hx
    have hnd := h.1
    rw [hl, List.map_cons, List.nodup_cons] at hnd
    exact hnd.1 hx

/-- An order that finds the courier queue empty parks at the back of its queue. -/
theorem fifoOrderManager.arrive_order_park (f : fifoOrderManager) (a : Arrival)
    (d : dispatchedOrder) (ha : a.ev = Ready.order d) (hC : f.courierQueue.elems = [])
    (hwf : f.finishedOrderQueue.WF) :
    f.arrive a =
      { f with
        finishedOrderQueue :=
          ⟨f.finishedOrderQueue.elems ++ [⟨f.finishedOrderQueue.next, parkedOrder d a⟩],
            f.finishedOrderQueue.next + 1⟩ } := by
  have hlen : ¬ (f.courierQueue.Len > 0) := by
    rw [GoList.Len_pos_iff, hC]; simp
  simp only [fifoOrderManager.arrive, ha, fifoOrderManager.processOrder,
    fifoOrderManager.finishOrder, fifoOrderManager.lockedFinishOrder, hlen, if_false,
    fifoOrderManager.parkOrder]
  rw [GoList.setValue_PushBack _ _ _ hwf]
  rfl

/-- A courier that finds the order queue empty parks at the back of its queue. -/
theorem fifoOrderManager.arrive_courier_park (f : fifoOrderManager) (a : Arrival)
    (d : dispatchedCourier) (ha : a.ev = Ready.courier d)
    (hO : f.finishedOrderQueue.elems = []) (hwf : f.courierQueue.WF) :
    f.arrive a =
      { f with
        courierQueue :=
          ⟨f.courierQueue.elems ++ [⟨f.courierQueue.next, parkedCourier d a⟩],
            f.courierQueue.next + 1⟩ } := by
  have hlen : ¬ (f.finishedOrderQueue.Len > 0) := by
    rw [GoList.Len_pos_iff, hO]; simp
  simp only [fifoOrderManager.arrive, ha, fifoOrderManager.pickUpOrder,
    fifoOrderManager.finishPickUp, fifoOrderManager.lockedFinishPickUp, hlen, if_false,
    fifoOrderManager.parkCourier]
  rw [GoList.setValue_PushBack _ _ _ hwf]
  rfl

/-- An order that finds a parked courier at the front of the courier queue resolves the
pair; its own queue is as before and the courier queue has lost its front. -/
theorem fifoOrderManager.arrive_order_match (f : fifoOrderManager) (a : Arrival)
    (d : dispatchedOrder) (x : Element dispatchedCourier)
    (xs : List (Element dispatchedCourier)) (ha : a.ev = Ready.order d)
    (hC : f.courierQueue.elems = x :: xs) (hp : x.Value.notification.parked = true)
    (hwfO : f.finishedOrderQueue.WF) (hwfC : f.courierQueue.WF) :
    f.arrive a =
      { base := pairedBase f.base (matcherOrder d a) (wokenCourier x.Value a),
        finishedOrderQueue := ⟨f.finishedOrderQueue.elems, f.finishedOrderQueue.next + 1⟩,
        courierQueue := ⟨xs, f.courierQueue.next⟩ } := by
  have hlen : f.courierQueue.Len > 0 := by
    rw [GoList.Len_pos_iff, hC]; simp
  have hfront : f.courierQueue.Front = some x := by simp [GoList.Front, hC]
  have hrem : (f.courierQueue.Remove x).1 = ⟨xs, f.courierQueue.next⟩ := by
    rw [GoList.Remove_Front _ _ hfront, hC]; rfl
  have hnl := GoList.not_linked_tail f.courierQueue x xs hwfC hC
  have hself := GoList.Remove_PushBack f.finishedOrderQueue { d with FinishTime := a.ready }
    hwfO
  simp only [fifoOrderManager.arrive, ha, fifoOrderManager.processOrder,
    fifoOrderManager.finishOrder, fifoOrderManager.lockedFinishOrder, hlen, if_true, hfront,
    fifoOrderManager.matchedFinishOrder, fifoOrderManager.evictFromFinishedOrderQueue,
    GoList.Remove_snd, hp, fifoOrderManager.resumeFinishPickUp,
    fifoOrderManager.evictFromCourierQueue, hrem, hself,
    GoList.Remove_not_linked _ _ hnl, pairedBase, matcherOrder, wokenCourier,
    orderManagerBase.completeOrder, orderManagerBase.wgDone,
    orderManagerBase.incrementTotalFoodWaitTime, orderManagerBase.logPickUpEvent,
    orderManagerBase.incrementTotalCourierWaitTime,
    OrderManagerStatistics.IncrementTotalOrderCount,
    OrderManagerStatistics.IncrementTotalFoodWaitTime,
    OrderManagerStatistics.IncrementTotalCourierWaitTime]

/-- A courier that finds a parked order at the front of the order queue resolves the
pair; its own queue is as before and the order queue has lost its front. -/
theorem fifoOrderManager.arrive_courier_match (f : fifoOrderManager) (a : Arrival)
    (d : dispatchedCourier) (x : Element dispatchedOrder)
    (xs : List (Element dispatchedOrder)) (ha : a.ev = Ready.courier d)
    (hO : f.finishedOrderQueue.elems = x :: xs) (hp : x.Value.notification.parked = true)
    (hwfO : f.finishedOrderQueue.WF) (hwfC : f.courierQueue.WF) :
    f.arrive a =
      { base := pairedBase f.base (wokenOrder x.Value a) (matcherCourier d a),
        finishedOrderQueue := ⟨xs, f.finishedOrderQueue.next⟩,
        courierQueue := ⟨f.courierQueue.elems, f.courierQueue.next + 1⟩ } := by
  have hlen : f.finishedOrderQueue.Len > 0 := by
    rw [GoList.Len_pos_iff, hO]; simp
  have hfront : f.finishedOrderQueue.Front = some x := by simp [GoList.Front, hO]
  have hrem : (f.finishedOrderQueue.Remove x).1 = ⟨xs, f.finishedOrderQueue.next⟩ := by
    rw [GoList.Remove_Front _ _ hfront, hO]; rfl
  have hnl := GoList.not_linked_tail f.finishedOrderQueue x xs hwfO hO
  have hself := GoList.Remove_PushBack f.courierQueue { d with ArrivedTime := a.ready } hwfC
  simp only [fifoOrderManager.arrive, ha, fifoOrderManager.pickUpOrder,
    fifoOrderManager.finishPickUp, fifoOrderManager.lockedFinishPickUp, hlen, if_true, hfront,
    fifoOrderManager.matchedFinishPickUp, fifoOrderManager.evictFromCourierQueue,
    GoList.Remove_snd, hp, fifoOrderManager.resumeFinishOrder,
    fifoOrderManager.evictFromFinishedOrderQueue, hrem, hself,
    GoList.Remove_not_linked _ _ hnl, pairedBase, matcherCourier, wokenOrder,
    orderManagerBase.completeOrder, orderManagerBase.wgDone,
    orderManagerBase.incrementTotalFoodWaitTime, orderManagerBase.logPickUpEvent,
    orderManagerBase.incrementTotalCourierWaitTime,
    OrderManagerStatistics.IncrementTotalOrderCount,
    OrderManagerStatistics.IncrementTotalFoodWaitTime,
    OrderManagerStatistics.IncrementTotalCourierWaitTime]


theorem GoList.values_nil_iff {α : Type} (l : GoList α) : l.values = [] ↔ l.elems = [] := by
  simp [GoList.values]

/-- One arrival keeps the manager and the plain lists in agreement, and both take the
matcher path together. -/
theorem FifoRel.rel_step {f : fifoOrderManager} {s : FifoAbs} (h : FifoRel f s) (a : Arrival) :
    FifoRel (f.arrive a) (s.arrive a) ∧ f.takesMatcherPath a = s.takesMatcherPath a := by
  cases hev : a.ev with
  | order d =>
    cases hC : f.courierQueue.elems with
    | nil =>
      have hsC : s.waitC = [] := by rw [← h.couriers, GoList.values, hC]; rfl
      rw [fifoOrderManager.arrive_order_park f a d hev hC h.wfO]
      have hlen : ¬ (f.courierQueue.Len > 0) := by rw [GoList.Len_pos_iff, hC]; simp
      refine ⟨?_, ?_⟩
      · have hwf : (f.finishedOrderQueue.PushBack (parkedOrder d a)).1.WF :=
          GoList.WF_PushBack _ _ h.wfO
        constructor
        · simp [FifoAbs.arrive, hev, hsC, h.base]
        · simp [FifoAbs.arrive, hev, hsC, GoList.values, ← h.orders]
        · simp [FifoAbs.arrive, hev, hsC, GoList.values, hC]
        · exact hwf
        · exact h.wfC
        · intro o ho
          simp only [FifoAbs.arrive, hev, hsC, List.mem_append, List.mem_singleton] at ho
          rcases ho with ho | ho
          · exact h.parkedO o ho
          · subst ho; rfl
        · intro c hc
          simp [FifoAbs.arrive, hev, hsC] at hc
      · simp [fifoOrderManager.takesMatcherPath, hev, fifoOrderManager.lockedFinishOrder,
          hlen, FifoAbs.takesMatcherPath, hsC]
    | cons x xs =>
      have hsC : s.waitC = x.Value :: xs.map (fun e => e.Value) := by
        rw [← h.couriers, GoList.values, hC]; rfl
      have hp : x.Value.notification.parked = true := h.parkedC _ (by simp [hsC])
      rw [fifoOrderManager.arrive_order_match f a d x xs hev hC hp h.wfO h.wfC]
      have hlen : f.courierQueue.Len > 0 := by rw [GoList.Len_pos_iff, hC]; simp
      have hfront : f.courierQueue.Front = some x := by simp [GoList.Front, hC]
      refine ⟨?_, ?_⟩
      · constructor
        · simp [FifoAbs.arrive, hev, hsC, h.base]
        · simp [FifoAbs.arrive, hev, hsC, GoList.values, ← h.orders]
        · simp [FifoAbs.arrive, hev, hsC, GoList.values]
        · exact ⟨h.wfO.1, fun y hy => by have := h.wfO.2 y hy; simp only; omega⟩
        · have hnd := h.wfC.1
          rw [hC, List.map_cons, List.nodup_cons] at hnd
          exact ⟨hnd.2, fun y hy => h.wfC.2 y (by rw [hC]; simp [hy])⟩
        · intro o ho
          simp only [FifoAbs.arrive, hev, hsC] at ho
          exact h.parkedO o ho
        · intro c hc
          simp only [FifoAbs.arrive, hev, hsC] at hc
          exact h.parkedC c (by rw [hsC]; simp only [List.mem_cons]; exact Or.inr hc)
      · simp [fifoOrderManager.takesMatcherPath, hev, fifoOrderManager.lockedFinishOrder,
          hlen, hfront, FifoAbs.takesMatcherPath, hsC]
  | courier d =>
    cases hO : f.finishedOrderQueue.elems with
    | nil =>
      have hsO : s.waitO = [] := by rw [← h.orders, GoList.values, hO]; rfl
      rw [fifoOrderManager.arrive_courier_park f a d hev hO h.wfC]
      have hlen : ¬ (f.finishedOrderQueue.Len > 0) := by rw [GoList.Len_pos_iff, hO]; simp
      refine ⟨?_, ?_⟩
      · have hwf : (f.courierQueue.PushBack (parkedCourier d a)).1.WF :=
          GoList.WF_PushBack _ _ h.wfC
        constructor
        · simp [FifoAbs.arrive, hev, hsO, h.base]
        · simp [FifoAbs.arrive, hev, hsO, GoList.values, hO]
        · simp [FifoAbs.arrive, hev, hsO, GoList.values, ← h.couriers]
        · exact h.wfO
        · exact hwf
        · intro o ho
          simp [FifoAbs.arrive, hev, hsO] at ho
        · intro c hc
          simp only [FifoAbs.arrive, hev, hsO, List.mem_append, List.mem_singleton] at hc
          rcases hc with hc | hc
          · exact h.parkedC c hc
          · subst hc; rfl
      · simp [fifoOrderManager.takesMatcherPath, hev, fifoOrderManager.lockedFinishPickUp,
          hlen, FifoAbs.takesMatcherPath, hsO]
    | cons x xs =>
      have hsO : s.waitO = x.Value :: xs.map (fun e => e.Value) := by
        rw [← h.orders, GoList.values, hO]; rfl
      have hp : x.Value.notification.parked = true := h.parkedO _ (by simp [hsO])
      rw [fifoOrderManager.arrive_courier_match f a d x xs hev hO hp h.wfO h.wfC]
      have hlen : f.finishedOrderQueue.Len > 0 := by rw [GoList.Len_pos_iff, hO]; simp
      have hfront : f.finishedOrderQueue.Front = some x := by simp [GoList.Front, hO]
      refine ⟨?_, ?_⟩
      · constructor
        · simp [FifoAbs.arrive, hev, hsO, h.base]
        · simp [FifoAbs.arrive, hev, hsO, GoList.values]
        · simp [FifoAbs.arrive, hev, hsO, GoList.values, ← h.couriers]
        · have hnd := h.wfO.1
          rw [hO, List.map_cons, List.nodup_cons] at hnd
          exact ⟨hnd.2, fun y hy => h.wfO.2 y (by rw [hO]; simp [hy])⟩
        · exact ⟨h.wfC.1, fun y hy => by have := h.wfC.2 y hy; simp only; omega⟩
        · intro o ho
          simp only [FifoAbs.arrive, hev, hsO] at ho
          exact h.parkedO o (by rw [hsO]; simp only [List.mem_cons]; exact Or.inr ho)
        · intro c hc
          simp only [FifoAbs.arrive, hev, hsO] at hc
          exact h.parkedC c hc
      · simp [fifoOrderManager.takesMatcherPath, hev, fifoOrderManager.lockedFinishPickUp,
          hlen, hfront, FifoAbs.takesMatcherPath, hsO]

theorem fifoOrderManager.fifo_run_append (f : fifoOrderManager) (pre : List Arrival)
    (a : Arrival) : f.run (pre ++ [a]) = (f.run pre).arrive a := by
  simp [fifoOrderManager.run, List.foldl_append]

theorem FifoAbs.abs_run_append (s : FifoAbs) (pre : List Arrival) (a : Arrival) :
    s.run (pre ++ [a]) = (s.run pre).arrive a := by
  simp [FifoAbs.run, List.foldl_append]

theorem fifoOrderManager.fifo_run_cons (f : fifoOrderManager) (a : Arrival)
    (evs : List Arrival) : f.run (a :: evs) = (f.arrive a).run evs := rfl

theorem fifoOrderManager.fifo_matcherFlags_append (f : fifoOrderManager)
    (pre : List Arrival) (a : Arrival) :
    f.matcherFlags (pre ++ [a]) = f.matcherFlags pre ++ [(f.run pre).takesMatcherPath a] := by
  induction pre generalizing f with
  | nil => simp [fifoOrderManager.matcherFlags, fifoOrderManager.run]
  | cons b pre ih =>
    simp [fifoOrderManager.matcherFlags, ih, fifoOrderManager.fifo_run_cons]

/-- A run of the manager and the run on the plain lists stay in agreement. -/
theorem FifoRel.rel_run {f : fifoOrderManager} {s : FifoAbs} (h : FifoRel f s)
    (evs : List Arrival) : FifoRel (f.run evs) (s.run evs) := by
  induction evs using List.reverseRecOn with
  | nil => exact h
  | append_singleton pre a ih =>
    rw [fifoOrderManager.fifo_run_append, FifoAbs.abs_run_append]
    exact (ih.rel_step a).1

theorem FifoRel.rel_init (b : orderManagerBase) :
    FifoRel ⟨b, GoList.New, GoList.New⟩ ⟨b, [], []⟩ := by
  constructor
  · rfl
  · rfl
  · rfl
  · exact GoList.WF_New
  · exact GoList.WF_New
  · intro o ho; simp at ho
  · intro c hc; simp at hc


/-! ### FIFO strategy: runs -/

theorem orderKeys_append_list (pre post : List Arrival) :
    orderKeys (pre ++ post) = orderKeys pre ++ orderKeys post := by
  induction pre with
  | nil => simp [orderKeys]
  | cons b pre ih =>
    simp only [List.cons_append, orderKeys]
    cases b.ev <;> simp [ih]

theorem courierKeys_append_list (pre post : List Arrival) :
    courierKeys (pre ++ post) = courierKeys pre ++ courierKeys post := by
  induction pre with
  | nil => simp [courierKeys]
  | cons b pre ih =>
    simp only [List.cons_append, courierKeys]
    cases b.ev <;> simp [ih]

theorem orderKeys_append (pre : List Arrival) (a : Arrival) :
    orderKeys (pre ++ [a]) = orderKeys pre ++ orderKeys [a] :=
  orderKeys_append_list pre [a]

theorem courierKeys_append (pre : List Arrival) (a : Arrival) :
    courierKeys (pre ++ [a]) = courierKeys pre ++ courierKeys [a] :=
  courierKeys_append_list pre [a]

theorem FifoInv.inv_init (b0 : orderManagerBase) : FifoInv b0 [] ⟨b0, [], []⟩ [] := by
  constructor <;> simp [orderKeys, courierKeys]

/-- One arrival on the plain lists: the invariant is kept, and the log grows by one pair
exactly when the arrival takes the matcher path. -/
theorem FifoInv.inv_step {b0 : orderManagerBase} {pre : List Arrival} {s : FifoAbs}
    {log : List (dispatchedOrder × dispatchedCourier)} (h : FifoInv b0 pre s log)
    (a : Arrival) :
    ∃ log1, FifoInv b0 (pre ++ [a]) (s.arrive a) log1 ∧
      ((s.takesMatcherPath a = true ∧ ∃ p, log1 = log ++ [p]) ∨
       (s.takesMatcherPath a = false ∧ log1 = log)) := by
  cases hev : a.ev with
  | order d =>
    have hok : orderKeys [a] = [(d.Order, a.ready)] := by simp [orderKeys, hev]
    have hck : courierKeys [a] = [] := by simp [courierKeys, hev]
    cases hC : s.waitC with
    | nil =>
      refine ⟨log, ?_, Or.inr ⟨by simp [FifoAbs.takesMatcherPath, hev, hC], rfl⟩⟩
      have hs : s.arrive a = ⟨s.base, s.waitO ++ [parkedOrder d a], []⟩ := by
        simp [FifoAbs.arrive, hev, hC]
      rw [hs]
      constructor
      · right; rfl
      · exact h.logEq
      · rw [orderKeys_append, hok, ← h.okeys]
        simp [okey, parkedOrder]
      · rw [courierKeys_append, hck, ← h.ckeys, hC]; simp
      · exact h.count
      · exact h.wg
      · exact h.food
      · exact h.courier
    | cons c rest =>
      have hO : s.waitO = [] := by
        rcases h.oneSide with h1 | h1
        · exact h1
        · rw [hC] at h1; simp at h1
      refine ⟨log ++ [(matcherOrder d a, wokenCourier c a)], ?_,
        Or.inl ⟨by simp [FifoAbs.takesMatcherPath, hev, hC], _, rfl⟩⟩
      have hs : s.arrive a
          = ⟨pairedBase s.base (matcherOrder d a) (wokenCourier c a), s.waitO, rest⟩ := by
        simp [FifoAbs.arrive, hev, hC]
      rw [hs]
      constructor
      · left; exact hO
      · simp [pairedBase, h.logEq]
      · rw [orderKeys_append, hok, ← h.okeys, hO]
        simp [okey, matcherOrder]
      · rw [courierKeys_append, hck, ← h.ckeys, hC]
        simp [ckey, wokenCourier]
      · simp only [pairedBase, h.count, List.length_append, List.length_singleton]
        push_cast; ring
      · simp only [pairedBase, h.wg, List.length_append, List.length_singleton]
        push_cast; ring
      · simp only [pairedBase, h.food, List.map_append, List.sum_append, List.map_cons,
          List.map_nil, List.sum_cons, List.sum_nil]
        ring
      · simp only [pairedBase, h.courier, List.map_append, List.sum_append, List.map_cons,
          List.map_nil, List.sum_cons, List.sum_nil]
        ring
  | courier d =>
    have hok : orderKeys [a] = [] := by simp [orderKeys, hev]
    have hck : courierKeys [a] = [(d.Courier, a.ready)] := by simp [courierKeys, hev]
    cases hO : s.waitO with
    | nil =>
      refine ⟨log, ?_, Or.inr ⟨by simp [FifoAbs.takesMatcherPath, hev, hO], rfl⟩⟩
      have hs : s.arrive a = ⟨s.base, [], s.waitC ++ [parkedCourier d a]⟩ := by
        simp [FifoAbs.arrive, hev, hO]
      rw [hs]
      constructor
      · left; rfl
      · exact h.logEq
      · rw [orderKeys_append, hok, ← h.okeys, hO]; simp
      · rw [courierKeys_append, hck, ← h.ckeys]
        simp [ckey, parkedCourier]
      · exact h.count
      · exact h.wg
      · exact h.food
      · exact h.courier
    | cons o rest =>
      have hC : s.waitC = [] := by
        rcases h.oneSide with h1 | h1
        · rw [hO] at h1; simp at h1
        · exact h1
      refine ⟨log ++ [(wokenOrder o a, matcherCourier d a)], ?_,
        Or.inl ⟨by simp [FifoAbs.takesMatcherPath, hev, hO], _, rfl⟩⟩
      have hs : s.arrive a
          = ⟨pairedBase s.base (wokenOrder o a) (matcherCourier d a), rest, s.waitC⟩ := by
        simp [FifoAbs.arrive, hev, hO]
      rw [hs]
      constructor
      · right; exact hC
      · simp [pairedBase, h.logEq]
      · rw [orderKeys_append, hok, ← h.okeys, hO]
        simp [okey, wokenOrder]
      · rw [courierKeys_append, hck, ← h.ckeys, hC]
        simp [ckey, matcherCourier]
      · simp only [pairedBase, h.count, List.length_append, List.length_singleton]
        push_cast; ring
      · simp only [pairedBase, h.wg, List.length_append, List.length_singleton]
        push_cast; ring
      · simp only [pairedBase, h.food, List.map_append, List.sum_append, List.map_cons,
          List.map_nil, List.sum_cons, List.sum_nil]
        ring
      · simp only [pairedBase, h.courier, List.map_append, List.sum_append, List.map_cons,
          List.map_nil, List.sum_cons, List.sum_nil]
        ring

/-- The state of a FIFO run after any arrivals: the manager agrees with plain lists that
satisfy the invariant, and the number of arrivals that took the matcher path is the
number of pairs resolved. -/
theorem fifo_run_state (b0 : orderManagerBase) (pre : List Arrival) :
    ∃ s log, FifoRel (fifoOrderManager.run ⟨b0, GoList.New, GoList.New⟩ pre) s ∧
      FifoInv b0 pre s log ∧
      (fifoOrderManager.matcherFlags ⟨b0, GoList.New, GoList.New⟩ pre).count true
        = log.length := by
  induction pre using List.reverseRecOn with
  | nil =>
    exact ⟨⟨b0, [], []⟩, [], FifoRel.rel_init b0, FifoInv.inv_init b0,
      by simp [fifoOrderManager.matcherFlags]⟩
  | append_singleton pre a ih =>
    obtain ⟨s, log, hrel, hinv, hflags⟩ := ih
    obtain ⟨hrel1, hpath⟩ := hrel.rel_step a
    obtain ⟨log1, hinv1, hcase⟩ := hinv.inv_step a
    refine ⟨s.arrive a, log1, ?_, hinv1, ?_⟩
    · rw [fifoOrderManager.fifo_run_append]; exact hrel1
    · rw [fifoOrderManager.fifo_matcherFlags_append, List.count_append, hflags, hpath]
      rcases hcase with ⟨ht, p, hp⟩ | ⟨hf, hl⟩
      · rw [ht, hp]; simp
      · rw [hf, hl]; simp


theorem FifoInv.zip_keys {b0 : orderManagerBase} {pre : List Arrival} {s : FifoAbs}
    {log : List (dispatchedOrder × dispatchedCourier)} (h : FifoInv b0 pre s log) :
    log.map (fun p => (okey p.1, ckey p.2)) = List.zip (orderKeys pre) (courierKeys pre) := by
  rw [← h.okeys, ← h.ckeys, List.zip_append (by simp)]
  have hnil : List.zip (s.waitO.map okey) (s.waitC.map ckey) = [] := by
    rcases h.oneSide with h1 | h1 <;> simp [h1]
  rw [hnil, List.append_nil, List.zip_map']

/-- FIFO ordering for calls that do not overlap. For every arrival order of order-ready
and courier-ready events into `finishOrder` and `finishPickUp`, the calls entering one
after the other on empty queues (each call runs both its critical sections before the
next one enters), the pairs resolved are, in this order, the first order with the first
courier, the second with the second, and so on: for every `k` the `k`-th order-ready
event is paired with the `k`-th courier-ready event, whatever the identifiers. -/
theorem fifo_ordering (random : Option resource.Rand) (evs : List Arrival) :
    (((newFIFOOrderManager random).run evs).base.pickUpLog.map
        (fun p => ((p.1.Order, p.1.FinishTime), (p.2.Courier, p.2.ArrivedTime)))
      = List.zip (orderKeys evs) (courierKeys evs)) ∧
    (∀ (k : Nat) (o : resource.Order × Int) (c : resource.Courier × Int),
      (orderKeys evs)[k]? = some o → (courierKeys evs)[k]? = some c →
      (((newFIFOOrderManager random).run evs).base.pickUpLog.map
        (fun p => ((p.1.Order, p.1.FinishTime), (p.2.Courier, p.2.ArrivedTime))))[k]?
        = some (o, c)) := by
  obtain ⟨s, log, hrel, hinv, _⟩ := fifo_run_state (getOrderManagerBaseClass random) evs
  have hlog : ((newFIFOOrderManager random).run evs).base.pickUpLog = log := by
    have h1 : ((newFIFOOrderManager random).run evs).base = s.base := hrel.base
    rw [h1, hinv.logEq]; simp [getOrderManagerBaseClass]
  have hzip := hinv.zip_keys
  simp only [okey, ckey] at hzip
  rw [hlog]
  refine ⟨hzip, ?_⟩
  intro k o c ho hc
  rw [hzip, List.getElem?_zip_eq_some]
  exact ⟨ho, hc⟩


theorem fifoDispatched_eq (random : Option resource.Rand) (n : Nat) :
    fifoDispatched random n
      = ⟨(orderManagerBase.wgAdd)^[n] (getOrderManagerBaseClass random), GoList.New,
          GoList.New⟩ := rfl

theorem FifoInv.log_le {b0 : orderManagerBase} {pre : List Arrival} {s : FifoAbs}
    {log : List (dispatchedOrder × dispatchedCourier)} (h : FifoInv b0 pre s log) :
    log.length ≤ (orderKeys pre).length := by
  rw [← h.okeys]; simp

/-- FIFO strategy, exactly-once completion for calls that do not overlap (each call
runs both its critical sections before the next one enters). For every `n` and every
arrival order
`evs` of `n` order-ready and `n` courier-ready events into `finishOrder` and
`finishPickUp`, the calls entering one after the other on empty queues with the barrier
raised `n` times: exactly `n` events take the matcher path and `n` pairs are resolved;
the orders of the resolved pairs are all the order-ready events and the couriers all
the courier-ready events, each once, so every event is a matcher or is woken by one
matcher; `TotalOrderCount` ends at `n`; the barrier ends at zero and is never negative
on the way; both queues are empty at the end. -/
theorem fifo_exactly_once (random : Option resource.Rand) (n : Nat) (evs : List Arrival)
    (hO : (orderKeys evs).length = n) (hC : (courierKeys evs).length = n) :
    ((fifoDispatched random n).matcherFlags evs).count true = n ∧
    ((fifoDispatched random n).run evs).base.pickUpLog.length = n ∧
    ((fifoDispatched random n).run evs).base.pickUpLog.map (fun p => (p.1.Order, p.1.FinishTime))
      = orderKeys evs ∧
    ((fifoDispatched random n).run evs).base.pickUpLog.map
        (fun p => (p.2.Courier, p.2.ArrivedTime))
      = courierKeys evs ∧
    ((fifoDispatched random n).run evs).base.stats.TotalOrderCount = n ∧
    ((fifoDispatched random n).run evs).base.wg = 0 ∧
    (∀ pre post, evs = pre ++ post → 0 ≤ ((fifoDispatched random n).run pre).base.wg) ∧
    ((fifoDispatched random n).run evs).finishedOrderQueue.elems = [] ∧
    ((fifoDispatched random n).run evs).finishedOrderQueue.Len = 0 ∧
    ((fifoDispatched random n).run evs).courierQueue.elems = [] ∧
    ((fifoDispatched random n).run evs).courierQueue.Len = 0 := by
  obtain ⟨hw, hs, hl⟩ := wgAdd_iterate n (getOrderManagerBaseClass random)
  rw [fifoDispatched_eq]
  obtain ⟨s, log, hrel, hinv, hflags⟩ :=
    fifo_run_state ((orderManagerBase.wgAdd)^[n] (getOrderManagerBaseClass random)) evs
  have hlog : (fifoOrderManager.run
      ⟨(orderManagerBase.wgAdd)^[n] (getOrderManagerBaseClass random), GoList.New, GoList.New⟩
      evs).base.pickUpLog = log := by
    rw [hrel.base, hinv.logEq, hl]; simp [getOrderManagerBaseClass]
  have hlenO : log.length + s.waitO.length = n := by
    have := congrArg List.length hinv.okeys
    simpa [hO] using this
  have hlenC : log.length + s.waitC.length = n := by
    have := congrArg List.length hinv.ckeys
    simpa [hC] using this
  have hboth : s.waitO = [] ∧ s.waitC = [] := by
    rcases hinv.oneSide with h1 | h1
    · refine ⟨h1, ?_⟩
      rw [h1] at hlenO
      have : s.waitC.length = 0 := by simp at hlenO; omega
      exact List.length_eq_zero.mp this
    · refine ⟨?_, h1⟩
      rw [h1] at hlenC
      have : s.waitO.length = 0 := by simp at hlenC; omega
      exact List.length_eq_zero.mp this
  have hlen : log.length = n := by
    rw [hboth.1] at hlenO; simpa using hlenO
  have hqO : (fifoOrderManager.run
      ⟨(orderManagerBase.wgAdd)^[n] (getOrderManagerBaseClass random), GoList.New, GoList.New⟩
      evs).finishedOrderQueue.elems = [] := by
    rw [← GoList.values_nil_iff, hrel.orders]; exact hboth.1
  have hqC : (fifoOrderManager.run
      ⟨(orderManagerBase.wgAdd)^[n] (getOrderManagerBaseClass random), GoList.New, GoList.New⟩
      evs).courierQueue.elems = [] := by
    rw [← GoList.values_nil_iff, hrel.couriers]; exact hboth.2
  refine ⟨?_, ?_, ?_, ?_, ?_, ?_, ?_, hqO, ?_, hqC, ?_⟩
  · rw [hflags, hlen]
  · rw [hlog, hlen]
  · rw [hlog]
    have := hinv.okeys
    rw [hboth.1] at this
    simpa [okey] using this
  · rw [hlog]
    have := hinv.ckeys
    rw [hboth.2] at this
    simpa [ckey] using this
  · rw [hrel.base, hinv.count, hs, hlen]; simp [getOrderManagerBaseClass]
  · rw [hrel.base, hinv.wg, hw, hlen]; simp [getOrderManagerBaseClass]
  · intro pre post hsplit
    obtain ⟨s1, log1, hrel1, hinv1, _⟩ :=
      fifo_run_state ((orderManagerBase.wgAdd)^[n] (getOrderManagerBaseClass random)) pre
    rw [hrel1.base, hinv1.wg, hw]
    have h1 := hinv1.log_le
    have h2 : (orderKeys pre).length ≤ n := by
      rw [← hO, hsplit, orderKeys_append_list]; simp
    simp only [getOrderManagerBaseClass]
    omega
  · simp [GoList.Len, hqO]
  · simp [GoList.Len, hqC]

/-- The exactly-once completion of calls that do not overlap, at the eight arrivals of
the test scenario. -/
theorem fifo_exactly_once_witness :
    (orderKeys testArrivals).length = 4 ∧ (courierKeys testArrivals).length = 4 ∧
    ((fifoDispatched none 4).matcherFlags testArrivals).count true = 4 ∧
    ((fifoDispatched none 4).run testArrivals).base.stats.TotalOrderCount = 4 ∧
    ((fifoDispatched none 4).run testArrivals).base.wg = 0 :=
  have h := fifo_exactly_once none 4 testArrivals (by decide) (by decide)
  ⟨by decide, by decide, h.1, h.2.2.2.2.1, h.2.2.2.2.2.1⟩


/-! ### FIFO strategy: wait times -/

theorem orderKeys_eq_filterMap (evs : List Arrival) :
    orderKeys evs = evs.filterMap (fun a =>
      match a.ev with
      | .order d => some (d.Order, a.ready)
      | .courier _ => none) := by
  induction evs with
  | nil => rfl
  | cons a evs ih =>
    simp only [orderKeys, List.filterMap_cons]
    cases a.ev <;> simp [ih]

theorem courierKeys_eq_filterMap (evs : List Arrival) :
    courierKeys evs = evs.filterMap (fun a =>
      match a.ev with
      | .order _ => none
      | .courier d => some (d.Courier, a.ready)) := by
  induction evs with
  | nil => rfl
  | cons a evs ih =>
    simp only [courierKeys, List.filterMap_cons]
    cases a.ev <;> simp [ih]

theorem orderKeys_perm {l1 l2 : List Arrival} (h : l1.Perm l2) :
    (orderKeys l1).Perm (orderKeys l2) := by
  rw [orderKeys_eq_filterMap, orderKeys_eq_filterMap]; exact h.filterMap _

theorem courierKeys_perm {l1 l2 : List Arrival} (h : l1.Perm l2) :
    (courierKeys l1).Perm (courierKeys l2) := by
  rw [courierKeys_eq_filterMap, courierKeys_eq_filterMap]; exact h.filterMap _

theorem orderKeys_scenario (orders : List resource.Order) (couriers : List resource.Courier) :
    orderKeys (orders.map readyOrder ++ couriers.map readyCourier)
      = orders.map (fun o => (o, o.PrepTime * Second)) := by
  rw [orderKeys_append_list]
  have h1 : orderKeys (orders.map readyOrder)
      = orders.map (fun o => (o, o.PrepTime * Second)) := by
    induction orders with
    | nil => rfl
    | cons o os ih => simp [orderKeys, readyOrder, getDispatchedOrder, ih]
  have h2 : orderKeys (couriers.map readyCourier) = [] := by
    induction couriers with
    | nil => rfl
    | cons c cs ih => simp [orderKeys, readyCourier, ih]
  rw [h1, h2, List.append_nil]

theorem courierKeys_scenario (orders : List resource.Order)
    (couriers : List resource.Courier) :
    courierKeys (orders.map readyOrder ++ couriers.map readyCourier)
      = couriers.map (fun c => (c, c.TravelTime * Second)) := by
  rw [courierKeys_append_list]
  have h1 : courierKeys (orders.map readyOrder) = [] := by
    induction orders with
    | nil => rfl
    | cons o os ih => simp [courierKeys, readyOrder, ih]
  have h2 : courierKeys (couriers.map readyCourier)
      = couriers.map (fun c => (c, c.TravelTime * Second)) := by
    induction couriers with
    | nil => rfl
    | cons c cs ih => simp [courierKeys, readyCourier, getDispatchedCourier, ih]
  rw [h1, h2, List.nil_append]

/-- The ready instants of the order-ready events are in arrival order. -/
theorem orderKeys_pairwise (evs : List Arrival)
    (hsorted : evs.Pairwise (fun a b => a.ready ≤ b.ready)) :
    (orderKeys evs).Pairwise (fun x y => x.2 ≤ y.2) := by
  rw [orderKeys_eq_filterMap]
  refine List.Pairwise.filterMap _ ?_ hsorted
  intro a b hab x hx y hy
  cases ha : a.ev <;> cases hb : b.ev <;> simp [ha, hb] at hx hy
  obtain ⟨_, rfl⟩ := hx
  obtain ⟨_, rfl⟩ := hy
  exact hab

theorem courierKeys_pairwise (evs : List Arrival)
    (hsorted : evs.Pairwise (fun a b => a.ready ≤ b.ready)) :
    (courierKeys evs).Pairwise (fun x y => x.2 ≤ y.2) := by
  rw [courierKeys_eq_filterMap]
  refine List.Pairwise.filterMap _ ?_ hsorted
  intro a b hab x hx y hy
  cases ha : a.ev <;> cases hb : b.ev <;> simp [ha, hb] at hx hy
  obtain ⟨_, rfl⟩ := hx
  obtain ⟨_, rfl⟩ := hy
  exact hab


theorem max_zero_of_le (x y : Int) (h : x ≤ y) : max 0 (x - y) = 0 :=
  max_eq_left (by omega)

theorem max_zero_of_ge (x y : Int) (h : y ≤ x) : max 0 (x - y) = x - y :=
  max_eq_right (by omega)

theorem seconds_le (x y : Int) (h : x * Second ≤ y * Second) : x ≤ y := by
  simp only [Second] at h; omega

/-- One arrival of the scenario without latency keeps `ScenInv`. -/
theorem ScenInv.scen_step {pre : List Arrival} {s : FifoAbs} (h : ScenInv pre s) (a : Arrival)
    (hev : (∃ o : resource.Order, a = readyOrder o) ∨
      (∃ c : resource.Courier, a = readyCourier c))
    (hle : ∀ b ∈ pre, b.ready ≤ a.ready) :
    ScenInv (pre ++ [a]) (s.arrive a) := by
  rcases hev with ⟨o0, rfl⟩ | ⟨c0, rfl⟩
  · cases hC : s.waitC with
    | nil =>
      have hs : s.arrive (readyOrder o0)
          = ⟨s.base, s.waitO ++ [parkedOrder (getDispatchedOrder o0 0) (readyOrder o0)], []⟩ := by
        simp [FifoAbs.arrive, readyOrder, hC]
      rw [hs]
      constructor
      · intro o ho
        simp only [List.mem_append, List.mem_singleton] at ho
        rcases ho with ho | ho
        · obtain ⟨h1, b, hb, h2⟩ := h.wO o ho
          exact ⟨h1, b, by simp [hb], h2⟩
        · subst ho
          exact ⟨rfl, readyOrder o0, by simp, rfl⟩
      · intro c hc; simp at hc
      · exact h.lg
    | cons c rest =>
      have hs : s.arrive (readyOrder o0)
          = ⟨pairedBase s.base (matcherOrder (getDispatchedOrder o0 0) (readyOrder o0))
              (wokenCourier c (readyOrder o0)), s.waitO, rest⟩ := by
        simp [FifoAbs.arrive, readyOrder, hC]
      rw [hs]
      obtain ⟨hc1, b, hb, hc2⟩ := h.wC c (by simp [hC])
      have hle1 : c.Courier.TravelTime ≤ o0.PrepTime := by
        apply seconds_le
        rw [← hc1, ← hc2]
        exact hle b hb
      constructor
      · intro o ho
        obtain ⟨h1, b1, hb1, h2⟩ := h.wO o ho
        exact ⟨h1, b1, by simp [hb1], h2⟩
      · intro c1 hc1m
        obtain ⟨h1, b1, hb1, h2⟩ := h.wC c1 (by simp [hC, hc1m])
        exact ⟨h1, b1, by simp [hb1], h2⟩
      · intro p hp
        simp only [pairedBase, List.mem_append, List.mem_singleton] at hp
        rcases hp with hp | hp
        · exact h.lg p hp
        · subst hp
          constructor
          · simp only [matcherOrder, wokenCourier, getDispatchedOrder, readyOrder,
              dispatchedOrder.getWaitTimeInMs, sub_self]
            rw [max_zero_of_le _ _ hle1]
            simp [Milliseconds]
          · simp only [matcherOrder, wokenCourier, getDispatchedOrder, readyOrder,
              dispatchedCourier.getWaitTimeInMs, hc1]
            rw [max_zero_of_ge _ _ hle1, ← sub_mul, Milliseconds_seconds]
  · cases hO : s.waitO with
    | nil =>
      have hs : s.arrive (readyCourier c0)
          = ⟨s.base, [], s.waitC ++
              [parkedCourier (getDispatchedCourier c0 0) (readyCourier c0)]⟩ := by
        simp [FifoAbs.arrive, readyCourier, hO]
      rw [hs]
      constructor
      · intro o ho; simp at ho
      · intro c hc
        simp only [List.mem_append, List.mem_singleton] at hc
        rcases hc with hc | hc
        · obtain ⟨h1, b, hb, h2⟩ := h.wC c hc
          exact ⟨h1, b, by simp [hb], h2⟩
        · subst hc
          exact ⟨rfl, readyCourier c0, by simp, rfl⟩
      · exact h.lg
    | cons o rest =>
      have hs : s.arrive (readyCourier c0)
          = ⟨pairedBase s.base (wokenOrder o (readyCourier c0))
              (matcherCourier (getDispatchedCourier c0 0) (readyCourier c0)), rest,
              s.waitC⟩ := by
        simp [FifoAbs.arrive, readyCourier, hO]
      rw [hs]
      obtain ⟨ho1, b, hb, ho2⟩ := h.wO o (by simp [hO])
      have hle1 : o.Order.PrepTime ≤ c0.TravelTime := by
        apply seconds_le
        rw [← ho1, ← ho2]
        exact hle b hb
      constructor
      · intro o1 ho1m
        obtain ⟨h1, b1, hb1, h2⟩ := h.wO o1 (by simp [hO, ho1m])
        exact ⟨h1, b1, by simp [hb1], h2⟩
      · intro c1 hc1m
        obtain ⟨h1, b1, hb1, h2⟩ := h.wC c1 hc1m
        exact ⟨h1, b1, by simp [hb1], h2⟩
      · intro p hp
        simp only [pairedBase, List.mem_append, List.mem_singleton] at hp
        rcases hp with hp | hp
        · exact h.lg p hp
        · subst hp
          constructor
          · simp only [matcherCourier, wokenOrder, getDispatchedCourier, readyCourier,
              dispatchedOrder.getWaitTimeInMs, ho1]
            rw [max_zero_of_ge _ _ hle1, ← sub_mul, Milliseconds_seconds]
          · simp only [matcherCourier, wokenOrder, getDispatchedCourier, readyCourier,
              dispatchedCourier.getWaitTimeInMs, sub_self]
            rw [max_zero_of_le _ _ hle1]
            simp [Milliseconds]

/-- A run of the scenario without latency, in the order of the instants, keeps
`ScenInv`. -/
theorem ScenInv.scen_run (b0 : orderManagerBase) (hb0 : b0.pickUpLog = []) (evs : List Arrival)
    (hev : ∀ a ∈ evs, (∃ o : resource.Order, a = readyOrder o) ∨
      (∃ c : resource.Courier, a = readyCourier c))
    (hsorted : evs.Pairwise (fun a b => a.ready ≤ b.ready)) :
    ScenInv evs (FifoAbs.run ⟨b0, [], []⟩ evs) := by
  induction evs using List.reverseRecOn with
  | nil =>
    constructor
    · intro o ho; simp [FifoAbs.run] at ho
    · intro c hc; simp [FifoAbs.run] at hc
    · intro p hp; simp [FifoAbs.run, hb0] at hp
  | append_singleton pre a ih =>
    rw [FifoAbs.abs_run_append]
    have hp := List.pairwise_append.mp hsorted
    exact (ih (fun b hb => hev b (by simp [hb])) hp.1).scen_step a (hev a (by simp))
      (fun b hb => hp.2.2 b hb a (by simp))


theorem FifoInv.inv_run (b0 : orderManagerBase) (pre : List Arrival) :
    ∃ log, FifoInv b0 pre (FifoAbs.run ⟨b0, [], []⟩ pre) log := by
  induction pre using List.reverseRecOn with
  | nil => exact ⟨[], FifoInv.inv_init b0⟩
  | append_singleton pre a ih =>
    obtain ⟨log, hinv⟩ := ih
    obtain ⟨log1, hinv1, _⟩ := hinv.inv_step a
    exact ⟨log1, by rw [FifoAbs.abs_run_append]; exact hinv1⟩

theorem FifoInv.log_length {b0 : orderManagerBase} {pre : List Arrival} {s : FifoAbs}
    {log : List (dispatchedOrder × dispatchedCourier)} (h : FifoInv b0 pre s log) (n : Nat)
    (hO : (orderKeys pre).length = n) (hC : (courierKeys pre).length = n) :
    log.length = n := by
  have hlenO : log.length + s.waitO.length = n := by
    have := congrArg List.length h.okeys
    simpa [hO] using this
  have hlenC : log.length + s.waitC.length = n := by
    have := congrArg List.length h.ckeys
    simpa [hC] using this
  rcases h.oneSide with h1 | h1
  · rw [h1] at hlenO; simpa using hlenO
  · rw [h1] at hlenC; simpa using hlenC

theorem map_zip_eq_zipWith {α β γ δ : Type} (F : γ → δ → Int) (p : α → γ) (q : β → δ)
    (l1 : List α) (l2 : List β) :
    (List.zip l1 l2).map (fun x => F (p x.1) (q x.2))
      = List.zipWith F (l1.map p) (l2.map q) := by
  induction l1 generalizing l2 with
  | nil => simp
  | cons a l1 ih =>
    cases l2 with
    | nil => simp
    | cons b l2 => simp [ih]

/-- The preparation times of the order-ready events of a sorted scenario run, in arrival
order, are the preparation times of the orders in sorted order. -/
theorem orderKeys_sorted_prep (orders : List resource.Order) (couriers : List resource.Courier)
    (evs : List Arrival)
    (hperm : evs.Perm (orders.map readyOrder ++ couriers.map readyCourier))
    (hsorted : evs.Pairwise (fun a b => a.ready ≤ b.ready)) :
    (orderKeys evs).map (fun x => x.1.PrepTime)
      = (orders.map (fun o => o.PrepTime)).insertionSort (fun x y => x ≤ y) := by
  have hp : (orderKeys evs).Perm (orders.map (fun o => (o, o.PrepTime * Second))) := by
    rw [← orderKeys_scenario orders couriers]; exact orderKeys_perm hperm
  have hperm2 : ((orderKeys evs).map (fun x => x.1.PrepTime)).Perm
      (orders.map (fun o => o.PrepTime)) := by
    have := hp.map (fun x => x.1.PrepTime)
    simpa [List.map_map, Function.comp] using this
  have hkey : ∀ x ∈ orderKeys evs, x.2 = x.1.PrepTime * Second := by
    intro x hx
    have := hp.mem_iff.mp hx
    obtain ⟨o, _, rfl⟩ := List.mem_map.mp this
    rfl
  have hs : ((orderKeys evs).map (fun x => x.1.PrepTime)).Sorted (fun x y => x ≤ y) := by
    rw [List.Sorted, List.pairwise_map]
    refine (orderKeys_pairwise evs hsorted).imp_of_mem ?_
    intro x y hx hy hxy
    apply seconds_le
    rw [← hkey x hx, ← hkey y hy]; exact hxy
  exact List.eq_of_perm_of_sorted
    (hperm2.trans (List.perm_insertionSort _ _).symm) hs (List.sorted_insertionSort _ _)

/-- The travel times of the courier-ready events of a sorted scenario run, in arrival
order, are the travel times of the couriers in sorted order. -/
theorem courierKeys_sorted_travel (orders : List resource.Order)
    (couriers : List resource.Courier) (evs : List Arrival)
    (hperm : evs.Perm (orders.map readyOrder ++ couriers.map readyCourier))
    (hsorted : evs.Pairwise (fun a b => a.ready ≤ b.ready)) :
    (courierKeys evs).map (fun x => x.1.TravelTime)
      = (couriers.map (fun c => c.TravelTime)).insertionSort (fun x y => x ≤ y) := by
  have hp : (courierKeys evs).Perm (couriers.map (fun c => (c, c.TravelTime * Second))) := by
    rw [← courierKeys_scenario orders couriers]; exact courierKeys_perm hperm
  have hperm2 : ((courierKeys evs).map (fun x => x.1.TravelTime)).Perm
      (couriers.map (fun c => c.TravelTime)) := by
    have := hp.map (fun x => x.1.TravelTime)
    simpa [List.map_map, Function.comp] using this
  have hkey : ∀ x ∈ courierKeys evs, x.2 = x.1.TravelTime * Second := by
    intro x hx
    have := hp.mem_iff.mp hx
    obtain ⟨o, _, rfl⟩ := List.mem_map.mp this
    rfl
  have hs : ((courierKeys evs).map (fun x => x.1.TravelTime)).Sorted (fun x y => x ≤ y) := by
    rw [List.Sorted, List.pairwise_map]
    refine (courierKeys_pairwise evs hsorted).imp_of_mem ?_
    intro x y hx hy hxy
    apply seconds_le
    rw [← hkey x hx, ← hkey y hy]; exact hxy
  exact List.eq_of_perm_of_sorted
    (hperm2.trans (List.perm_insertionSort _ _).symm) hs (List.sorted_insertionSort _ _)


/-- FIFO scenario for calls that do not overlap. All orders are dispatched at time 0, the ready events are those of
`orders` (ready after their preparation time) and of as many `couriers` (arriving after
their travel time), and the calls enter one after the other in the order of their
instants, simultaneous arrivals in any order. Then `TotalOrderCount` is the number of
orders and, with the preparation times and the travel times each in sorted order,
`TotalFoodWaitTime` is the sum over `k` of `max 0 (c_k - o_k)` seconds and
`TotalCourierWaitTime` the sum over `k` of `max 0 (o_k - c_k)` seconds (in
milliseconds). For the preparation times `[2,10,4,6]` and the travel times `[4,5,3,8]` of
the tests: 1000 ms, 3000 ms and 4 orders. -/
theorem fifo_scenario (random : Option resource.Rand) (orders : List resource.Order)
    (couriers : List resource.Courier) (hlen : couriers.length = orders.length)
    (evs : List Arrival)
    (hperm : evs.Perm (orders.map readyOrder ++ couriers.map readyCourier))
    (hsorted : evs.Pairwise (fun a b => a.ready ≤ b.ready)) :
    ((fifoDispatched random orders.length).run evs).base.stats.TotalOrderCount
      = orders.length ∧
    ((fifoDispatched random orders.length).run evs).base.stats.TotalFoodWaitTime
      = (List.zipWith (fun o c => 1000 * max 0 (c - o))
          ((orders.map (fun o => o.PrepTime)).insertionSort (fun x y => x ≤ y))
          ((couriers.map (fun c => c.TravelTime)).insertionSort (fun x y => x ≤ y))).sum ∧
    ((fifoDispatched random orders.length).run evs).base.stats.TotalCourierWaitTime
      = (List.zipWith (fun o c => 1000 * max 0 (o - c))
          ((orders.map (fun o => o.PrepTime)).insertionSort (fun x y => x ≤ y))
          ((couriers.map (fun c => c.TravelTime)).insertionSort (fun x y => x ≤ y))).sum ∧
    ((fifoDispatched none testOrders.length).run testArrivals).base.stats
      = ⟨4, 1000, 3000⟩ := by
  obtain ⟨hw, hs, hl⟩ := wgAdd_iterate orders.length (getOrderManagerBaseClass random)
  have hb0 : ((orderManagerBase.wgAdd)^[orders.length]
      (getOrderManagerBaseClass random)).pickUpLog = [] := by
    rw [hl]; rfl
  have hrel := (FifoRel.rel_init ((orderManagerBase.wgAdd)^[orders.length]
    (getOrderManagerBaseClass random))).rel_run evs
  obtain ⟨log, hinv⟩ := FifoInv.inv_run ((orderManagerBase.wgAdd)^[orders.length]
    (getOrderManagerBaseClass random)) evs
  have hev : ∀ a ∈ evs, (∃ o : resource.Order, a = readyOrder o) ∨
      (∃ c : resource.Courier, a = readyCourier c) := by
    intro a ha
    have := hperm.mem_iff.mp ha
    rcases List.mem_append.mp this with h | h
    · obtain ⟨o, _, rfl⟩ := List.mem_map.mp h; exact Or.inl ⟨o, rfl⟩
    · obtain ⟨c, _, rfl⟩ := List.mem_map.mp h; exact Or.inr ⟨c, rfl⟩
  have hscen := ScenInv.scen_run _ hb0 evs hev hsorted
  have hlogeq : (FifoAbs.run ⟨(orderManagerBase.wgAdd)^[orders.length]
      (getOrderManagerBaseClass random), [], []⟩ evs).base.pickUpLog = log := by
    rw [hinv.logEq, hb0]; rfl
  have hOlen : (orderKeys evs).length = orders.length := by
    rw [(orderKeys_perm hperm).length_eq, orderKeys_scenario]; simp
  have hClen : (courierKeys evs).length = orders.length := by
    rw [(courierKeys_perm hperm).length_eq, courierKeys_scenario]; simp [hlen]
  have hloglen := hinv.log_length orders.length hOlen hClen
  have hzip := hinv.zip_keys
  have hfoodlog : log.map (fun p => p.1.getWaitTimeInMs)
      = (log.map (fun p => (okey p.1, ckey p.2))).map
          (fun x => 1000 * max 0 (x.2.1.TravelTime - x.1.1.PrepTime)) := by
    rw [List.map_map]
    apply List.map_congr_left
    intro p hp
    have := (hscen.lg p (by rw [hlogeq]; exact hp)).1
    simpa [okey, ckey] using this
  have hcourlog : log.map (fun p => p.2.getWaitTimeInMs)
      = (log.map (fun p => (okey p.1, ckey p.2))).map
          (fun x => 1000 * max 0 (x.1.1.PrepTime - x.2.1.TravelTime)) := by
    rw [List.map_map]
    apply List.map_congr_left
    intro p hp
    have := (hscen.lg p (by rw [hlogeq]; exact hp)).2
    simpa [okey, ckey] using this
  have e1 : List.map (fun x : (resource.Order × Int) × (resource.Courier × Int) =>
        1000 * max 0 (x.2.1.TravelTime - x.1.1.PrepTime))
        ((orderKeys evs).zip (courierKeys evs))
      = List.zipWith (fun o c => 1000 * max 0 (c - o))
          ((orderKeys evs).map (fun x => x.1.PrepTime))
          ((courierKeys evs).map (fun x => x.1.TravelTime)) :=
    map_zip_eq_zipWith (fun o c => 1000 * max 0 (c - o)) (fun x => x.1.PrepTime)
      (fun x => x.1.TravelTime) (orderKeys evs) (courierKeys evs)
  have e2 : List.map (fun x : (resource.Order × Int) × (resource.Courier × Int) =>
        1000 * max 0 (x.1.1.PrepTime - x.2.1.TravelTime))
        ((orderKeys evs).zip (courierKeys evs))
      = List.zipWith (fun o c => 1000 * max 0 (o - c))
          ((orderKeys evs).map (fun x => x.1.PrepTime))
          ((courierKeys evs).map (fun x => x.1.TravelTime)) :=
    map_zip_eq_zipWith (fun o c => 1000 * max 0 (o - c)) (fun x => x.1.PrepTime)
      (fun x => x.1.TravelTime) (orderKeys evs) (courierKeys evs)
  rw [fifoDispatched_eq]
  refine ⟨?_, ?_, ?_, by decide⟩
  · rw [hrel.base, hinv.count, hs, hloglen]; simp [getOrderManagerBaseClass]
  · rw [hrel.base, hinv.food, hs, hfoodlog, hzip, e1,
      orderKeys_sorted_prep orders couriers evs hperm hsorted,
      courierKeys_sorted_travel orders couriers evs hperm hsorted]
    simp [getOrderManagerBaseClass]
  · rw [hrel.base, hinv.courier, hs, hcourlog, hzip, e2,
      orderKeys_sorted_prep orders couriers evs hperm hsorted,
      courierKeys_sorted_travel orders couriers evs hperm hsorted]
    simp [getOrderManagerBaseClass]

/-- The FIFO scenario for calls that do not overlap, at the test scenario. -/
theorem fifo_scenario_witness :
    testCouriers.length = testOrders.length ∧
    testArrivals.Perm (testOrders.map readyOrder ++ testCouriers.map readyCourier) ∧
    testArrivals.Pairwise (fun a b => a.ready ≤ b.ready) ∧
    ((fifoDispatched none testOrders.length).run testArrivals).base.stats.TotalFoodWaitTime
      = (List.zipWith (fun o c => 1000 * max 0 (c - o))
          ((testOrders.map (fun o => o.PrepTime)).insertionSort (fun x y => x ≤ y))
          ((testCouriers.map (fun c => c.TravelTime)).insertionSort (fun x y => x ≤ y))).sum ∧
    (List.zipWith (fun o c => 1000 * max 0 (c - o))
          ((testOrders.map (fun o => o.PrepTime)).insertionSort (fun x y => x ≤ y))
          ((testCouriers.map (fun c => c.TravelTime)).insertionSort (fun x y => x ≤ y))).sum
      = 1000 ∧
    (List.zipWith (fun o c => 1000 * max 0 (o - c))
          ((testOrders.map (fun o => o.PrepTime)).insertionSort (fun x y => x ≤ y))
          ((testCouriers.map (fun c => c.TravelTime)).insertionSort (fun x y => x ≤ y))).sum
      = 3000 :=
  have h := fifo_scenario none testOrders testCouriers (by decide) testArrivals (by decide)
    (by decide)
  ⟨by decide, by decide, by decide, h.2.1, by decide, by decide⟩


/-! ### FIFO strategy: interleaved critical sections -/

/-- A call that runs both its critical sections without another step in between is the
call of the serialized runs. -/
theorem FifoSched.enter_finish (f : fifoOrderManager) (a : Arrival) :
    ((⟨f, []⟩ : FifoSched).step (Action.enter a)).step (Action.finish 0 a.now a.wake)
      = ⟨f.arrive a, []⟩ := by
  cases hev : a.ev with
  | order d =>
    simp only [FifoSched.step, hev, fifoOrderManager.arrive, fifoOrderManager.processOrder,
      fifoOrderManager.finishOrder]
    rcases hl : f.lockedFinishOrder { d with FinishTime := a.ready } with ⟨f1, elem, popped⟩
    cases popped with
    | none => simp
    | some p => simp
  | courier d =>
    simp only [FifoSched.step, hev, fifoOrderManager.arrive, fifoOrderManager.pickUpOrder,
      fifoOrderManager.finishPickUp]
    rcases hl : f.lockedFinishPickUp { d with ArrivedTime := a.ready } with ⟨f1, elem, popped⟩
    cases popped with
    | none => simp
    | some p => simp

/-- C3 fails on the code: the interleaving `raceSchedule` on a new FIFO manager with
the barrier raised twice. After courier 1 has popped order 1 and left the lock, order 2
enters and pops courier 1, which has already taken the matcher path and is still
linked. Courier 1 then wakes order 1 and completes one order; order 2 evicts itself and
blocks for ever on the channel of courier 1, which never receives; courier 2 finds both
queues without an order and parks for ever. The run ends with one completed order, one
logged pair, the barrier at one and courier 2 left in its queue. -/
theorem fifo_race_pops_matcher :
    ((⟨fifoDispatched none 2, []⟩ : FifoSched).steps (raceSchedule.take 3)).matcherPopped
      = true ∧
    ((⟨fifoDispatched none 2, []⟩ : FifoSched).steps raceSchedule).pending = [] ∧
    ((⟨fifoDispatched none 2, []⟩ : FifoSched).steps raceSchedule).mgr.base.stats.TotalOrderCount
      = 1 ∧
    ((⟨fifoDispatched none 2, []⟩ : FifoSched).steps raceSchedule).mgr.base.pickUpLog.length
      = 1 ∧
    ((⟨fifoDispatched none 2, []⟩ : FifoSched).steps raceSchedule).mgr.base.wg = 1 ∧
    ((⟨fifoDispatched none 2, []⟩ : FifoSched).steps raceSchedule).mgr.courierQueue.Len = 1 ∧
    ((⟨fifoDispatched none 2, []⟩ : FifoSched).steps
        raceSchedule).mgr.finishedOrderQueue.Len = 0 := by
  decide


/-- C2 fails on the code, by the defect of C3: the four arrivals `raceArrivals` (two
orders and two couriers, N = 2) enter in the order order 1, courier 1, order 2,
courier 2, order 2 entering between the two critical sections of courier 1
(`raceSchedule`). Two events take the matcher path (courier 1 and order 2), but only
one completion signal is given: the barrier ends at 1, not at zero, `TotalOrderCount`
ends at 1, courier 2 is neither a matcher nor woken and stays parked in the courier
queue, which is not empty at the end. When no call enters between the two critical
sections of another, the same arrival order ends with the barrier at zero and two
completions. -/
theorem fifo_race_barrier :
    (orderKeys raceArrivals).length = 2 ∧ (courierKeys raceArrivals).length = 2 ∧
    (((⟨fifoDispatched none 2, []⟩ : FifoSched).steps (raceSchedule.take 3)).pending.map
        Pending.summary).length = 2 ∧
    raceFinal.pending = [] ∧
    raceFinal.mgr.base.wg = 1 ∧
    raceFinal.mgr.base.stats.TotalOrderCount = 1 ∧
    raceFinal.mgr.finishedOrderQueue.values = [] ∧
    raceFinal.mgr.courierQueue.values.map (fun c => (c.Courier.ID, c.notification.parked))
      = [("courier-2", true)] ∧
    ((fifoDispatched none 2).run raceArrivals).base.wg = 0 ∧
    ((fifoDispatched none 2).run raceArrivals).base.stats.TotalOrderCount = 2 := by
  decide

/-- C5 fails on the code, by the defect of C3: with the arrival order order 1,
courier 1, order 2, courier 2 and order 2 entering between the two critical sections of
courier 1 (`raceSchedule`), the second order to arrive pops the first courier, which is
not parked and has popped order 1 itself, and is never paired with the second courier:
the only pair resolved is order 1 with courier 1, while the pairs by rank of arrival
are order 1 with courier 1 and order 2 with courier 2. -/
theorem fifo_race_pairing :
    ((⟨fifoDispatched none 2, []⟩ : FifoSched).steps (raceSchedule.take 3)).pending.map
        Pending.summary
      = [(false, "courier-1", "1", true), (true, "2", "courier-1", false)] ∧
    raceFinal.mgr.base.pickUpLog.map (fun p => (p.1.Order.ID, p.2.Courier.ID))
      = [("1", "courier-1")] ∧
    (List.zip (orderKeys raceArrivals) (courierKeys raceArrivals)).map
        (fun p => (p.1.1.ID, p.2.1.ID))
      = [("1", "courier-1"), ("2", "courier-2")] ∧
    raceFinal.mgr.courierQueue.values.map (fun c => c.Courier.ID) = ["courier-2"] := by
  decide

/-- C8 fails on the code, by the defect of C3: two orders dispatched at time 0 with
preparation times 1 s and 3 s and couriers with travel times 3 s and 4 s; the ready
events enter in the order of their instants, order 2 and courier 1 both at 3 s, order 2
between the two critical sections of courier 1 (`raceSchedule`). The sorted readiness
times give N = 2, a food wait of (3 - 1) + (4 - 3) = 3 s and no courier wait; the run
ends with `TotalOrderCount` 1 and a food wait of 2000 ms. -/
theorem fifo_race_scenario :
    raceArrivals.Perm
      (([⟨"1", "Food 1", 1⟩, ⟨"2", "Food 2", 3⟩] : List resource.Order).map readyOrder
        ++ ([resource.NewCourier "courier-1" "1" 3, resource.NewCourier "courier-2" "2" 4]
          : List resource.Courier).map readyCourier) ∧
    raceArrivals.Pairwise (fun a b => a.ready ≤ b.ready) ∧
    (List.zipWith (fun o c => 1000 * max 0 (c - o))
        (([1, 3] : List Int).insertionSort (fun x y => x ≤ y))
        (([3, 4] : List Int).insertionSort (fun x y => x ≤ y))).sum = 3000 ∧
    (List.zipWith (fun o c => 1000 * max 0 (o - c))
        (([1, 3] : List Int).insertionSort (fun x y => x ≤ y))
        (([3, 4] : List Int).insertionSort (fun x y => x ≤ y))).sum = 0 ∧
    raceFinal.mgr.base.stats = ⟨1, 2000, 0⟩ := by
  decide

/-! ### Non-negative waits -/

theorem Grows.refl (b : orderManagerBase) : Grows b b :=
  ⟨[], by simp, by simp, by simp, by simp⟩

theorem Grows.trans {b1 b2 b3 : orderManagerBase} (h1 : Grows b1 b2) (h2 : Grows b2 b3) :
    Grows b1 b3 := by
  obtain ⟨l1, e1, n1, f1, c1⟩ := h1
  obtain ⟨l2, e2, n2, f2, c2⟩ := h2
  refine ⟨l1 ++ l2, by rw [e2, e1, List.append_assoc], ?_, ?_, ?_⟩
  · intro p hp
    rcases List.mem_append.mp hp with h | h
    · exact n1 p h
    · exact n2 p h
  · rw [f2, f1, List.map_append, List.sum_append]; ring
  · rw [c2, c1, List.map_append, List.sum_append]; ring

theorem Grows.paired (b : orderManagerBase) (o : dispatchedOrder) (c : dispatchedCourier)
    (ho : 0 ≤ o.getWaitTimeInMs) (hc : 0 ≤ c.getWaitTimeInMs) :
    Grows b (pairedBase b o c) :=
  ⟨[(o, c)], rfl, by simp [ho, hc], by simp [pairedBase], by simp [pairedBase]⟩

theorem Grows.food_le {b b1 : orderManagerBase} (h : Grows b b1) :
    b.stats.TotalFoodWaitTime ≤ b1.stats.TotalFoodWaitTime := by
  obtain ⟨l, _, n, f, _⟩ := h
  rw [f]
  have : 0 ≤ (l.map (fun p => p.1.getWaitTimeInMs)).sum := by
    apply List.sum_nonneg
    intro x hx
    obtain ⟨p, hp, rfl⟩ := List.mem_map.mp hx
    exact (n p hp).1
  omega

theorem Grows.courier_le {b b1 : orderManagerBase} (h : Grows b b1) :
    b.stats.TotalCourierWaitTime ≤ b1.stats.TotalCourierWaitTime := by
  obtain ⟨l, _, n, _, c⟩ := h
  rw [c]
  have : 0 ≤ (l.map (fun p => p.2.getWaitTimeInMs)).sum := by
    apply List.sum_nonneg
    intro x hx
    obtain ⟨p, hp, rfl⟩ := List.mem_map.mp hx
    exact (n p hp).2
  omega

/-- An order whose probe finds a courier that is not parked blocks in its send: only
the map entry of the order changes. -/
theorem matchedOrderManager.arrive_order_stuck (m : matchedOrderManager) (a : Arrival)
    (d : dispatchedOrder) (c : dispatchedCourier) (ha : a.ev = Ready.order d)
    (hl : m.courierMap.Load d.Order.ID = some c) (hp : c.notification.parked = false) :
    m.arrive a =
      { m with
        finishedOrderMap :=
          SyncMap.Store
            (SyncMap.Store m.finishedOrderMap d.Order.ID { d with FinishTime := a.ready })
            d.Order.ID (matcherOrder d a) } := by
  simp [matchedOrderManager.arrive, ha, matchedOrderManager.processOrder,
    matchedOrderManager.finishOrder, matchedOrderManager.lockedFinishOrder, hl, hp,
    matcherOrder]

/-- A courier whose probe finds an order that is not parked blocks in its send: only
the map entry of the courier changes. -/
theorem matchedOrderManager.arrive_courier_stuck (m : matchedOrderManager) (a : Arrival)
    (d : dispatchedCourier) (o : dispatchedOrder) (ha : a.ev = Ready.courier d)
    (hl : m.finishedOrderMap.Load d.Courier.OrderID = some o)
    (hp : o.notification.parked = false) :
    m.arrive a =
      { m with
        courierMap :=
          SyncMap.Store
            (SyncMap.Store m.courierMap d.Courier.OrderID { d with ArrivedTime := a.ready })
            d.Courier.OrderID (matcherCourier d a) } := by
  simp [matchedOrderManager.arrive, ha, matchedOrderManager.pickUpOrder,
    matchedOrderManager.finishPickUp, matchedOrderManager.lockedFinishPickUp, hl, hp,
    matcherCourier]

theorem MatchedClock.mclock_mono {m : matchedOrderManager} {t t1 : Int} (h : MatchedClock m t)
    (ht : t ≤ t1) : MatchedClock m t1 :=
  ⟨fun k o hk => le_trans (h.ord k o hk) ht, fun k c hk => le_trans (h.cou k c hk) ht⟩

/-- One call of the matched strategy with non-decreasing clock readings: the waits of a
resolved pair are non-negative, and no stored event is later than the last reading. -/
theorem MatchedClock.mclock_step {m : matchedOrderManager} {t : Int} (h : MatchedClock m t)
    (a : Arrival) (h1 : t ≤ a.ready) (h2 : a.ready ≤ a.now) (h3 : a.now ≤ a.wake) :
    MatchedClock (m.arrive a) a.wake ∧ Grows m.base (m.arrive a).base := by
  have hw := h.mclock_mono (le_trans h1 (le_trans h2 h3))
  have hrw : a.ready ≤ a.wake := le_trans h2 h3
  cases hev : a.ev with
  | order d =>
    cases hl : m.courierMap.Load d.Order.ID with
    | none =>
      rw [matchedOrderManager.arrive_order_none m a d hev hl]
      refine ⟨⟨?_, hw.cou⟩, Grows.refl _⟩
      intro k o hk
      simp only [SyncMap.Load_Store] at hk
      by_cases hkk : k = d.Order.ID
      · simp only [hkk, if_true, Option.some.injEq] at hk; subst hk; exact hrw
      · simp only [hkk, if_false] at hk; exact hw.ord k o hk
    | some c =>
      have hct : c.ArrivedTime ≤ a.wake := hw.cou _ c hl
      cases hp : c.notification.parked with
      | false =>
        rw [matchedOrderManager.arrive_order_stuck m a d c hev hl hp]
        refine ⟨⟨?_, hw.cou⟩, Grows.refl _⟩
        intro k o hk
        simp only [SyncMap.Load_Store] at hk
        by_cases hkk : k = d.Order.ID
        · simp only [hkk, if_true, Option.some.injEq] at hk; subst hk; exact hrw
        · simp only [hkk, if_false] at hk; exact hw.ord k o hk
      | true =>
        rw [matchedOrderManager.arrive_order_some m a d c hev hl hp]
        refine ⟨⟨?_, ?_⟩, Grows.paired _ _ _ ?_ ?_⟩
        · intro k o hk
          simp only [SyncMap.Load_Store] at hk
          by_cases hkk : k = d.Order.ID
          · simp only [hkk, if_true, Option.some.injEq] at hk; subst hk; exact hrw
          · simp only [hkk, if_false] at hk; exact hw.ord k o hk
        · intro k c1 hk
          simp only [SyncMap.Load_Store] at hk
          by_cases hkk : k = c.Courier.OrderID
          · simp only [hkk, if_true, Option.some.injEq] at hk; subst hk; exact hct
          · simp only [hkk, if_false] at hk; exact hw.cou k c1 hk
        · apply Milliseconds_nonneg; simp only [matcherOrder]; omega
        · apply Milliseconds_nonneg; simp only [wokenCourier]; omega
  | courier d =>
    cases hl : m.finishedOrderMap.Load d.Courier.OrderID with
    | none =>
      rw [matchedOrderManager.arrive_courier_none m a d hev hl]
      refine ⟨⟨hw.ord, ?_⟩, Grows.refl _⟩
      intro k c hk
      simp only [SyncMap.Load_Store] at hk
      by_cases hkk : k = d.Courier.OrderID
      · simp only [hkk, if_true, Option.some.injEq] at hk; subst hk; exact hrw
      · simp only [hkk, if_false] at hk; exact hw.cou k c hk
    | some o =>
      have hot : o.FinishTime ≤ a.wake := hw.ord _ o hl
      cases hp : o.notification.parked with
      | false =>
        rw [matchedOrderManager.arrive_courier_stuck m a d o hev hl hp]
        refine ⟨⟨hw.ord, ?_⟩, Grows.refl _⟩
        intro k c hk
        simp only [SyncMap.Load_Store] at hk
        by_cases hkk : k = d.Courier.OrderID
        · simp only [hkk, if_true, Option.some.injEq] at hk; subst hk; exact hrw
        · simp only [hkk, if_false] at hk; exact hw.cou k c hk
      | true =>
        rw [matchedOrderManager.arrive_courier_some m a d o hev hl hp]
        refine ⟨⟨?_, ?_⟩, Grows.paired _ _ _ ?_ ?_⟩
        · intro k o1 hk
          simp only [SyncMap.Load_Store] at hk
          by_cases hkk : k = o.Order.ID
          · simp only [hkk, if_true, Option.some.injEq] at hk; subst hk; exact hot
          · simp only [hkk, if_false] at hk; exact hw.ord k o1 hk
        · intro k c hk
          simp only [SyncMap.Load_Store] at hk
          by_cases hkk : k = d.Courier.OrderID
          · simp only [hkk, if_true, Option.some.injEq] at hk; subst hk; exact hrw
          · simp only [hkk, if_false] at hk; exact hw.cou k c hk
        · apply Milliseconds_nonneg; simp only [wokenOrder]; omega
        · apply Milliseconds_nonneg; simp only [matcherCourier]; omega


theorem chain_readings_cons (t : Int) (a : Arrival) (evs : List Arrival)
    (h : List.Chain (fun x y => x ≤ y) t (readings (a :: evs))) :
    t ≤ a.ready ∧ a.ready ≤ a.now ∧ a.now ≤ a.wake ∧
      List.Chain (fun x y => x ≤ y) a.wake (readings evs) := by
  simp only [readings, List.chain_cons] at h
  exact ⟨h.1, h.2.1, h.2.2.1, h.2.2.2⟩

/-- Calls of the matched strategy with non-decreasing clock readings only add pairs
with non-negative waits. -/
theorem MatchedClock.mclock_run {m : matchedOrderManager} {t : Int} (h : MatchedClock m t)
    (evs : List Arrival) (hc : List.Chain (fun x y => x ≤ y) t (readings evs)) :
    Grows m.base (m.run evs).base := by
  induction evs generalizing m t with
  | nil => exact Grows.refl _
  | cons a evs ih =>
    obtain ⟨h1, h2, h3, h4⟩ := chain_readings_cons t a evs hc
    obtain ⟨hclk, hg⟩ := h.mclock_step a h1 h2 h3
    rw [matchedOrderManager.run_cons]
    exact hg.trans (ih hclk h4)

/-- Between any two points of a matched run with non-decreasing clock readings only
pairs with non-negative waits are added. -/
theorem MatchedClock.mclock_run_between {m : matchedOrderManager} {t : Int} (h : MatchedClock m t)
    (pre mid : List Arrival)
    (hc : List.Chain (fun x y => x ≤ y) t (readings (pre ++ mid))) :
    Grows (m.run pre).base (m.run (pre ++ mid)).base := by
  induction pre generalizing m t with
  | nil => exact h.mclock_run mid hc
  | cons a pre ih =>
    obtain ⟨h1, h2, h3, h4⟩ := chain_readings_cons t a (pre ++ mid) hc
    obtain ⟨hclk, _⟩ := h.mclock_step a h1 h2 h3
    rw [List.cons_append, matchedOrderManager.run_cons, matchedOrderManager.run_cons]
    exact ih hclk h4

theorem FifoClock.fclock_mono {s : FifoAbs} {t t1 : Int} (h : FifoClock s t) (ht : t ≤ t1) :
    FifoClock s t1 :=
  ⟨fun o ho => le_trans (h.ord o ho) ht, fun c hc => le_trans (h.cou c hc) ht⟩

/-- One call of the FIFO strategy with non-decreasing clock readings: the waits of a
resolved pair are non-negative, and no parked event is later than the last reading. -/
theorem FifoClock.fclock_step {s : FifoAbs} {t : Int} (h : FifoClock s t) (a : Arrival)
    (h1 : t ≤ a.ready) (h2 : a.ready ≤ a.now) (h3 : a.now ≤ a.wake) :
    FifoClock (s.arrive a) a.wake ∧ Grows s.base (s.arrive a).base := by
  have hw := h.fclock_mono (le_trans h1 (le_trans h2 h3))
  have hrw : a.ready ≤ a.wake := le_trans h2 h3
  cases hev : a.ev with
  | order d =>
    cases hC : s.waitC with
    | nil =>
      have hs : s.arrive a = ⟨s.base, s.waitO ++ [parkedOrder d a], []⟩ := by
        simp [FifoAbs.arrive, hev, hC]
      rw [hs]
      refine ⟨⟨?_, by intro c hc; simp at hc⟩, Grows.refl _⟩
      intro o ho
      simp only [List.mem_append, List.mem_singleton] at ho
      rcases ho with ho | ho
      · exact hw.ord o ho
      · subst ho; exact hrw
    | cons c rest =>
      have hs : s.arrive a
          = ⟨pairedBase s.base (matcherOrder d a) (wokenCourier c a), s.waitO, rest⟩ := by
        simp [FifoAbs.arrive, hev, hC]
      have hct : c.ArrivedTime ≤ a.wake := hw.cou c (by simp [hC])
      rw [hs]
      refine ⟨⟨hw.ord, fun c1 hc1 => hw.cou c1 (by simp [hC, hc1])⟩,
        Grows.paired _ _ _ ?_ ?_⟩
      · apply Milliseconds_nonneg; simp only [matcherOrder]; omega
      · apply Milliseconds_nonneg; simp only [wokenCourier]; omega
  | courier d =>
    cases hO : s.waitO with
    | nil =>
      have hs : s.arrive a = ⟨s.base, [], s.waitC ++ [parkedCourier d a]⟩ := by
        simp [FifoAbs.arrive, hev, hO]
      rw [hs]
      refine ⟨⟨by intro o ho; simp at ho, ?_⟩, Grows.refl _⟩
      intro c hc
      simp only [List.mem_append, List.mem_singleton] at hc
      rcases hc with hc | hc
      · exact hw.cou c hc
      · subst hc; exact hrw
    | cons o rest =>
      have hs : s.arrive a
          = ⟨pairedBase s.base (wokenOrder o a) (matcherCourier d a), rest, s.waitC⟩ := by
        simp [FifoAbs.arrive, hev, hO]
      have hot : o.FinishTime ≤ a.wake := hw.ord o (by simp [hO])
      rw [hs]
      refine ⟨⟨fun o1 ho1 => hw.ord o1 (by simp [hO, ho1]), hw.cou⟩,
        Grows.paired _ _ _ ?_ ?_⟩
      · apply Milliseconds_nonneg; simp only [wokenOrder]; omega
      · apply Milliseconds_nonneg; simp only [matcherCourier]; omega

theorem FifoAbs.abs_run_cons (s : FifoAbs) (a : Arrival) (evs : List Arrival) :
    s.run (a :: evs) = (s.arrive a).run evs := rfl

/-- Between any two points of a FIFO run with non-decreasing clock readings only pairs
with non-negative waits are added. -/
theorem FifoClock.fclock_run_between {f : fifoOrderManager} {s : FifoAbs} {t : Int}
    (hrel : FifoRel f s) (h : FifoClock s t) (pre mid : List Arrival)
    (hc : List.Chain (fun x y => x ≤ y) t (readings (pre ++ mid))) :
    Grows (f.run pre).base (f.run (pre ++ mid)).base := by
  induction pre generalizing f s t with
  | nil =>
    simp only [List.nil_append] at hc ⊢
    induction mid generalizing f s t with
    | nil => exact Grows.refl _
    | cons a mid ih =>
      obtain ⟨h1, h2, h3, h4⟩ := chain_readings_cons t a mid hc
      obtain ⟨hclk, hg⟩ := h.fclock_step a h1 h2 h3
      obtain ⟨hrel1, _⟩ := hrel.rel_step a
      have hg1 : Grows f.base (f.arrive a).base := by
        rw [hrel.base, hrel1.base]; exact hg
      have := ih hrel1 hclk h4
      rw [fifoOrderManager.fifo_run_cons]
      exact hg1.trans this
  | cons a pre ih =>
    obtain ⟨h1, h2, h3, h4⟩ := chain_readings_cons t a (pre ++ mid) hc
    obtain ⟨hclk, _⟩ := h.fclock_step a h1 h2 h3
    obtain ⟨hrel1, _⟩ := hrel.rel_step a
    rw [List.cons_append, fifoOrderManager.fifo_run_cons, fifoOrderManager.fifo_run_cons]
    exact ih hrel1 hclk h4

/-- Readings that never decrease form a chain from the first ready instant. -/
theorem chain_of_chain' (evs : List Arrival)
    (h : (readings evs).Chain' (fun x y => x ≤ y)) :
    ∃ t, List.Chain (fun x y => x ≤ y) t (readings evs) := by
  cases evs with
  | nil => exact ⟨0, List.Chain.nil⟩
  | cons a evs =>
    refine ⟨a.ready, ?_⟩
    have h0 : List.Chain (fun x y => x ≤ y) a.ready (a.now :: a.wake :: readings evs) := h
    simp only [readings, List.chain_cons] at h0 ⊢
    exact ⟨le_refl _, h0⟩


theorem readings_append (l1 l2 : List Arrival) :
    readings (l1 ++ l2) = readings l1 ++ readings l2 := by
  induction l1 with
  | nil => rfl
  | cons a l1 ih => simp [readings, ih]

theorem MatchedClock.mclock_init (b : orderManagerBase) (t : Int) :
    MatchedClock ⟨b, [], []⟩ t :=
  ⟨fun k o h => by simp [SyncMap.Load] at h, fun k c h => by simp [SyncMap.Load] at h⟩

theorem FifoClock.fclock_init (b : orderManagerBase) (t : Int) : FifoClock ⟨b, [], []⟩ t :=
  ⟨fun o h => by simp at h, fun c h => by simp at h⟩

/-- C9: non-negative wait times. With clock readings that never decrease, under both
strategies and on both paths: every pair logged by a run from a new manager has a food
wait (`PickedUpTime - FinishTime` in ms, the value passed to
`incrementTotalFoodWaitTime`) and a courier wait (`PickedUpTime - ArrivedTime` in ms,
the value passed to `incrementTotalCourierWaitTime`) that are at least zero; the two
totals are the sums of these values; and between any two points of the run neither
total decreases. -/
theorem waits_nonneg (random : Option resource.Rand) (evs : List Arrival)
    (hclock : (readings evs).Chain' (fun x y => x ≤ y)) :
    (∀ d : dispatchedOrder, d.FinishTime ≤ d.PickedUpTime → 0 ≤ d.getWaitTimeInMs) ∧
    (∀ d : dispatchedCourier, d.ArrivedTime ≤ d.PickedUpTime → 0 ≤ d.getWaitTimeInMs) ∧
    (∀ p ∈ ((newMatchedOrderManager random).run evs).base.pickUpLog,
      0 ≤ p.1.getWaitTimeInMs ∧ 0 ≤ p.2.getWaitTimeInMs) ∧
    ((newMatchedOrderManager random).run evs).base.stats.TotalFoodWaitTime
      = (((newMatchedOrderManager random).run evs).base.pickUpLog.map
          (fun p => p.1.getWaitTimeInMs)).sum ∧
    ((newMatchedOrderManager random).run evs).base.stats.TotalCourierWaitTime
      = (((newMatchedOrderManager random).run evs).base.pickUpLog.map
          (fun p => p.2.getWaitTimeInMs)).sum ∧
    (∀ pre mid post, evs = pre ++ mid ++ post →
      ((newMatchedOrderManager random).run pre).base.stats.TotalFoodWaitTime
        ≤ ((newMatchedOrderManager random).run (pre ++ mid)).base.stats.TotalFoodWaitTime ∧
      ((newMatchedOrderManager random).run pre).base.stats.TotalCourierWaitTime
        ≤ ((newMatchedOrderManager random).run (pre ++ mid)).base.stats.TotalCourierWaitTime) ∧
    (∀ p ∈ ((newFIFOOrderManager random).run evs).base.pickUpLog,
      0 ≤ p.1.getWaitTimeInMs ∧ 0 ≤ p.2.getWaitTimeInMs) ∧
    ((newFIFOOrderManager random).run evs).base.stats.TotalFoodWaitTime
      = (((newFIFOOrderManager random).run evs).base.pickUpLog.map
          (fun p => p.1.getWaitTimeInMs)).sum ∧
    ((newFIFOOrderManager random).run evs).base.stats.TotalCourierWaitTime
      = (((newFIFOOrderManager random).run evs).base.pickUpLog.map
          (fun p => p.2.getWaitTimeInMs)).sum ∧
    (∀ pre mid post, evs = pre ++ mid ++ post →
      ((newFIFOOrderManager random).run pre).base.stats.TotalFoodWaitTime
        ≤ ((newFIFOOrderManager random).run (pre ++ mid)).base.stats.TotalFoodWaitTime ∧
      ((newFIFOOrderManager random).run pre).base.stats.TotalCourierWaitTime
        ≤ ((newFIFOOrderManager random).run (pre ++ mid)).base.stats.TotalCourierWaitTime) := by
  obtain ⟨t, hchain⟩ := chain_of_chain' evs hclock
  have hM : Grows (getOrderManagerBaseClass random)
      ((newMatchedOrderManager random).run evs).base :=
    (MatchedClock.mclock_init (getOrderManagerBaseClass random) t).mclock_run evs hchain
  have hF : Grows (getOrderManagerBaseClass random)
      ((newFIFOOrderManager random).run evs).base := by
    have := FifoClock.fclock_run_between (FifoRel.rel_init (getOrderManagerBaseClass random))
      (FifoClock.fclock_init (getOrderManagerBaseClass random) t) [] evs hchain
    simpa [fifoOrderManager.run, newFIFOOrderManager] using this
  have hpre : ∀ pre mid post, evs = pre ++ mid ++ post →
      ∃ t1, List.Chain (fun x y => x ≤ y) t1 (readings (pre ++ mid)) := by
    intro pre mid post hsplit
    apply chain_of_chain'
    rw [hsplit, readings_append] at hclock
    exact hclock.left_of_append
  obtain ⟨lM, eM, nM, fM, cM⟩ := hM
  obtain ⟨lF, eF, nF, fF, cF⟩ := hF
  have eM1 : ((newMatchedOrderManager random).run evs).base.pickUpLog = lM := by
    rw [eM]; simp [getOrderManagerBaseClass]
  have eF1 : ((newFIFOOrderManager random).run evs).base.pickUpLog = lF := by
    rw [eF]; simp [getOrderManagerBaseClass]
  refine ⟨?_, ?_, ?_, ?_, ?_, ?_, ?_, ?_, ?_, ?_⟩
  · intro d hd; exact Milliseconds_nonneg _ (by omega)
  · intro d hd; exact Milliseconds_nonneg _ (by omega)
  · rw [eM1]; exact nM
  · rw [eM1, fM]; simp [getOrderManagerBaseClass]
  · rw [eM1, cM]; simp [getOrderManagerBaseClass]
  · intro pre mid post hsplit
    obtain ⟨t1, hc1⟩ := hpre pre mid post hsplit
    have := (MatchedClock.mclock_init (getOrderManagerBaseClass random) t1).mclock_run_between pre mid hc1
    exact ⟨this.food_le, this.courier_le⟩
  · rw [eF1]; exact nF
  · rw [eF1, fF]; simp [getOrderManagerBaseClass]
  · rw [eF1, cF]; simp [getOrderManagerBaseClass]
  · intro pre mid post hsplit
    obtain ⟨t1, hc1⟩ := hpre pre mid post hsplit
    have := FifoClock.fclock_run_between (FifoRel.rel_init (getOrderManagerBaseClass random))
      (FifoClock.fclock_init (getOrderManagerBaseClass random) t1) pre mid hc1
    exact ⟨this.food_le, this.courier_le⟩

theorem testArrivals_readings : (readings testArrivals).Chain' (fun x y => x ≤ y) :=
  List.Pairwise.chain' (by decide)

/-- C9 at the test scenario: the readings of its eight calls never decrease, and the
four pairs of each strategy have non-negative waits. -/
theorem waits_nonneg_witness :
    (readings testArrivals).Chain' (fun x y => x ≤ y) ∧
    ((newMatchedOrderManager none).run testArrivals).base.pickUpLog.length = 4 ∧
    (∀ p ∈ ((newMatchedOrderManager none).run testArrivals).base.pickUpLog,
      0 ≤ p.1.getWaitTimeInMs ∧ 0 ≤ p.2.getWaitTimeInMs) ∧
    ((newFIFOOrderManager none).run testArrivals).base.pickUpLog.length = 4 ∧
    (∀ p ∈ ((newFIFOOrderManager none).run testArrivals).base.pickUpLog,
      0 ≤ p.1.getWaitTimeInMs ∧ 0 ≤ p.2.getWaitTimeInMs) :=
  have h := waits_nonneg none testArrivals testArrivals_readings
  ⟨testArrivals_readings, by decide, h.2.2.1, by decide, h.2.2.2.2.2.2.1⟩


/-! ### Travel time -/

/-- The value of the draw number `k` from a generator: `Int63() >> 32` at position
`pos + k` of its source. -/
theorem Rand.Int31_fst (r : resource.Rand) :
    (r.Int31).1 = r.src r.pos % 2 ^ 63 / 2 ^ 32 := rfl

theorem Rand.Int31_snd (r : resource.Rand) :
    (r.Int31).2 = { r with pos := r.pos + 1 } := rfl

/-- The rejection loop ends on an accepted value once one of the next `fuel` draws is
accepted, and every value it returns is accepted. -/
theorem Rand.rejectLoop_spec (max : Nat) :
    ∀ (fuel v : Nat) (r : resource.Rand),
      (v ≤ max ∨ ∃ k, k < fuel ∧ r.src (r.pos + k) % 2 ^ 63 / 2 ^ 32 ≤ max) →
      ∃ w r1, resource.Rand.rejectLoop max fuel v r = some (w, r1) ∧ w ≤ max := by
  intro fuel
  induction fuel with
  | zero =>
    intro v r h
    rcases h with h | ⟨k, hk, _⟩
    · exact ⟨v, r, by unfold resource.Rand.rejectLoop; simp [h], h⟩
    · omega
  | succ n ih =>
    intro v r h
    by_cases hv : v ≤ max
    · exact ⟨v, r, by unfold resource.Rand.rejectLoop; simp [hv], hv⟩
    · have hstep : resource.Rand.rejectLoop max (n + 1) v r
          = resource.Rand.rejectLoop max n (r.Int31).1 (r.Int31).2 := by
        conv_lhs => unfold resource.Rand.rejectLoop
        simp [hv]
      rw [hstep]
      apply ih
      rcases h with h | ⟨k, hk, hacc⟩
      · exact absurd h hv
      · cases k with
        | zero => left; simpa [Rand.Int31_fst] using hacc
        | succ j =>
          right
          refine ⟨j, by omega, ?_⟩
          have : r.pos + 1 + j = r.pos + (j + 1) := by omega
          simpa [Rand.Int31_snd, this] using hacc

/-- Whatever the loop returns is an accepted value. -/
theorem Rand.rejectLoop_le (max : Nat) :
    ∀ (fuel v : Nat) (r : resource.Rand) (w : Nat) (r1 : resource.Rand),
      resource.Rand.rejectLoop max fuel v r = some (w, r1) → w ≤ max := by
  intro fuel
  induction fuel with
  | zero =>
    intro v r w r1 h
    unfold resource.Rand.rejectLoop at h
    by_cases hv : v ≤ max
    · simp [hv] at h; omega
    · simp [hv] at h
  | succ n ih =>
    intro v r w r1 h
    unfold resource.Rand.rejectLoop at h
    by_cases hv : v ≤ max
    · simp [hv] at h; omega
    · simp [hv] at h
      exact ih _ _ _ _ h

/-- The generator `GetCourierTravelTime` draws from: `r`, or the global one when `r` is
nil. -/
theorem Rand.Intn_thirteen (r : resource.Rand) (fuel : Nat)
    (h : ∃ k, k ≤ fuel ∧ r.src (r.pos + k) % 2 ^ 63 / 2 ^ 32 ≤ 2147483636) :
    ∃ (d : Nat) (r1 : resource.Rand), r.Intn 13 fuel = some ((d : Int), r1) ∧ d < 13 := by
  have hacc : ((r.Int31).1 ≤ 2147483636 ∨
      ∃ k, k < fuel ∧ (r.Int31).2.src ((r.Int31).2.pos + k) % 2 ^ 63 / 2 ^ 32
        ≤ 2147483636) := by
    rcases h with ⟨k, hk, hacc⟩
    cases k with
    | zero => left; simpa [Rand.Int31_fst] using hacc
    | succ j =>
      right
      refine ⟨j, by omega, ?_⟩
      have : r.pos + 1 + j = r.pos + (j + 1) := by omega
      simpa [Rand.Int31_snd, this] using hacc
  obtain ⟨w, r1, hw, _⟩ := Rand.rejectLoop_spec 2147483636 fuel _ _ hacc
  refine ⟨w % 13, r1, ?_, Nat.mod_lt _ (by norm_num)⟩
  have hland : Nat.land 13 (13 - 1) ≠ 0 := by decide
  have hmax : 2 ^ 31 - 1 - 2 ^ 31 % 13 = 2147483636 := by norm_num
  simp only [resource.Rand.Intn, resource.Rand.Int31n, hland, if_false, hmax, hw]

/-- A source whose next value is `d << 32` with `d < 13` makes `Intn(13)` return `d`
on the first draw. -/
theorem Rand.Intn_thirteen_shift (r : resource.Rand) (fuel d : Nat) (hd : d < 13)
    (hsrc : r.src r.pos = Nat.shiftLeft d 32) :
    r.Intn 13 fuel = some ((d : Int), { r with pos := r.pos + 1 }) := by
  have hv : (r.Int31).1 = d := by
    rw [Rand.Int31_fst, hsrc]
    show d <<< 32 % 2 ^ 63 / 2 ^ 32 = d
    rw [Nat.shiftLeft_eq]
    have h1 : d * 2 ^ 32 < 2 ^ 63 := by
      calc d * 2 ^ 32 < 13 * 2 ^ 32 := by
            exact Nat.mul_lt_mul_of_pos_right hd (by norm_num)
        _ < 2 ^ 63 := by norm_num
    rw [Nat.mod_eq_of_lt h1, Nat.mul_div_cancel _ (by norm_num)]
  have hloop : resource.Rand.rejectLoop 2147483636 fuel (r.Int31).1 (r.Int31).2
      = some (d, (r.Int31).2) := by
    unfold resource.Rand.rejectLoop
    have : d ≤ 2147483636 := by omega
    simp [hv, this]
  have hland : Nat.land 13 (13 - 1) ≠ 0 := by decide
  have hmax : 2 ^ 31 - 1 - 2 ^ 31 % 13 = 2147483636 := by norm_num
  simp only [resource.Rand.Intn, resource.Rand.Int31n, hland, if_false, hmax, hloop,
    Nat.mod_eq_of_lt hd]
  rw [Rand.Int31_snd]

/-- A source stuck at the largest 63-bit value is rejected at every draw. -/
theorem Rand.rejectLoop_stuck (fuel pos : Nat) :
    resource.Rand.rejectLoop 2147483636 fuel 2147483647 ⟨fun _ => 2 ^ 63 - 1, pos⟩ = none := by
  induction fuel generalizing pos with
  | zero => unfold resource.Rand.rejectLoop; simp
  | succ n ih =>
    unfold resource.Rand.rejectLoop
    have h : ¬ (2147483647 ≤ 2147483636) := by omega
    simp only [h, if_false]
    have h31 : (resource.Rand.Int31 ⟨fun _ => 2 ^ 63 - 1, pos⟩).1 = 2147483647 := by
      rw [Rand.Int31_fst]; norm_num
    rw [h31, Rand.Int31_snd]
    exact ih (pos + 1)

/-- C10, as stated, fails: on a generator whose source returns the largest 63-bit value
at every draw, the rejection loop of `Int31n` never accepts, and `GetCourierTravelTime`
returns no value whatever the number of draws allowed. -/
theorem GetCourierTravelTime_stuck_source :
    ∃ r : resource.Rand, r = ⟨fun _ => 2 ^ 63 - 1, 0⟩ ∧
      ∀ fuel : Nat, resource.GetCourierTravelTime ⟨fun _ => 0, 0⟩ (some r) fuel = none := by
  refine ⟨⟨fun _ => 2 ^ 63 - 1, 0⟩, rfl, ?_⟩
  intro fuel
  have hland : Nat.land 13 (13 - 1) ≠ 0 := by decide
  have hmax : 2 ^ 31 - 1 - 2 ^ 31 % 13 = 2147483636 := by norm_num
  have h31 : (resource.Rand.Int31 ⟨fun _ => 2 ^ 63 - 1, 0⟩).1 = 2147483647 := by
    rw [Rand.Int31_fst]; norm_num
  have hN : resource.MaxTravelTimeRange.toNat = 13 := by decide
  simp only [resource.GetCourierTravelTime, hN, resource.Rand.Intn, resource.Rand.Int31n,
    hland, if_false, hmax, h31, Rand.Int31_snd, Rand.rejectLoop_stuck]

/-- C10 (amended): for every generator `r` (nil falls back to the global generator
`glob`) whose source returns, within its next `fuel + 1` draws, a value whose upper 31
bits are at most `2147483636`, `GetCourierTravelTime` returns an integer `v` with
`3 <= v <= 15`, namely `MinTravelTime` plus a draw in `[0, MaxTravelTimeRange)`; and for
every `v` in `[3, 15]` a source whose next `Int63` is `(v - 3) << 32` makes it return
exactly `v`, after one draw. -/
theorem GetCourierTravelTime_range (glob : resource.Rand) (r : Option resource.Rand)
    (fuel : Nat)
    (h : ∃ k, k ≤ fuel ∧
      (r.getD glob).src ((r.getD glob).pos + k) % 2 ^ 63 / 2 ^ 32 ≤ 2147483636) :
    (∃ (v : Int) (g : resource.Rand),
        resource.GetCourierTravelTime glob r fuel = some (v, g) ∧ 3 ≤ v ∧ v ≤ 15 ∧
        ∃ d : Int, 0 ≤ d ∧ d < resource.MaxTravelTimeRange ∧
          v = resource.MinTravelTime + d) ∧
    (∀ (v : Nat) (s : resource.Rand), 3 ≤ v → v ≤ 15 →
        s.src s.pos = Nat.shiftLeft (v - 3) 32 →
        resource.GetCourierTravelTime glob (some s) fuel
          = some ((v : Int), { s with pos := s.pos + 1 })) := by
  have hN : resource.MaxTravelTimeRange.toNat = 13 := by decide
  constructor
  · obtain ⟨d, r1, hd, hlt⟩ := Rand.Intn_thirteen (r.getD glob) fuel h
    refine ⟨(d : Int) + resource.MinTravelTime, r1, ?_, ?_, ?_, (d : Int), ?_, ?_, ?_⟩
    · cases r with
      | none =>
        simp only [Option.getD_none] at hd
        simp only [resource.GetCourierTravelTime, hN, hd]
      | some r0 =>
        simp only [Option.getD_some] at hd
        simp only [resource.GetCourierTravelTime, hN, hd]
    · simp only [resource.MinTravelTime]; omega
    · simp only [resource.MinTravelTime]; omega
    · omega
    · simp only [resource.MaxTravelTimeRange]; omega
    · ring
  · intro v s h3 h15 hsrc
    have hd : v - 3 < 13 := by omega
    have := Rand.Intn_thirteen_shift s fuel (v - 3) hd hsrc
    simp only [resource.GetCourierTravelTime, hN, this, resource.MinTravelTime]
    have hv : ((v - 3 : Nat) : Int) + 3 = (v : Int) := by omega
    rw [hv]

/-- C10 at a concrete input: the mock source of the tests, set to the travel time `8`,
started at its first value. -/
theorem GetCourierTravelTime_range_witness :
    (∃ (v : Int) (g : resource.Rand),
        resource.GetCourierTravelTime ⟨fun _ => 0, 0⟩
          (some ⟨fun _ => Nat.shiftLeft 5 32, 0⟩) 0 = some (v, g) ∧ 3 ≤ v ∧ v ≤ 15 ∧
        ∃ d : Int, 0 ≤ d ∧ d < resource.MaxTravelTimeRange ∧
          v = resource.MinTravelTime + d) ∧
    (∀ (v : Nat) (s : resource.Rand), 3 ≤ v → v ≤ 15 →
        s.src s.pos = Nat.shiftLeft (v - 3) 32 →
        resource.GetCourierTravelTime ⟨fun _ => 0, 0⟩ (some s) 0
          = some ((v : Int), { s with pos := s.pos + 1 })) :=
  GetCourierTravelTime_range ⟨fun _ => 0, 0⟩ (some ⟨fun _ => Nat.shiftLeft 5 32, 0⟩) 0
    ⟨0, le_refl 0, by decide⟩

/-! ### Averages and reporting -/

theorem roundHalfEven_int (n : Int) : roundHalfEven (n : ℚ) = n := by
  simp [roundHalfEven]

theorem roundHalfEven_abs_sub (x : ℚ) : |(roundHalfEven x : ℚ) - x| ≤ 1 / 2 := by
  have h1 : (⌊x⌋ : ℚ) ≤ x := Int.floor_le x
  have h2 : x < ⌊x⌋ + 1 := Int.lt_floor_add_one x
  unfold roundHalfEven
  split_ifs with a b c
  · rw [abs_le]; constructor <;> linarith
  · push_cast; rw [abs_le]; constructor <;> linarith
  · rw [abs_le]; constructor <;> linarith
  · push_cast; rw [abs_le]; constructor <;> linarith

theorem roundHalfEven_eq (x : ℚ) (R : Int) (h1 : (R : ℚ) - 1 / 2 < x)
    (h2 : x < R + 1 / 2) : roundHalfEven x = R := by
  have hf1 : (⌊x⌋ : ℚ) ≤ x := Int.floor_le x
  have hf2 : x < ⌊x⌋ + 1 := Int.lt_floor_add_one x
  unfold roundHalfEven
  split_ifs with a b c
  · have k1 : (R : ℚ) < ⌊x⌋ + 1 := by linarith
    have k2 : (⌊x⌋ : ℚ) < R + 1 := by linarith
    have k1' : R < ⌊x⌋ + 1 := by exact_mod_cast k1
    have k2' : ⌊x⌋ < R + 1 := by exact_mod_cast k2
    omega
  · have k1 : (R : ℚ) < ⌊x⌋ + 2 := by linarith
    have k2 : (⌊x⌋ : ℚ) < R := by linarith
    have k1' : R < ⌊x⌋ + 2 := by exact_mod_cast k1
    have k2' : ⌊x⌋ < R := by exact_mod_cast k2
    omega
  · exfalso
    have e : x - ⌊x⌋ = 1 / 2 := le_antisymm (not_lt.mp b) (not_lt.mp a)
    have k1 : (2 * R - 1 : ℚ) < 2 * ⌊x⌋ + 1 := by linarith
    have k2 : (2 * ⌊x⌋ + 1 : ℚ) < 2 * R + 1 := by linarith
    have k1' : 2 * R - 1 < 2 * ⌊x⌋ + 1 := by exact_mod_cast k1
    have k2' : 2 * ⌊x⌋ + 1 < 2 * R + 1 := by exact_mod_cast k2
    omega
  · exfalso
    have e : x - ⌊x⌋ = 1 / 2 := le_antisymm (not_lt.mp b) (not_lt.mp a)
    have k1 : (2 * R - 1 : ℚ) < 2 * ⌊x⌋ + 1 := by linarith
    have k2 : (2 * ⌊x⌋ + 1 : ℚ) < 2 * R + 1 := by linarith
    have k1' : 2 * R - 1 < 2 * ⌊x⌋ + 1 := by exact_mod_cast k1
    have k2' : 2 * ⌊x⌋ + 1 < 2 * R + 1 := by exact_mod_cast k2
    omega

theorem log_two_eq (q : ℚ) (e : Int) (hq : 0 < q) (h1 : (2 : ℚ) ^ e ≤ q)
    (h2 : q < (2 : ℚ) ^ (e + 1)) : Int.log 2 q = e := by
  have a : e ≤ Int.log 2 q := by
    have := (Int.zpow_le_iff_le_log (b := 2) (by norm_num) hq (x := e)).mp
      (by exact_mod_cast h1)
    exact this
  have b : Int.log 2 q < e + 1 := by
    have := (Int.lt_zpow_iff_log_lt (b := 2) (by norm_num) hq (x := e + 1)).mp
      (by exact_mod_cast h2)
    exact this
  omega


/-- Unfolding of the rounding at a known exponent. -/
theorem float64Round_at (q : ℚ) (e : Int) (hq : q ≠ 0) (h1 : (2 : ℚ) ^ e ≤ |q|)
    (h2 : |q| < (2 : ℚ) ^ (e + 1)) (he : -1022 ≤ e) :
    float64Round q
      = if (2 : ℚ) ^ (1024 : Nat) ≤ (roundHalfEven (|q| / 2 ^ (e - 52)) : ℚ) * 2 ^ (e - 52)
        then none
        else some ((if q < 0 then -1 else 1)
          * ((roundHalfEven (|q| / 2 ^ (e - 52)) : ℚ) * 2 ^ (e - 52))) := by
  have hlog : Int.log 2 |q| = e := log_two_eq |q| e (abs_pos.mpr hq) h1 h2
  have hmax : max e (-1022) = e := max_eq_left he
  unfold float64Round
  rw [if_neg hq, hlog, hmax]

/-- A positive value whose scaled significand is within a half of the integer `R`. -/
theorem float64Round_eq (q : ℚ) (e : Int) (R : Int) (hq : 0 < q) (h1 : (2 : ℚ) ^ e ≤ q)
    (h2 : q < (2 : ℚ) ^ (e + 1)) (he : -1022 ≤ e)
    (hR1 : (R : ℚ) - 1 / 2 < q / 2 ^ (e - 52)) (hR2 : q / 2 ^ (e - 52) < R + 1 / 2)
    (hov : (R : ℚ) * 2 ^ (e - 52) < 2 ^ (1024 : Nat)) :
    float64Round q = some ((R : ℚ) * 2 ^ (e - 52)) := by
  have habs : |q| = q := abs_of_pos hq
  rw [float64Round_at q e hq.ne' (by rw [habs]; exact h1) (by rw [habs]; exact h2) he, habs,
    roundHalfEven_eq _ R hR1 hR2, if_neg (not_le.mpr hov), if_neg (not_lt.mpr hq.le)]
  simp

/-- Rounding in the normal range: the result is finite and within a relative error of
`2^-53`. -/
theorem float64Round_near (q : ℚ) (hlo : (2 : ℚ) ^ (-1022 : Int) ≤ |q|)
    (hhi : |q| < (2 : ℚ) ^ (1023 : Nat)) :
    ∃ r, float64Round q = some r ∧ |r - q| ≤ |q| / 2 ^ (53 : Nat) := by
  have hpos : 0 < |q| := lt_of_lt_of_le (by positivity) hlo
  have hq : q ≠ 0 := abs_pos.mp hpos
  have h1 : (2 : ℚ) ^ (Int.log 2 |q|) ≤ |q| := by
    have := Int.zpow_log_le_self (b := 2) (by norm_num) hpos
    exact_mod_cast this
  have h2 : |q| < (2 : ℚ) ^ (Int.log 2 |q| + 1) := by
    have := Int.lt_zpow_succ_log_self (b := 2) (by norm_num) |q|
    exact_mod_cast this
  have he : -1022 ≤ Int.log 2 |q| :=
    (Int.zpow_le_iff_le_log (b := 2) (by norm_num) hpos (x := -1022)).mp
      (by exact_mod_cast hlo)
  rw [float64Round_at q _ hq h1 h2 he]
  generalize Int.log 2 |q| = e at h1 h2 he
  have hu : (0 : ℚ) < 2 ^ (e - 52) := by positivity
  have hR := roundHalfEven_abs_sub (|q| / 2 ^ (e - 52))
  generalize (roundHalfEven (|q| / 2 ^ (e - 52)) : ℚ) = R at hR
  have hsplit : (2 : ℚ) ^ e = 2 ^ (e - 52) * 2 ^ (52 : Nat) := by
    rw [show e = (e - 52) + 52 by ring, zpow_add₀ (by norm_num)]
    norm_num
  have hd : abs (R * 2 ^ (e - 52) - abs q) ≤ 2 ^ (e - 52) / 2 := by
    have e1 : R * 2 ^ (e - 52) - |q| = (R - |q| / 2 ^ (e - 52)) * 2 ^ (e - 52) := by
      field_simp
    rw [e1, abs_mul, abs_of_pos hu]
    calc abs (R - abs q / 2 ^ (e - 52)) * 2 ^ (e - 52) ≤ 1 / 2 * 2 ^ (e - 52) :=
          mul_le_mul_of_nonneg_right hR hu.le
      _ = 2 ^ (e - 52) / 2 := by ring
  have hu2 : (2 : ℚ) ^ (e - 52) / 2 ≤ |q| / 2 ^ (53 : Nat) := by
    rw [hsplit] at h1
    rw [div_le_div_iff₀ (by norm_num) (by positivity)]
    nlinarith
  have hd2 := hd.trans hu2
  have hub : R * 2 ^ (e - 52) < 2 ^ (1024 : Nat) := by
    have := (abs_le.mp hd2).2
    have k : |q| / 2 ^ (53 : Nat) ≤ |q| := div_le_self hpos.le (by norm_num)
    have : R * 2 ^ (e - 52) ≤ 2 * |q| := by linarith
    calc R * 2 ^ (e - 52) ≤ 2 * |q| := this
      _ < 2 * 2 ^ (1023 : Nat) := by linarith
      _ = 2 ^ (1024 : Nat) := by norm_num
  rw [if_neg (not_le.mpr hub)]
  refine ⟨_, rfl, ?_⟩
  by_cases hneg : q < 0
  · rw [if_pos hneg]
    have : |q| = -q := abs_of_neg hneg
    rw [this] at hd2 ⊢
    have e2 : -1 * (R * 2 ^ (e - 52)) - q = -(R * 2 ^ (e - 52) - -q) := by ring
    rw [e2, abs_neg]
    exact hd2
  · rw [if_neg hneg]
    have : |q| = q := abs_of_nonneg (not_lt.mp hneg)
    rw [this] at hd2 ⊢
    simpa using hd2


/-- An integer of magnitude at most `2^53` is a `float64`: its conversion is exact. -/
theorem float64Round_int (n : Int) (h : |n| ≤ 2 ^ (53 : Nat)) :
    float64Round (n : ℚ) = some (n : ℚ) := by
  by_cases h0 : n = 0
  · subst h0; simp [float64Round]
  have hq : (n : ℚ) ≠ 0 := by exact_mod_cast h0
  have hpos : (0 : ℚ) < |(n : ℚ)| := abs_pos.mpr hq
  have habs : |(n : ℚ)| = ((|n| : Int) : ℚ) := by push_cast; rfl
  have hge1 : (1 : ℚ) ≤ |(n : ℚ)| := by
    rw [habs]
    have : (1 : Int) ≤ |n| := Int.one_le_abs h0
    exact_mod_cast this
  have hle : |(n : ℚ)| ≤ 2 ^ (53 : Nat) := by
    rw [habs]; exact_mod_cast h
  have h1 : (2 : ℚ) ^ (Int.log 2 |(n : ℚ)|) ≤ |(n : ℚ)| := by
    have := Int.zpow_log_le_self (b := 2) (by norm_num) hpos
    exact_mod_cast this
  have h2 : |(n : ℚ)| < (2 : ℚ) ^ (Int.log 2 |(n : ℚ)| + 1) := by
    have := Int.lt_zpow_succ_log_self (b := 2) (by norm_num) |(n : ℚ)|
    exact_mod_cast this
  have he0 : 0 ≤ Int.log 2 |(n : ℚ)| :=
    (Int.zpow_le_iff_le_log (b := 2) (by norm_num) hpos (x := 0)).mp (by simpa using hge1)
  have he53 : Int.log 2 |(n : ℚ)| < 54 :=
    (Int.lt_zpow_iff_log_lt (b := 2) (by norm_num) hpos (x := 54)).mp
      (by
        have : |(n : ℚ)| < 2 ^ (54 : Nat) := lt_of_le_of_lt hle (by norm_num)
        exact_mod_cast this)
  rw [float64Round_at (n : ℚ) _ hq h1 h2 (by omega)]
  generalize Int.log 2 |(n : ℚ)| = e at h1 h2 he0 he53
  -- the scaled significand is an integer
  have hK : ∃ K : Int, |(n : ℚ)| / 2 ^ (e - 52) = (K : ℚ) := by
    by_cases h52 : e ≤ 52
    · refine ⟨|n| * 2 ^ (52 - e).toNat, ?_⟩
      have e1 : (2 : ℚ) ^ (e - 52) = ((2 : ℚ) ^ ((52 - e).toNat))⁻¹ := by
        rw [← zpow_natCast, Int.toNat_of_nonneg (by omega), ← zpow_neg]
        congr 1; ring
      rw [e1, habs]
      push_cast
      rw [div_inv_eq_mul]
    · have e53 : e = 53 := by omega
      subst e53
      refine ⟨2 ^ (52 : Nat), ?_⟩
      have h1' : (2 : ℚ) ^ (53 : Nat) ≤ |(n : ℚ)| := by
        have : (2 : ℚ) ^ (53 : Int) = 2 ^ (53 : Nat) := by norm_num
        rw [← this]; exact h1
      have hn : |(n : ℚ)| = 2 ^ (53 : Nat) := le_antisymm hle h1'
      rw [hn]
      norm_num
  obtain ⟨K, hK⟩ := hK
  have hu : (0 : ℚ) < 2 ^ (e - 52) := by positivity
  have hr : (roundHalfEven (|(n : ℚ)| / 2 ^ (e - 52)) : ℚ) * 2 ^ (e - 52) = |(n : ℚ)| := by
    rw [hK, roundHalfEven_int, ← hK]
    field_simp
  rw [hr, if_neg (not_le.mpr (lt_of_le_of_lt hle (by norm_num)))]
  by_cases hneg : (n : ℚ) < 0
  · rw [if_pos hneg, abs_of_neg hneg]; simp
  · rw [if_neg hneg, abs_of_nonneg (not_lt.mp hneg)]; simp


theorem float64Round_zero : float64Round 0 = some 0 := by simp [float64Round]

/-- The conversion of a non-zero `int` of the 64-bit range: finite, not zero, and within
a relative error of `2^-53`. -/
theorem float64OfInt_near (n : Int) (h0 : n ≠ 0) (h : |n| ≤ 2 ^ (63 : Nat)) :
    ∃ x, float64OfInt n = some x ∧ |x - n| ≤ |(n : ℚ)| / 2 ^ (53 : Nat) ∧
      1 / 2 ≤ |x| ∧ |x| ≤ 2 ^ (64 : Nat) := by
  have habs : |(n : ℚ)| = ((|n| : Int) : ℚ) := by push_cast; rfl
  have hge1 : (1 : ℚ) ≤ |(n : ℚ)| := by
    rw [habs]
    have : (1 : Int) ≤ |n| := Int.one_le_abs h0
    exact_mod_cast this
  have hle : |(n : ℚ)| ≤ 2 ^ (63 : Nat) := by
    rw [habs]; exact_mod_cast h
  obtain ⟨x, hx, hnear⟩ := float64Round_near (n : ℚ)
    (le_trans (by norm_num) hge1) (lt_of_le_of_lt hle (by norm_num))
  refine ⟨x, hx, hnear, ?_, ?_⟩
  · have k1 : |(n : ℚ)| - |x| ≤ |x - n| := by
      rw [abs_sub_comm x]; exact abs_sub_abs_le_abs_sub _ _
    have k2 : |(n : ℚ)| / 2 ^ (53 : Nat) ≤ |(n : ℚ)| / 2 :=
      div_le_div_of_nonneg_left (by linarith) (by norm_num) (by norm_num)
    linarith
  · have k1 : |x| - |(n : ℚ)| ≤ |x - n| := abs_sub_abs_le_abs_sub _ _
    have k2 : |(n : ℚ)| / 2 ^ (53 : Nat) ≤ |(n : ℚ)| :=
      div_le_self (by linarith) (by norm_num)
    have : (2 : ℚ) ^ (64 : Nat) = 2 * 2 ^ (63 : Nat) := by norm_num
    linarith

/-- The expression `float64(total) / float64(count)` for operands of the 64-bit range
and a positive count: the result is a finite number. -/
theorem float64Quotient_finite (t c : Int) (hc : 0 < c) (hc63 : c ≤ 2 ^ (63 : Nat))
    (ht : |t| ≤ 2 ^ (63 : Nat)) : ∃ a, float64Quotient t c = some a := by
  obtain ⟨y, hy, _, hy1, hy2⟩ := float64OfInt_near c hc.ne'
    (by rw [abs_of_pos hc]; exact hc63)
  have hy0 : y ≠ 0 := by
    intro h; rw [h] at hy1; norm_num at hy1
  by_cases ht0 : t = 0
  · subst ht0
    refine ⟨0, ?_⟩
    have hx : float64OfInt 0 = some 0 := by simp [float64OfInt, float64Round]
    simp only [float64Quotient, hx, hy, float64Div, if_neg hy0, Int.cast_zero, zero_div,
      float64Round_zero]
  · obtain ⟨x, hx, _, hx1, hx2⟩ := float64OfInt_near t ht0 ht
    have hypos : 0 < |y| := abs_pos.mpr hy0
    have hlo : (2 : ℚ) ^ (-1022 : Int) ≤ |x / y| := by
      rw [abs_div, le_div_iff₀ hypos]
      have : (2 : ℚ) ^ (-1022 : Int) * |y| ≤ 2 ^ (-1022 : Int) * 2 ^ (64 : Nat) :=
        mul_le_mul_of_nonneg_left hy2 (by positivity)
      have k : (2 : ℚ) ^ (-1022 : Int) * 2 ^ (64 : Nat) ≤ 1 / 2 := by
        rw [show (2 : ℚ) ^ (64 : Nat) = 2 ^ (64 : Int) by norm_num, ← zpow_add₀ (by norm_num),
          show (1 / 2 : ℚ) = 2 ^ (-1 : Int) by norm_num]
        exact zpow_le_zpow_right₀ (by norm_num) (by norm_num)
      exact this.trans (k.trans hx1)
    have hhi : |x / y| < (2 : ℚ) ^ (1023 : Nat) := by
      rw [abs_div, div_lt_iff₀ hypos]
      have : (2 : ℚ) ^ (64 : Nat) < 2 ^ (1023 : Nat) * (1 / 2) := by norm_num
      have k : (2 : ℚ) ^ (1023 : Nat) * (1 / 2) ≤ 2 ^ (1023 : Nat) * |y| :=
        mul_le_mul_of_nonneg_left hy1 (by positivity)
      linarith
    obtain ⟨a, ha, _⟩ := float64Round_near (x / y) hlo hhi
    exact ⟨a, by simp only [float64Quotient, hx, hy, float64Div, if_neg hy0, ha]⟩

/-- The expression `float64(total) / float64(count)` for operands of magnitude at most
`2^53` and a positive count: the conversions are exact, the result is the quotient
rounded to the nearest `float64`, within a relative error of `2^-53`, and it is the
quotient itself when the count divides the total. -/
theorem float64Quotient_near (t c : Int) (hc : 0 < c) (hc53 : c ≤ 2 ^ (53 : Nat))
    (ht : |t| ≤ 2 ^ (53 : Nat)) :
    ∃ a, float64Quotient t c = some a ∧ float64Round ((t : ℚ) / c) = some a ∧
      |a - (t : ℚ) / c| ≤ |(t : ℚ) / c| / 2 ^ (53 : Nat) ∧
      (c ∣ t → a = (t : ℚ) / c) := by
  have hx : float64OfInt t = some (t : ℚ) := float64Round_int t ht
  have hy : float64OfInt c = some (c : ℚ) :=
    float64Round_int c (by rw [abs_of_pos hc]; exact hc53)
  have hc0 : (c : ℚ) ≠ 0 := by exact_mod_cast hc.ne'
  have hcpos : (0 : ℚ) < c := by exact_mod_cast hc
  have hq : float64Quotient t c = float64Round ((t : ℚ) / c) := by
    simp only [float64Quotient, hx, hy, float64Div, if_neg hc0]
  have hdiv : ∀ a, float64Round ((t : ℚ) / c) = some a → c ∣ t → a = (t : ℚ) / c := by
    intro a ha hdvd
    obtain ⟨k, rfl⟩ := hdvd
    have hk : |k| ≤ 2 ^ (53 : Nat) := by
      have h1 : |k| ≤ |c * k| := by
        rw [abs_mul, abs_of_pos hc]
        exact le_mul_of_one_le_left (abs_nonneg k) hc
      exact h1.trans ht
    have e : ((c * k : Int) : ℚ) / c = (k : ℚ) := by
      push_cast; field_simp
    rw [e] at ha ⊢
    rw [float64Round_int k hk] at ha
    exact (Option.some.inj ha).symm
  by_cases ht0 : t = 0
  · subst ht0
    refine ⟨0, ?_, ?_, ?_, fun _ => ?_⟩
    · rw [hq]; simp [float64Round_zero]
    · simp [float64Round_zero]
    · simp
    · simp
  · have habs : |(t : ℚ)| = ((|t| : Int) : ℚ) := by push_cast; rfl
    have hge1 : (1 : ℚ) ≤ |(t : ℚ)| := by
      rw [habs]
      have : (1 : Int) ≤ |t| := Int.one_le_abs ht0
      exact_mod_cast this
    have hle : |(t : ℚ)| ≤ 2 ^ (53 : Nat) := by
      rw [habs]; exact_mod_cast ht
    have hcle : (c : ℚ) ≤ 2 ^ (53 : Nat) := by exact_mod_cast hc53
    have hc1 : (1 : ℚ) ≤ c := by exact_mod_cast hc
    have hlo : (2 : ℚ) ^ (-1022 : Int) ≤ |(t : ℚ) / c| := by
      rw [abs_div, abs_of_pos hcpos, le_div_iff₀ hcpos]
      have : (2 : ℚ) ^ (-1022 : Int) * c ≤ 2 ^ (-1022 : Int) * 2 ^ (53 : Nat) :=
        mul_le_mul_of_nonneg_left hcle (by positivity)
      have k : (2 : ℚ) ^ (-1022 : Int) * 2 ^ (53 : Nat) ≤ 1 := by
        rw [show (2 : ℚ) ^ (53 : Nat) = 2 ^ (53 : Int) by norm_num, ← zpow_add₀ (by norm_num),
          show (1 : ℚ) = 2 ^ (0 : Int) by norm_num]
        exact zpow_le_zpow_right₀ (by norm_num) (by norm_num)
      linarith
    have hhi : |(t : ℚ) / c| < (2 : ℚ) ^ (1023 : Nat) := by
      rw [abs_div, abs_of_pos hcpos, div_lt_iff₀ hcpos]
      have : (2 : ℚ) ^ (53 : Nat) < 2 ^ (1023 : Nat) := by norm_num
      have k : (2 : ℚ) ^ (1023 : Nat) * 1 ≤ 2 ^ (1023 : Nat) * c :=
        mul_le_mul_of_nonneg_left hc1 (by positivity)
      linarith
    obtain ⟨a, ha, hnear⟩ := float64Round_near ((t : ℚ) / c) hlo hhi
    exact ⟨a, by rw [hq, ha], ha, hnear, hdiv a ha⟩

/-- One third is not a `float64`: `float64(1) / float64(3)` is `6004799503160661 / 2^54`. -/
theorem float64Quotient_third :
    float64Quotient 1 3 = some (6004799503160661 / 18014398509481984) := by
  obtain ⟨a, ha, hr, _, _⟩ := float64Quotient_near 1 3 (by norm_num) (by norm_num)
    (by norm_num)
  have h := float64Round_eq ((1 : ℚ) / 3) (-2) 6004799503160661 (by norm_num)
    (by norm_num) (by norm_num) (by norm_num) (by norm_num) (by norm_num) (by norm_num)
  have e : (((1 : Int) : ℚ) / ((3 : Int) : ℚ)) = (1 : ℚ) / 3 := by norm_num
  rw [e, h] at hr
  rw [ha, ← Option.some.inj hr]
  norm_num


theorem GetAverageStatistics_pos (s : OrderManagerStatistics) (h : 0 < s.TotalOrderCount) :
    OrderManagerStatistics.GetAverageStatistics (some s)
      = match float64Quotient s.TotalFoodWaitTime s.TotalOrderCount,
          float64Quotient s.TotalCourierWaitTime s.TotalOrderCount with
        | some f, some c => some (f, c)
        | _, _ => none := by
  have h1 : s.TotalOrderCount > 0 := h
  simp only [OrderManagerStatistics.GetAverageStatistics, h1, if_true]

theorem GetAverageStatistics_nonpos (s : OrderManagerStatistics)
    (h : s.TotalOrderCount ≤ 0) :
    OrderManagerStatistics.GetAverageStatistics (some s) = some (0, 0) := by
  have h1 : ¬ (s.TotalOrderCount > 0) := by omega
  simp only [OrderManagerStatistics.GetAverageStatistics, h1, if_false]

/-- C11 fails as stated, in two ways. The quotients are `float64` quotients, not exact
ones: with count 3 and a food total of 1 ms the average returned is
`6004799503160661 / 2^54`, the `float64` nearest to one third, and three times this
value is `1 - 2^-54`. And the test is `TotalOrderCount > 0`, not `!= 0`: with the
count `-1` the averages are `(0, 0)` and not the quotients `-5` and `-7`, while
`ReportStatistics` prints the summary. -/
theorem GetAverageStatistics_not_exact :
    OrderManagerStatistics.GetAverageStatistics (some ⟨3, 1, 0⟩)
      = some (6004799503160661 / 18014398509481984, 0) ∧
    (3 : ℚ) * (6004799503160661 / 18014398509481984) = 1 - 1 / 18014398509481984 ∧
    OrderManagerStatistics.GetAverageStatistics (some ⟨-1, 5, 7⟩) = some (0, 0) ∧
    OrderManagerStatistics.ReportStatistics (some ⟨-1, 5, 7⟩)
      = some (Report.summary (-1) 0 0) := by
  refine ⟨?_, by norm_num, ?_, ?_⟩
  · obtain ⟨c, hc, _, _, hdiv⟩ := float64Quotient_near 0 3 (by norm_num) (by norm_num)
      (by norm_num)
    have hc0 : c = 0 := by
      have := hdiv (dvd_zero 3)
      simpa using this
    rw [GetAverageStatistics_pos ⟨3, 1, 0⟩ (by norm_num)]
    simp only [float64Quotient_third, hc, hc0]
  · exact GetAverageStatistics_nonpos ⟨-1, 5, 7⟩ (by norm_num)
  · have h := GetAverageStatistics_nonpos ⟨-1, 5, 7⟩ (by norm_num)
    simp [OrderManagerStatistics.ReportStatistics, h]

/-- C11 (amended): averages without division by zero. `GetAverageStatistics` returns
`(0, 0)` when the object is nil or `TotalOrderCount <= 0`. When `TotalOrderCount > 0`
and the three counters are in the range of a 64-bit `int`, it returns two finite
numbers, the `float64` quotients `float64(total) / float64(count)`; when moreover no
counter exceeds `2^53` in magnitude, each average is the exact quotient rounded to the
nearest `float64`, within a relative error of `2^-53`, and it is the exact quotient
when the count divides the total. `ReportStatistics` returns without a division by
zero and takes the branch for no orders exactly when the object is nil or
`TotalOrderCount` is 0. With count 2, food 14 and courier 6 the averages are 7 and
3. -/
theorem GetAverageStatistics_spec (o : Option OrderManagerStatistics) :
    (o = none → OrderManagerStatistics.GetAverageStatistics o = some (0, 0)) ∧
    (∀ s, o = some s → s.TotalOrderCount ≤ 0 →
      OrderManagerStatistics.GetAverageStatistics o = some (0, 0)) ∧
    (∀ s, o = some s → 0 < s.TotalOrderCount → s.TotalOrderCount ≤ 2 ^ (63 : Nat) →
      |s.TotalFoodWaitTime| ≤ 2 ^ (63 : Nat) → |s.TotalCourierWaitTime| ≤ 2 ^ (63 : Nat) →
      ∃ f c, OrderManagerStatistics.GetAverageStatistics o = some (f, c) ∧
        float64Quotient s.TotalFoodWaitTime s.TotalOrderCount = some f ∧
        float64Quotient s.TotalCourierWaitTime s.TotalOrderCount = some c) ∧
    (∀ s, o = some s → 0 < s.TotalOrderCount → s.TotalOrderCount ≤ 2 ^ (53 : Nat) →
      |s.TotalFoodWaitTime| ≤ 2 ^ (53 : Nat) → |s.TotalCourierWaitTime| ≤ 2 ^ (53 : Nat) →
      ∃ f c, OrderManagerStatistics.GetAverageStatistics o = some (f, c) ∧
        float64Round ((s.TotalFoodWaitTime : ℚ) / s.TotalOrderCount) = some f ∧
        float64Round ((s.TotalCourierWaitTime : ℚ) / s.TotalOrderCount) = some c ∧
        |f - (s.TotalFoodWaitTime : ℚ) / s.TotalOrderCount|
          ≤ |(s.TotalFoodWaitTime : ℚ) / s.TotalOrderCount| / 2 ^ (53 : Nat) ∧
        |c - (s.TotalCourierWaitTime : ℚ) / s.TotalOrderCount|
          ≤ |(s.TotalCourierWaitTime : ℚ) / s.TotalOrderCount| / 2 ^ (53 : Nat) ∧
        (s.TotalOrderCount ∣ s.TotalFoodWaitTime →
          f = (s.TotalFoodWaitTime : ℚ) / s.TotalOrderCount) ∧
        (s.TotalOrderCount ∣ s.TotalCourierWaitTime →
          c = (s.TotalCourierWaitTime : ℚ) / s.TotalOrderCount)) ∧
    (o = none → OrderManagerStatistics.ReportStatistics o = some Report.noOrders) ∧
    (∀ s, o = some s → s.TotalOrderCount ≤ 2 ^ (63 : Nat) →
      |s.TotalFoodWaitTime| ≤ 2 ^ (63 : Nat) → |s.TotalCourierWaitTime| ≤ 2 ^ (63 : Nat) →
      ∃ r, OrderManagerStatistics.ReportStatistics o = some r) ∧
    (OrderManagerStatistics.ReportStatistics o = some Report.noOrders ↔
      (o = none ∨ ∃ s, o = some s ∧ s.TotalOrderCount = 0)) ∧
    OrderManagerStatistics.GetAverageStatistics (some ⟨2, 14, 6⟩) = some (7, 3) := by
  have hfin : ∀ s : OrderManagerStatistics, 0 < s.TotalOrderCount →
      s.TotalOrderCount ≤ 2 ^ (63 : Nat) → |s.TotalFoodWaitTime| ≤ 2 ^ (63 : Nat) →
      |s.TotalCourierWaitTime| ≤ 2 ^ (63 : Nat) →
      ∃ f c, OrderManagerStatistics.GetAverageStatistics (some s) = some (f, c) ∧
        float64Quotient s.TotalFoodWaitTime s.TotalOrderCount = some f ∧
        float64Quotient s.TotalCourierWaitTime s.TotalOrderCount = some c := by
    intro s hpos h63 hf hc
    obtain ⟨f, hf1⟩ := float64Quotient_finite s.TotalFoodWaitTime s.TotalOrderCount hpos h63 hf
    obtain ⟨c, hc1⟩ := float64Quotient_finite s.TotalCourierWaitTime s.TotalOrderCount hpos
      h63 hc
    exact ⟨f, c, by rw [GetAverageStatistics_pos s hpos, hf1, hc1], hf1, hc1⟩
  have hnear : ∀ s : OrderManagerStatistics, 0 < s.TotalOrderCount →
      s.TotalOrderCount ≤ 2 ^ (53 : Nat) → |s.TotalFoodWaitTime| ≤ 2 ^ (53 : Nat) →
      |s.TotalCourierWaitTime| ≤ 2 ^ (53 : Nat) →
      ∃ f c, OrderManagerStatistics.GetAverageStatistics (some s) = some (f, c) ∧
        float64Round ((s.TotalFoodWaitTime : ℚ) / s.TotalOrderCount) = some f ∧
        float64Round ((s.TotalCourierWaitTime : ℚ) / s.TotalOrderCount) = some c ∧
        |f - (s.TotalFoodWaitTime : ℚ) / s.TotalOrderCount|
          ≤ |(s.TotalFoodWaitTime : ℚ) / s.TotalOrderCount| / 2 ^ (53 : Nat) ∧
        |c - (s.TotalCourierWaitTime : ℚ) / s.TotalOrderCount|
          ≤ |(s.TotalCourierWaitTime : ℚ) / s.TotalOrderCount| / 2 ^ (53 : Nat) ∧
        (s.TotalOrderCount ∣ s.TotalFoodWaitTime →
          f = (s.TotalFoodWaitTime : ℚ) / s.TotalOrderCount) ∧
        (s.TotalOrderCount ∣ s.TotalCourierWaitTime →
          c = (s.TotalCourierWaitTime : ℚ) / s.TotalOrderCount) := by
    intro s hpos h53 hf hc
    obtain ⟨f, hf1, hf2, hf3, hf4⟩ :=
      float64Quotient_near s.TotalFoodWaitTime s.TotalOrderCount hpos h53 hf
    obtain ⟨c, hc1, hc2, hc3, hc4⟩ :=
      float64Quotient_near s.TotalCourierWaitTime s.TotalOrderCount hpos h53 hc
    exact ⟨f, c, by rw [GetAverageStatistics_pos s hpos, hf1, hc1], hf2, hc2, hf3, hc3, hf4,
      hc4⟩
  refine ⟨?_, ?_, ?_, ?_, ?_, ?_, ?_, ?_⟩
  · intro h; subst h; rfl
  · intro s h hs; subst h; exact GetAverageStatistics_nonpos s hs
  · intro s h; subst h; exact hfin s
  · intro s h; subst h; exact hnear s
  · intro h; subst h; rfl
  · intro s h h63 hf hc
    subst h
    by_cases h0 : s.TotalOrderCount = 0
    · exact ⟨Report.noOrders, by simp [OrderManagerStatistics.ReportStatistics, h0]⟩
    · by_cases hpos : 0 < s.TotalOrderCount
      · obtain ⟨f, c, hg, _, _⟩ := hfin s hpos h63 hf hc
        exact ⟨Report.summary s.TotalOrderCount f c,
          by simp [OrderManagerStatistics.ReportStatistics, h0, hg]⟩
      · have hg := GetAverageStatistics_nonpos s (by omega)
        exact ⟨Report.summary s.TotalOrderCount 0 0,
          by simp [OrderManagerStatistics.ReportStatistics, h0, hg]⟩
  · cases o with
    | none => simp [OrderManagerStatistics.ReportStatistics]
    | some s =>
      by_cases h0 : s.TotalOrderCount = 0
      · simp [OrderManagerStatistics.ReportStatistics, h0]
      · cases hg : OrderManagerStatistics.GetAverageStatistics (some s) <;>
          simp [OrderManagerStatistics.ReportStatistics, h0, hg]
  · obtain ⟨f, c, hg, _, _, _, _, hf, hc⟩ := hnear ⟨2, 14, 6⟩ (by norm_num) (by norm_num)
      (by norm_num) (by norm_num)
    have ef : f = 7 := by
      have := hf (by norm_num)
      rw [this]; norm_num
    have ec : c = 3 := by
      have := hc (by norm_num)
      rw [this]; norm_num
    rw [hg, ef, ec]

/-! ### Initialization -/

/-- C12: Init resets. For every prior state of a matched or FIFO order manager, after
`Init(random)` the three statistics are 0 and the pairing structures are empty (both
maps, or both queues with length 0 and no front); `Init` followed by `Init` is the
same state as the last `Init` alone; and `GetAverageStatistics` then returns
`(0, 0)`. -/
theorem Init_resets (m : matchedOrderManager) (f : fifoOrderManager)
    (random random1 : Option resource.Rand) :
    (m.Init random).base.stats = ⟨0, 0, 0⟩ ∧
    (m.Init random).finishedOrderMap = [] ∧ (m.Init random).courierMap = [] ∧
    (∀ k, (m.Init random).finishedOrderMap.Load k = none ∧
      (m.Init random).courierMap.Load k = none) ∧
    (m.Init random1).Init random = m.Init random ∧
    OrderManagerStatistics.GetAverageStatistics (m.Init random).base.GetStatistics
      = some (0, 0) ∧
    (f.Init random).base.stats = ⟨0, 0, 0⟩ ∧
    (f.Init random).finishedOrderQueue.elems = [] ∧
    (f.Init random).finishedOrderQueue.Len = 0 ∧
    (f.Init random).finishedOrderQueue.Front = none ∧
    (f.Init random).courierQueue.elems = [] ∧
    (f.Init random).courierQueue.Len = 0 ∧
    (f.Init random).courierQueue.Front = none ∧
    (f.Init random1).Init random = f.Init random ∧
    OrderManagerStatistics.GetAverageStatistics (f.Init random).base.GetStatistics
      = some (0, 0) ∧
    (m.Init random).base.wg = m.base.wg ∧ (f.Init random).base.wg = f.base.wg := by
  refine ⟨rfl, rfl, rfl, fun k => ⟨rfl, rfl⟩, rfl, ?_, rfl, rfl, rfl, rfl, rfl, rfl, rfl, rfl,
    ?_, rfl, rfl⟩
  · simp [matchedOrderManager.Init, orderManagerBase.Init, orderManagerBase.GetStatistics,
      OrderManagerStatistics.GetAverageStatistics]
  · simp [fifoOrderManager.Init, orderManagerBase.Init, orderManagerBase.GetStatistics,
      OrderManagerStatistics.GetAverageStatistics]

/-! ### Singletons -/

/-- C13: idempotent singleton acquisition. For every pair of generators, a second
`GetMatchedOrderManager` returns the instance of the first and leaves the package
variables, and with them the state of the instance with its stored generator,
unchanged; whatever the instance has become in the meantime, the call returns it as it
is; the same holds for `GetFIFOOrderManager`; and each of the two functions leaves the
instance of the other strategy alone. -/
theorem singleton_acquisition (p : Package) (r1 r2 : Option resource.Rand) :
    (GetMatchedOrderManager (GetMatchedOrderManager p r1).1 r2
      = ((GetMatchedOrderManager p r1).1, (GetMatchedOrderManager p r1).2)) ∧
    (p.matchedOrderManagerInstance = none →
      (GetMatchedOrderManager (GetMatchedOrderManager p r1).1 r2).2
        = newMatchedOrderManager r1) ∧
    (∀ m, p.matchedOrderManagerInstance = some m → GetMatchedOrderManager p r2 = (p, m)) ∧
    (GetFIFOOrderManager (GetFIFOOrderManager p r1).1 r2
      = ((GetFIFOOrderManager p r1).1, (GetFIFOOrderManager p r1).2)) ∧
    (p.fifoOrderManagerInstance = none →
      (GetFIFOOrderManager (GetFIFOOrderManager p r1).1 r2).2 = newFIFOOrderManager r1) ∧
    (∀ f, p.fifoOrderManagerInstance = some f → GetFIFOOrderManager p r2 = (p, f)) ∧
    (GetMatchedOrderManager p r1).1.fifoOrderManagerInstance = p.fifoOrderManagerInstance ∧
    (GetFIFOOrderManager p r1).1.matchedOrderManagerInstance
      = p.matchedOrderManagerInstance ∧
    (GetFIFOOrderManager (GetMatchedOrderManager p r1).1 r2).2 = (GetFIFOOrderManager p r2).2 ∧
    (GetMatchedOrderManager (GetFIFOOrderManager p r1).1 r2).2
      = (GetMatchedOrderManager p r2).2 := by
  cases hm : p.matchedOrderManagerInstance <;> cases hf : p.fifoOrderManagerInstance <;>
    simp [GetMatchedOrderManager, GetFIFOOrderManager, hm, hf]


/-! ### Statistics accumulation -/

theorem orderManagerBase.calls_cons (b : orderManagerBase) (c : StatCall)
    (cs : List StatCall) : b.calls (c :: cs) = (b.call c).calls cs := rfl

/-- The counters after a sequence of calls on any base. -/
theorem orderManagerBase.calls_counters (cs : List StatCall) (b : orderManagerBase) :
    (b.calls cs).stats.TotalOrderCount = b.stats.TotalOrderCount + StatCall.completions cs ∧
    (b.calls cs).stats.TotalFoodWaitTime = b.stats.TotalFoodWaitTime + StatCall.foodSum cs ∧
    (b.calls cs).stats.TotalCourierWaitTime
      = b.stats.TotalCourierWaitTime + StatCall.courierSum cs ∧
    (b.calls cs).wg = b.wg - StatCall.completions cs ∧
    (b.calls cs).pickUpLog = b.pickUpLog := by
  induction cs generalizing b with
  | nil => simp [orderManagerBase.calls, StatCall.completions, StatCall.foodSum,
      StatCall.courierSum]
  | cons c cs ih =>
    rw [orderManagerBase.calls_cons]
    obtain ⟨h1, h2, h3, h4, h5⟩ := ih (b.call c)
    cases c <;>
      simp only [orderManagerBase.call, orderManagerBase.completeOrder,
        orderManagerBase.wgDone, OrderManagerStatistics.IncrementTotalOrderCount,
        orderManagerBase.incrementTotalFoodWaitTime,
        OrderManagerStatistics.IncrementTotalFoodWaitTime,
        orderManagerBase.incrementTotalCourierWaitTime,
        OrderManagerStatistics.IncrementTotalCourierWaitTime,
        StatCall.completions, StatCall.foodSum, StatCall.courierSum] at h1 h2 h3 h4 h5 ⊢ <;>
      refine ⟨?_, ?_, ?_, ?_, ?_⟩ <;> first | assumption | omega

/-- C15: statistics accumulation. Starting from a new base, with the barrier raised `w`
times, after any finite sequence of `completeOrder`, `incrementTotalFoodWaitTime(a)` and
`incrementTotalCourierWaitTime(b)` calls, in any order, `TotalOrderCount` is the number
of `completeOrder` calls, `TotalFoodWaitTime` the sum of the `a` and
`TotalCourierWaitTime` the sum of the `b`; the barrier has gone down by the number of
`completeOrder` calls, and stays non-negative as long as these are at most `w`; each
call changes its own counter only (`completeOrder` also lowers the barrier by one).
With the barrier raised twice, two completions, food +14 and courier +6 give count 2,
food 14, courier 6 and the barrier 0. -/
theorem statistics_accumulation (random : Option resource.Rand) (w : Nat)
    (cs : List StatCall) (b : orderManagerBase) (a : Int) :
    (((orderManagerBase.wgAdd)^[w] (getOrderManagerBaseClass random)).calls cs).stats
      = ⟨StatCall.completions cs, StatCall.foodSum cs, StatCall.courierSum cs⟩ ∧
    (((orderManagerBase.wgAdd)^[w] (getOrderManagerBaseClass random)).calls cs).wg
      = (w : Int) - StatCall.completions cs ∧
    (∀ pre post, cs = pre ++ post → StatCall.completions pre ≤ w →
      0 ≤ (((orderManagerBase.wgAdd)^[w] (getOrderManagerBaseClass random)).calls pre).wg) ∧
    (b.completeOrder.stats
        = ⟨b.stats.TotalOrderCount + 1, b.stats.TotalFoodWaitTime,
            b.stats.TotalCourierWaitTime⟩ ∧
      b.completeOrder.wg = b.wg - 1) ∧
    ((b.incrementTotalFoodWaitTime a).stats
        = ⟨b.stats.TotalOrderCount, b.stats.TotalFoodWaitTime + a,
            b.stats.TotalCourierWaitTime⟩ ∧
      (b.incrementTotalFoodWaitTime a).wg = b.wg) ∧
    ((b.incrementTotalCourierWaitTime a).stats
        = ⟨b.stats.TotalOrderCount, b.stats.TotalFoodWaitTime,
            b.stats.TotalCourierWaitTime + a⟩ ∧
      (b.incrementTotalCourierWaitTime a).wg = b.wg) ∧
    (((orderManagerBase.wgAdd)^[2] (getOrderManagerBaseClass none)).calls
        [StatCall.incrementTotalFoodWaitTime 14, StatCall.completeOrder,
          StatCall.incrementTotalCourierWaitTime 6, StatCall.completeOrder]).stats
      = ⟨2, 14, 6⟩ ∧
    (((orderManagerBase.wgAdd)^[2] (getOrderManagerBaseClass none)).calls
        [StatCall.incrementTotalFoodWaitTime 14, StatCall.completeOrder,
          StatCall.incrementTotalCourierWaitTime 6, StatCall.completeOrder]).wg = 0 := by
  obtain ⟨hw, hs, _⟩ := wgAdd_iterate w (getOrderManagerBaseClass random)
  obtain ⟨h1, h2, h3, h4, _⟩ := orderManagerBase.calls_counters cs
    ((orderManagerBase.wgAdd)^[w] (getOrderManagerBaseClass random))
  refine ⟨?_, ?_, ?_, ⟨rfl, rfl⟩, ⟨rfl, rfl⟩, ⟨rfl, rfl⟩, by decide, by decide⟩
  · have e0 : (getOrderManagerBaseClass random).stats = ⟨0, 0, 0⟩ := rfl
    rw [hs, e0] at h1 h2 h3
    simp only [zero_add] at h1 h2 h3
    generalize (((orderManagerBase.wgAdd)^[w] (getOrderManagerBaseClass random)).calls
      cs).stats = st at h1 h2 h3
    cases st with
    | mk c f k =>
      simp only at h1 h2 h3
      rw [h1, h2, h3]
  · rw [h4, hw]; simp [getOrderManagerBaseClass]
  · intro pre post _ hle
    obtain ⟨_, _, _, h4p, _⟩ := orderManagerBase.calls_counters pre
      ((orderManagerBase.wgAdd)^[w] (getOrderManagerBaseClass random))
    rw [h4p, hw]
    simp only [getOrderManagerBaseClass]
    omega


/-! ### DispatchOrder -/

/-- The rejection loop leaves the source of the generator as it is. -/
theorem Rand.rejectLoop_src (max : Nat) :
    ∀ (fuel v : Nat) (r : resource.Rand) (w : Nat) (r1 : resource.Rand),
      resource.Rand.rejectLoop max fuel v r = some (w, r1) → r1.src = r.src := by
  intro fuel
  induction fuel with
  | zero =>
    intro v r w r1 h
    unfold resource.Rand.rejectLoop at h
    by_cases hv : v ≤ max
    · simp [hv] at h; rw [h.2]
    · simp [hv] at h
  | succ n ih =>
    intro v r w r1 h
    unfold resource.Rand.rejectLoop at h
    by_cases hv : v ≤ max
    · simp [hv] at h; rw [h.2]
    · simp [hv] at h
      rw [ih _ _ _ _ h, Rand.Int31_snd]

theorem Rand.Intn_src (r : resource.Rand) (n fuel : Nat) (v : Int) (r1 : resource.Rand)
    (h : r.Intn n fuel = some (v, r1)) : r1.src = r.src := by
  unfold resource.Rand.Intn resource.Rand.Int31n at h
  by_cases hp : Nat.land n (n - 1) = 0
  · simp only [hp, if_true, Option.some.injEq, Prod.mk.injEq] at h
    rw [← h.2, Rand.Int31_snd]
  · simp only [hp, if_false] at h
    cases hl : resource.Rand.rejectLoop (2 ^ 31 - 1 - 2 ^ 31 % n) fuel (r.Int31).1
        (r.Int31).2 with
    | none => rw [hl] at h; simp at h
    | some p =>
      obtain ⟨w, r2⟩ := p
      rw [hl] at h
      simp only [Option.some.injEq, Prod.mk.injEq] at h
      rw [← h.2, Rand.rejectLoop_src _ _ _ _ _ _ hl, Rand.Int31_snd]

theorem afterDraw_getD (glob : resource.Rand) (r : Option resource.Rand)
    (g : resource.Rand) :
    (resource.afterDraw glob r g).2.getD (resource.afterDraw glob r g).1 = g := by
  cases r <;> rfl

/-- The provider leaves the source of the generator it draws from as it is. -/
theorem GetCourierTravelTime_src (glob : resource.Rand) (r : Option resource.Rand)
    (fuel : Nat) (t : Int) (g : resource.Rand)
    (h : resource.GetCourierTravelTime glob r fuel = some (t, g)) :
    g.src = (r.getD glob).src := by
  cases r with
  | none =>
    simp only [resource.GetCourierTravelTime] at h
    cases hi : glob.Intn resource.MaxTravelTimeRange.toNat fuel with
    | none => rw [hi] at h; simp at h
    | some p =>
      obtain ⟨v, g1⟩ := p
      rw [hi] at h
      simp only [Option.some.injEq, Prod.mk.injEq] at h
      rw [← h.2]
      exact Rand.Intn_src _ _ _ _ _ hi
  | some r0 =>
    simp only [resource.GetCourierTravelTime] at h
    cases hi : r0.Intn resource.MaxTravelTimeRange.toNat fuel with
    | none => rw [hi] at h; simp at h
    | some p =>
      obtain ⟨v, g1⟩ := p
      rw [hi] at h
      simp only [Option.some.injEq, Prod.mk.injEq] at h
      rw [← h.2]
      exact Rand.Intn_src _ _ _ _ _ hi

/-- The provider returns a value in `[3, 15]` once the source accepts one of the next
`fuel + 1` draws. -/
theorem GetCourierTravelTime_returns (glob : resource.Rand) (r : Option resource.Rand)
    (fuel : Nat)
    (h : ∃ k, k ≤ fuel ∧
      (r.getD glob).src ((r.getD glob).pos + k) % 2 ^ 63 / 2 ^ 32 ≤ 2147483636) :
    ∃ (t : Int) (g : resource.Rand),
      resource.GetCourierTravelTime glob r fuel = some (t, g) ∧ 3 ≤ t ∧ t ≤ 15 := by
  have hN : resource.MaxTravelTimeRange.toNat = 13 := by decide
  obtain ⟨d, r1, hd, hlt⟩ := Rand.Intn_thirteen (r.getD glob) fuel h
  refine ⟨(d : Int) + resource.MinTravelTime, r1, ?_, ?_, ?_⟩
  · cases r with
    | none =>
      simp only [Option.getD_none] at hd
      simp only [resource.GetCourierTravelTime, hN, hd]
    | some r0 =>
      simp only [Option.getD_some] at hd
      simp only [resource.GetCourierTravelTime, hN, hd]
  · simp only [resource.MinTravelTime]; omega
  · simp only [resource.MinTravelTime]; omega

theorem Task.couriers_append (xs ys : List Task) :
    Task.couriers (xs ++ ys) = Task.couriers xs ++ Task.couriers ys := by
  induction xs with
  | nil => rfl
  | cons x xs ih => cases x <;> simp [Task.couriers, ih]

theorem Task.orders_append (xs ys : List Task) :
    Task.orders (xs ++ ys) = Task.orders xs ++ Task.orders ys := by
  induction xs with
  | nil => rfl
  | cons x xs ih => cases x <;> simp [Task.orders, ih]

/-- The goroutines of a sequence of calls: one order task per order, in the order of the
calls, and one courier task per order, with the identifier of the order and the value of
the provider at the same position. -/
theorem DispatchCall.allTasks_sides :
    ∀ (cs : List DispatchCall) (ts : List Int), ts.length = cs.length →
      Task.orders (DispatchCall.allTasks cs ts) = cs.map (fun c => c.order) ∧
      Task.couriers (DispatchCall.allTasks cs ts)
        = (cs.map (fun c => c.order.ID)).zip ts ∧
      (DispatchCall.allTasks cs ts).length = 2 * cs.length := by
  intro cs
  induction cs with
  | nil => intro ts _; cases ts <;> simp [DispatchCall.allTasks, Task.orders, Task.couriers]
  | cons c cs ih =>
    intro ts h
    cases ts with
    | nil => simp at h
    | cons t ts =>
      simp only [List.length_cons, add_left_inj] at h
      obtain ⟨h1, h2, h3⟩ := ih ts h
      simp only [DispatchCall.allTasks, Task.orders_append, Task.couriers_append, h1, h2,
        DispatchCall.tasks, Task.orders, Task.couriers, getDispatchedOrder,
        getDispatchedCourier, resource.NewCourier, List.map_cons, List.zip_cons_cons,
        List.length_append, h3, List.length_cons, List.length_nil]
      refine ⟨by simp [h1], by simp [h2], by omega⟩

/-- The mock source of the tests accepts every draw. -/
theorem getMockRand_accepts (glob : resource.Rand) (p : Nat) :
    ∃ k, k ≤ 0 ∧
      ((some getMockRand).getD glob).src (p + k) % 2 ^ 63 / 2 ^ 32 ≤ 2147483636 := by
  refine ⟨0, le_refl 0, ?_⟩
  simp only [Option.getD_some, getMockRand, testCourierTravelTimes, List.length_cons,
    List.length_nil, Nat.add_zero]
  have hq : p % (0 + 1 + 1 + 1 + 1) < 4 := Nat.mod_lt _ (by norm_num)
  generalize p % (0 + 1 + 1 + 1 + 1) = q at hq
  interval_cases q <;> decide


theorem matchedOrderManager.matched_DispatchOrder_eq (m : matchedOrderManager) (glob : resource.Rand)
    (o : resource.Order) (uuid : String) (now1 now2 : Int) (fuel : Nat) (t : Int)
    (g : resource.Rand)
    (h : resource.GetCourierTravelTime glob m.base.random fuel = some (t, g)) :
    m.DispatchOrder glob (some o) uuid now1 now2 fuel
      = .ok
        ⟨{ m with
            base :=
              { m.base with
                wg := m.base.wg + 1,
                random := (resource.afterDraw glob m.base.random g).2 } },
          (resource.afterDraw glob m.base.random g).1, none,
          DispatchCall.tasks ⟨o, uuid, now1, now2⟩ t⟩ := by
  have h1 : resource.GetCourierTravelTime glob (m.base.wgAdd).random fuel = some (t, g) := h
  simp only [matchedOrderManager.DispatchOrder, h1]
  rfl

/-- The loop of calls on the matched manager, for a source that accepts a draw in every
window of `fuel + 1` draws. -/
theorem matchedOrderManager.matched_dispatchAll_spec (fuel : Nat) (S : Nat → Nat)
    (hS : ∀ p, ∃ k, k ≤ fuel ∧ S (p + k) % 2 ^ 63 / 2 ^ 32 ≤ 2147483636) :
    ∀ (cs : List DispatchCall) (m : matchedOrderManager) (glob : resource.Rand),
      (m.base.random.getD glob).src = S →
      ∃ (ts : List Int) (ds : Dispatches matchedOrderManager),
        resource.travelTimes fuel glob m.base.random cs.length = some ts ∧
        ts.length = cs.length ∧ (∀ t ∈ ts, 3 ≤ t ∧ t ≤ 15) ∧
        m.dispatchAll fuel glob cs = .ok ds ∧
        ds.errs = List.replicate cs.length none ∧
        ds.started = DispatchCall.allTasks cs ts ∧
        ds.manager.base.wg = m.base.wg + cs.length ∧
        ds.manager.base.stats = m.base.stats ∧
        ds.manager.finishedOrderMap = m.finishedOrderMap ∧
        ds.manager.courierMap = m.courierMap := by
  intro cs
  induction cs with
  | nil =>
    intro m glob _
    exact ⟨[], ⟨m, glob, [], []⟩, rfl, rfl, by simp, rfl, rfl, rfl, by simp, rfl, rfl, rfl⟩
  | cons c cs ih =>
    intro m glob hsrc
    obtain ⟨t, g, hg, h3, h15⟩ := GetCourierTravelTime_returns glob m.base.random fuel
      (by rw [hsrc]; exact hS _)
    have hgs := GetCourierTravelTime_src glob m.base.random fuel t g hg
    have hd := matchedOrderManager.matched_DispatchOrder_eq m glob c.order c.uuid c.now1 c.now2 fuel t g hg
    obtain ⟨ts, ds, ht, hlen, hrange, hall, herrs, hstarted, hwg, hstats, hf1, hf2⟩ :=
      ih
        { m with
          base :=
            { m.base with
              wg := m.base.wg + 1,
              random := (resource.afterDraw glob m.base.random g).2 } }
        (resource.afterDraw glob m.base.random g).1
        (by
          show ((resource.afterDraw glob m.base.random g).2.getD
            (resource.afterDraw glob m.base.random g).1).src = S
          rw [afterDraw_getD, hgs, hsrc])
    refine ⟨t :: ts, ⟨ds.manager, ds.glob, none :: ds.errs, c.tasks t ++ ds.started⟩,
      ?_, ?_, ?_, ?_, ?_, ?_, ?_, ?_, ?_, ?_⟩
    · simp only [List.length_cons, resource.travelTimes, hg]
      simp only at ht
      rw [ht]
    · simp [hlen]
    · intro x hx
      rcases List.mem_cons.mp hx with rfl | hx
      · exact ⟨h3, h15⟩
      · exact hrange x hx
    · simp only [matchedOrderManager.dispatchAll, hd, hall]
    · simp only [herrs, List.length_cons, List.replicate_succ]
    · simp only [hstarted, DispatchCall.allTasks]
    · simp only [hwg, List.length_cons]; push_cast; ring
    · exact hstats
    · exact hf1
    · exact hf2

theorem fifoOrderManager.fifo_DispatchOrder_eq (m : fifoOrderManager) (glob : resource.Rand)
    (o : resource.Order) (uuid : String) (now1 now2 : Int) (fuel : Nat) (t : Int)
    (g : resource.Rand)
    (h : resource.GetCourierTravelTime glob m.base.random fuel = some (t, g)) :
    m.DispatchOrder glob (some o) uuid now1 now2 fuel
      = .ok
        ⟨{ m with
            base :=
              { m.base with
                wg := m.base.wg + 1,
                random := (resource.afterDraw glob m.base.random g).2 } },
          (resource.afterDraw glob m.base.random g).1, none,
          DispatchCall.tasks ⟨o, uuid, now1, now2⟩ t⟩ := by
  have h1 : resource.GetCourierTravelTime glob (m.base.wgAdd).random fuel = some (t, g) := h
  simp only [fifoOrderManager.DispatchOrder, h1]
  rfl

/-- The loop of calls on the FIFO manager, for a source that accepts a draw in every
window of `fuel + 1` draws. -/
theorem fifoOrderManager.fifo_dispatchAll_spec (fuel : Nat) (S : Nat → Nat)
    (hS : ∀ p, ∃ k, k ≤ fuel ∧ S (p + k) % 2 ^ 63 / 2 ^ 32 ≤ 2147483636) :
    ∀ (cs : List DispatchCall) (m : fifoOrderManager) (glob : resource.Rand),
      (m.base.random.getD glob).src = S →
      ∃ (ts : List Int) (ds : Dispatches fifoOrderManager),
        resource.travelTimes fuel glob m.base.random cs.length = some ts ∧
        ts.length = cs.length ∧ (∀ t ∈ ts, 3 ≤ t ∧ t ≤ 15) ∧
        m.dispatchAll fuel glob cs = .ok ds ∧
        ds.errs = List.replicate cs.length none ∧
        ds.started = DispatchCall.allTasks cs ts ∧
        ds.manager.base.wg = m.base.wg + cs.length ∧
        ds.manager.base.stats = m.base.stats ∧
        ds.manager.finishedOrderQueue = m.finishedOrderQueue ∧
        ds.manager.courierQueue = m.courierQueue := by
  intro cs
  induction cs with
  | nil =>
    intro m glob _
    exact ⟨[], ⟨m, glob, [], []⟩, rfl, rfl, by simp, rfl, rfl, rfl, by simp, rfl, rfl, rfl⟩
  | cons c cs ih =>
    intro m glob hsrc
    obtain ⟨t, g, hg, h3, h15⟩ := GetCourierTravelTime_returns glob m.base.random fuel
      (by rw [hsrc]; exact hS _)
    have hgs := GetCourierTravelTime_src glob m.base.random fuel t g hg
    have hd := fifoOrderManager.fifo_DispatchOrder_eq m glob c.order c.uuid c.now1 c.now2 fuel t g hg
    obtain ⟨ts, ds, ht, hlen, hrange, hall, herrs, hstarted, hwg, hstats, hf1, hf2⟩ :=
      ih
        { m with
          base :=
            { m.base with
              wg := m.base.wg + 1,
              random := (resource.afterDraw glob m.base.random g).2 } }
        (resource.afterDraw glob m.base.random g).1
        (by
          show ((resource.afterDraw glob m.base.random g).2.getD
            (resource.afterDraw glob m.base.random g).1).src = S
          rw [afterDraw_getD, hgs, hsrc])
    refine ⟨t :: ts, ⟨ds.manager, ds.glob, none :: ds.errs, c.tasks t ++ ds.started⟩,
      ?_, ?_, ?_, ?_, ?_, ?_, ?_, ?_, ?_, ?_⟩
    · simp only [List.length_cons, resource.travelTimes, hg]
      simp only at ht
      rw [ht]
    · simp [hlen]
    · intro x hx
      rcases List.mem_cons.mp hx with rfl | hx
      · exact ⟨h3, h15⟩
      · exact hrange x hx
    · simp only [fifoOrderManager.dispatchAll, hd, hall]
    · simp only [herrs, List.length_cons, List.replicate_succ]
    · simp only [hstarted, DispatchCall.allTasks]
    · simp only [hwg, List.length_cons]; push_cast; ring
    · exact hstats
    · exact hf1
    · exact hf2

/-- The provider on the generator whose source is stuck at the largest 63-bit value
returns no value, whatever the number of draws allowed. -/
theorem GetCourierTravelTime_stuck (glob : resource.Rand) (fuel : Nat) :
    resource.GetCourierTravelTime glob (some ⟨fun _ => 2 ^ 63 - 1, 0⟩) fuel = none := by
  have hland : Nat.land 13 (13 - 1) ≠ 0 := by decide
  have hmax : 2 ^ 31 - 1 - 2 ^ 31 % 13 = 2147483636 := by norm_num
  have h31 : (resource.Rand.Int31 ⟨fun _ => 2 ^ 63 - 1, 0⟩).1 = 2147483647 := by
    rw [Rand.Int31_fst]; norm_num
  have hN : resource.MaxTravelTimeRange.toNat = 13 := by decide
  simp only [resource.GetCourierTravelTime, hN, resource.Rand.Intn, resource.Rand.Int31n,
    hland, if_false, hmax, h31, Rand.Int31_snd, Rand.rejectLoop_stuck]

/-- C14, as stated, fails: on a manager of either strategy whose generator has a source
stuck at the largest 63-bit value, the call of the provider inside `DispatchOrder` never
accepts a draw, so `DispatchOrder` on a present order returns neither an error nor nil,
whatever the number of draws allowed; no courier task is created. -/
theorem DispatchOrder_stuck_generator :
    ∃ r : resource.Rand, r = ⟨fun _ => 2 ^ 63 - 1, 0⟩ ∧
      ∀ fuel : Nat,
        (newMatchedOrderManager (some r)).DispatchOrder ⟨fun _ => 0, 0⟩
            (some ⟨"1", "Food 1", 2⟩) "courier-1" 0 0 fuel = .error Fault.noDraw ∧
        (newFIFOOrderManager (some r)).DispatchOrder ⟨fun _ => 0, 0⟩
            (some ⟨"1", "Food 1", 2⟩) "courier-1" 0 0 fuel = .error Fault.noDraw := by
  refine ⟨⟨fun _ => 2 ^ 63 - 1, 0⟩, rfl, fun fuel => ⟨?_, ?_⟩⟩
  · have h : resource.GetCourierTravelTime ⟨fun _ => 0, 0⟩
        ((newMatchedOrderManager (some ⟨fun _ => 2 ^ 63 - 1, 0⟩)).base.wgAdd).random fuel
        = none := GetCourierTravelTime_stuck _ fuel
    simp only [matchedOrderManager.DispatchOrder, h]
  · have h : resource.GetCourierTravelTime ⟨fun _ => 0, 0⟩
        ((newFIFOOrderManager (some ⟨fun _ => 2 ^ 63 - 1, 0⟩)).base.wgAdd).random fuel
        = none := GetCourierTravelTime_stuck _ fuel
    simp only [fifoOrderManager.DispatchOrder, h]

/-- C14 (amended): the contract of `DispatchOrder`. For a matched manager `m` and a FIFO manager
`f` whose generators (the global one for a nil generator) accept a draw in every window
of `fuel + 1` draws, and for every present order: one call of `DispatchOrder` makes one
call of the provider, returns the nil error, raises the barrier by exactly one and
starts exactly two goroutines, the order task of that order and the courier task of a
courier with the `OrderID` of the order and the `TravelTime` the provider returned;
nothing else of the manager changes. A loop of calls on the orders of `cs` returns the
nil error every time, raises the barrier by the number of orders, and starts for each
order its order task and a courier task with the value of the provider at the same
position of the sequence `ts` of values the provider hands out. -/
theorem DispatchOrder_contract (m : matchedOrderManager) (f : fifoOrderManager)
    (glob : resource.Rand) (fuel : Nat) (c : DispatchCall) (cs : List DispatchCall)
    (hm : ∀ p, ∃ k, k ≤ fuel ∧
      (m.base.random.getD glob).src (p + k) % 2 ^ 63 / 2 ^ 32 ≤ 2147483636)
    (hf : ∀ p, ∃ k, k ≤ fuel ∧
      (f.base.random.getD glob).src (p + k) % 2 ^ 63 / 2 ^ 32 ≤ 2147483636) :
    (∃ (t : Int) (g : resource.Rand),
      resource.GetCourierTravelTime glob m.base.random fuel = some (t, g) ∧
      m.DispatchOrder glob (some c.order) c.uuid c.now1 c.now2 fuel
        = .ok
          ⟨{ m with
              base :=
                { m.base with
                  wg := m.base.wg + 1,
                  random := (resource.afterDraw glob m.base.random g).2 } },
            (resource.afterDraw glob m.base.random g).1, none,
            [Task.processOrder (getDispatchedOrder c.order c.now1),
             Task.pickUpOrder (getDispatchedCourier ⟨c.uuid, c.order.ID, t⟩ c.now2)]⟩) ∧
    (∃ (t : Int) (g : resource.Rand),
      resource.GetCourierTravelTime glob f.base.random fuel = some (t, g) ∧
      f.DispatchOrder glob (some c.order) c.uuid c.now1 c.now2 fuel
        = .ok
          ⟨{ f with
              base :=
                { f.base with
                  wg := f.base.wg + 1,
                  random := (resource.afterDraw glob f.base.random g).2 } },
            (resource.afterDraw glob f.base.random g).1, none,
            [Task.processOrder (getDispatchedOrder c.order c.now1),
             Task.pickUpOrder (getDispatchedCourier ⟨c.uuid, c.order.ID, t⟩ c.now2)]⟩) ∧
    (∃ (ts : List Int) (ds : Dispatches matchedOrderManager),
      resource.travelTimes fuel glob m.base.random cs.length = some ts ∧
      ts.length = cs.length ∧
      m.dispatchAll fuel glob cs = .ok ds ∧
      ds.errs = List.replicate cs.length none ∧
      ds.manager.base.wg = m.base.wg + cs.length ∧
      ds.manager.base.stats = m.base.stats ∧
      ds.manager.finishedOrderMap = m.finishedOrderMap ∧
      ds.manager.courierMap = m.courierMap ∧
      ds.started.length = 2 * cs.length ∧
      Task.orders ds.started = cs.map (fun c => c.order) ∧
      Task.couriers ds.started = (cs.map (fun c => c.order.ID)).zip ts) ∧
    (∃ (ts : List Int) (ds : Dispatches fifoOrderManager),
      resource.travelTimes fuel glob f.base.random cs.length = some ts ∧
      ts.length = cs.length ∧
      f.dispatchAll fuel glob cs = .ok ds ∧
      ds.errs = List.replicate cs.length none ∧
      ds.manager.base.wg = f.base.wg + cs.length ∧
      ds.manager.base.stats = f.base.stats ∧
      ds.manager.finishedOrderQueue = f.finishedOrderQueue ∧
      ds.manager.courierQueue = f.courierQueue ∧
      ds.started.length = 2 * cs.length ∧
      Task.orders ds.started = cs.map (fun c => c.order) ∧
      Task.couriers ds.started = (cs.map (fun c => c.order.ID)).zip ts) := by
  refine ⟨?_, ?_, ?_, ?_⟩
  · obtain ⟨t, g, hg, _, _⟩ := GetCourierTravelTime_returns glob m.base.random fuel (hm _)
    exact ⟨t, g, hg,
      matchedOrderManager.matched_DispatchOrder_eq m glob c.order c.uuid c.now1 c.now2 fuel t g hg⟩
  · obtain ⟨t, g, hg, _, _⟩ := GetCourierTravelTime_returns glob f.base.random fuel (hf _)
    exact ⟨t, g, hg,
      fifoOrderManager.fifo_DispatchOrder_eq f glob c.order c.uuid c.now1 c.now2 fuel t g hg⟩
  · obtain ⟨ts, ds, ht, hlen, _, hall, herrs, hstarted, hwg, hstats, hf1, hf2⟩ :=
      matchedOrderManager.matched_dispatchAll_spec fuel _ hm cs m glob rfl
    obtain ⟨ho, hc, hl⟩ := DispatchCall.allTasks_sides cs ts hlen
    rw [← hstarted] at ho hc hl
    exact ⟨ts, ds, ht, hlen, hall, herrs, hwg, hstats, hf1, hf2, hl, ho, hc⟩
  · obtain ⟨ts, ds, ht, hlen, _, hall, herrs, hstarted, hwg, hstats, hf1, hf2⟩ :=
      fifoOrderManager.fifo_dispatchAll_spec fuel _ hf cs f glob rfl
    obtain ⟨ho, hc, hl⟩ := DispatchCall.allTasks_sides cs ts hlen
    rw [← hstarted] at ho hc hl
    exact ⟨ts, ds, ht, hlen, hall, herrs, hwg, hstats, hf1, hf2, hl, ho, hc⟩

/-- C14 at the tests: with the mock generator, the loop over `testOrders` gives the
couriers of the orders 1, 2, 3 and 4 the travel times 4, 5, 3 and 8 of
`testCourierTravelTimes`, under both strategies, and leaves the barrier at 4. -/
theorem DispatchOrder_contract_witness :
    (∀ p, ∃ k, k ≤ 0 ∧
      (((newMatchedOrderManager (some getMockRand)).base.random).getD ⟨fun _ => 0, 0⟩).src
        (p + k) % 2 ^ 63 / 2 ^ 32 ≤ 2147483636) ∧
    (∃ ds : Dispatches matchedOrderManager,
      (newMatchedOrderManager (some getMockRand)).dispatchAll 0 ⟨fun _ => 0, 0⟩ testCalls
        = .ok ds ∧
      ds.errs = [none, none, none, none] ∧ ds.manager.base.wg = 4 ∧
      Task.orders ds.started = testOrders ∧
      Task.couriers ds.started = [("1", 4), ("2", 5), ("3", 3), ("4", 8)]) ∧
    (∃ ds : Dispatches fifoOrderManager,
      (newFIFOOrderManager (some getMockRand)).dispatchAll 0 ⟨fun _ => 0, 0⟩ testCalls
        = .ok ds ∧
      ds.errs = [none, none, none, none] ∧ ds.manager.base.wg = 4 ∧
      Task.orders ds.started = testOrders ∧
      Task.couriers ds.started = [("1", 4), ("2", 5), ("3", 3), ("4", 8)]) := by
  have ht : resource.travelTimes 0 ⟨fun _ => 0, 0⟩ (some getMockRand) 4
      = some [4, 5, 3, 8] := by decide
  obtain ⟨_, _, ⟨ts, ds, hts, _, hall, herrs, hwg, _, _, _, _, ho, hc⟩,
      ⟨ts1, ds1, hts1, _, hall1, herrs1, hwg1, _, _, _, _, ho1, hc1⟩⟩ :=
    DispatchOrder_contract (newMatchedOrderManager (some getMockRand))
      (newFIFOOrderManager (some getMockRand)) ⟨fun _ => 0, 0⟩ 0
      ⟨⟨"1", "Food 1", 2⟩, "courier-1", 0, 0⟩ testCalls
      (getMockRand_accepts ⟨fun _ => 0, 0⟩) (getMockRand_accepts ⟨fun _ => 0, 0⟩)
  have e : ts = [4, 5, 3, 8] := Option.some.inj (hts.symm.trans ht)
  have e1 : ts1 = [4, 5, 3, 8] := Option.some.inj (hts1.symm.trans ht)
  subst e
  subst e1
  exact ⟨getMockRand_accepts ⟨fun _ => 0, 0⟩,
    ⟨ds, hall, herrs, hwg, ho, hc⟩, ⟨ds1, hall1, herrs1, hwg1, ho1, hc1⟩⟩


/-! ### Wait difference -/

theorem Milliseconds_mul (x : Int) (h : (1000000 : Int) ∣ x) :
    1000000 * Milliseconds x = x := by
  obtain ⟨y, rfl⟩ := h
  rw [Milliseconds, Int.mul_tdiv_cancel_left _ (by norm_num)]

theorem Milliseconds_zero : Milliseconds 0 = 0 := by simp [Milliseconds]

theorem finishSum_append (pre : List Arrival) (a : Arrival) :
    finishSum (pre ++ [a]) = finishSum pre + finishSum [a] := by
  simp [finishSum, orderKeys_append_list]

theorem arrivedSum_append (pre : List Arrival) (a : Arrival) :
    arrivedSum (pre ++ [a]) = arrivedSum pre + arrivedSum [a] := by
  simp [arrivedSum, courierKeys_append_list]

/-- One arrival on the plain lists, when the pick-up instants are the ready instant of
the arrival and all instants are whole milliseconds: the difference of the two wait
totals, in nanoseconds, moves with the instants of the events that stop waiting. -/
theorem FifoAbs.potential_step (s : FifoAbs) (a : Arrival)
    (hpick : a.now = a.ready ∧ a.wake = a.ready) (hms : (1000000 : Int) ∣ a.ready)
    (hO : ∀ o ∈ s.waitO, (1000000 : Int) ∣ o.FinishTime)
    (hC : ∀ c ∈ s.waitC, (1000000 : Int) ∣ c.ArrivedTime) :
    1000000 * ((s.arrive a).base.stats.TotalFoodWaitTime
        - (s.arrive a).base.stats.TotalCourierWaitTime)
      + ((((s.arrive a).waitC.map (fun c => c.ArrivedTime)).sum
        - ((s.arrive a).waitO.map (fun o => o.FinishTime)).sum))
      = 1000000 * (s.base.stats.TotalFoodWaitTime - s.base.stats.TotalCourierWaitTime)
        + (((s.waitC.map (fun c => c.ArrivedTime)).sum
          - (s.waitO.map (fun o => o.FinishTime)).sum))
        + (arrivedSum [a] - finishSum [a]) ∧
    (∀ o ∈ (s.arrive a).waitO, (1000000 : Int) ∣ o.FinishTime) ∧
    (∀ c ∈ (s.arrive a).waitC, (1000000 : Int) ∣ c.ArrivedTime) := by
  obtain ⟨hnow, hwake⟩ := hpick
  cases hev : a.ev with
  | order d =>
    have hf : finishSum [a] = a.ready := by simp [finishSum, orderKeys, hev]
    have ha : arrivedSum [a] = 0 := by simp [arrivedSum, courierKeys, hev]
    cases hw : s.waitC with
    | nil =>
      have hs : s.arrive a = ⟨s.base, s.waitO ++ [parkedOrder d a], []⟩ := by
        simp [FifoAbs.arrive, hev, hw]
      rw [hs, hf, ha]
      refine ⟨?_, ?_, ?_⟩
      · simp only [List.map_append, List.sum_append, List.map_cons, List.map_nil,
          List.sum_cons, List.sum_nil, parkedOrder]
        ring
      · intro o ho
        rcases List.mem_append.mp ho with h | h
        · exact hO o h
        · rw [List.mem_singleton] at h; subst h; exact hms
      · intro c hc; simp at hc
    | cons c rest =>
      have hs : s.arrive a
          = ⟨pairedBase s.base (matcherOrder d a) (wokenCourier c a), s.waitO, rest⟩ := by
        simp [FifoAbs.arrive, hev, hw]
      have hc : (1000000 : Int) ∣ c.ArrivedTime := hC c (by rw [hw]; simp)
      have hm := Milliseconds_mul (a.ready - c.ArrivedTime) (dvd_sub hms hc)
      rw [hs, hf, ha]
      refine ⟨?_, hO, fun x hx => hC x (by rw [hw]; exact List.mem_cons_of_mem _ hx)⟩
      simp only [pairedBase, matcherOrder, wokenCourier, dispatchedOrder.getWaitTimeInMs,
        dispatchedCourier.getWaitTimeInMs, hnow, hwake, sub_self, Milliseconds_zero,
        List.map_cons, List.sum_cons]
      linarith
  | courier d =>
    have hf : finishSum [a] = 0 := by simp [finishSum, orderKeys, hev]
    have ha : arrivedSum [a] = a.ready := by simp [arrivedSum, courierKeys, hev]
    cases hw : s.waitO with
    | nil =>
      have hs : s.arrive a = ⟨s.base, [], s.waitC ++ [parkedCourier d a]⟩ := by
        simp [FifoAbs.arrive, hev, hw]
      rw [hs, hf, ha]
      refine ⟨?_, ?_, ?_⟩
      · simp only [List.map_append, List.sum_append, List.map_cons, List.map_nil,
          List.sum_cons, List.sum_nil, parkedCourier]
        ring
      · intro o ho; simp at ho
      · intro c hc
        rcases List.mem_append.mp hc with h | h
        · exact hC c h
        · rw [List.mem_singleton] at h; subst h; exact hms
    | cons o rest =>
      have hs : s.arrive a
          = ⟨pairedBase s.base (wokenOrder o a) (matcherCourier d a), rest, s.waitC⟩ := by
        simp [FifoAbs.arrive, hev, hw]
      have ho : (1000000 : Int) ∣ o.FinishTime := hO o (by rw [hw]; simp)
      have hm := Milliseconds_mul (a.ready - o.FinishTime) (dvd_sub hms ho)
      rw [hs, hf, ha]
      refine ⟨?_, fun x hx => hO x (by rw [hw]; exact List.mem_cons_of_mem _ hx), hC⟩
      simp only [pairedBase, matcherCourier, wokenOrder, dispatchedOrder.getWaitTimeInMs,
        dispatchedCourier.getWaitTimeInMs, hnow, hwake, sub_self, Milliseconds_zero,
        List.map_cons, List.sum_cons]
      linarith

/-- The difference of the two wait totals after a run on the plain lists, in
nanoseconds, with the instants of the events still waiting. -/
theorem FifoAbs.potential (b0 : orderManagerBase) (pre : List Arrival)
    (hpick : ∀ a ∈ pre, a.now = a.ready ∧ a.wake = a.ready)
    (hms : ∀ a ∈ pre, (1000000 : Int) ∣ a.ready) :
    1000000 * ((FifoAbs.run ⟨b0, [], []⟩ pre).base.stats.TotalFoodWaitTime
        - (FifoAbs.run ⟨b0, [], []⟩ pre).base.stats.TotalCourierWaitTime)
      + ((((FifoAbs.run ⟨b0, [], []⟩ pre).waitC.map (fun c => c.ArrivedTime)).sum
        - ((FifoAbs.run ⟨b0, [], []⟩ pre).waitO.map (fun o => o.FinishTime)).sum))
      = 1000000 * (b0.stats.TotalFoodWaitTime - b0.stats.TotalCourierWaitTime)
        + (arrivedSum pre - finishSum pre) ∧
    (∀ o ∈ (FifoAbs.run ⟨b0, [], []⟩ pre).waitO, (1000000 : Int) ∣ o.FinishTime) ∧
    (∀ c ∈ (FifoAbs.run ⟨b0, [], []⟩ pre).waitC, (1000000 : Int) ∣ c.ArrivedTime) := by
  induction pre using List.reverseRecOn with
  | nil => simp [FifoAbs.run, arrivedSum, finishSum, orderKeys, courierKeys]
  | append_singleton pre a ih =>
    obtain ⟨h1, h2, h3⟩ := ih (fun b hb => hpick b (by simp [hb]))
      (fun b hb => hms b (by simp [hb]))
    obtain ⟨k1, k2, k3⟩ := FifoAbs.potential_step (FifoAbs.run ⟨b0, [], []⟩ pre) a
      (hpick a (by simp)) (hms a (by simp)) h2 h3
    rw [FifoAbs.abs_run_append, finishSum_append, arrivedSum_append]
    refine ⟨?_, k2, k3⟩
    rw [k1]
    linarith

/-- The FIFO manager after all arrivals, as many orders as couriers: the number of
pairs and the difference of the two wait totals, in nanoseconds. -/
theorem fifo_diff (b0 : orderManagerBase) (evs : List Arrival)
    (hlen : (orderKeys evs).length = (courierKeys evs).length)
    (hpick : ∀ a ∈ evs, a.now = a.ready ∧ a.wake = a.ready)
    (hms : ∀ a ∈ evs, (1000000 : Int) ∣ a.ready) :
    (fifoOrderManager.run ⟨b0, GoList.New, GoList.New⟩ evs).base.stats.TotalOrderCount
      = b0.stats.TotalOrderCount + (orderKeys evs).length ∧
    1000000 * ((fifoOrderManager.run ⟨b0, GoList.New, GoList.New⟩
          evs).base.stats.TotalFoodWaitTime
        - (fifoOrderManager.run ⟨b0, GoList.New, GoList.New⟩
          evs).base.stats.TotalCourierWaitTime)
      = 1000000 * (b0.stats.TotalFoodWaitTime - b0.stats.TotalCourierWaitTime)
        + (arrivedSum evs - finishSum evs) := by
  have hrel := (FifoRel.rel_init b0).rel_run evs
  obtain ⟨log, hinv⟩ := FifoInv.inv_run b0 evs
  obtain ⟨hp, _, _⟩ := FifoAbs.potential b0 evs hpick hms
  have hlog := hinv.log_length (orderKeys evs).length rfl hlen.symm
  have hlenO : log.length + (FifoAbs.run ⟨b0, [], []⟩ evs).waitO.length
      = (orderKeys evs).length := by
    have := congrArg List.length hinv.okeys
    simpa using this
  have hlenC : log.length + (FifoAbs.run ⟨b0, [], []⟩ evs).waitC.length
      = (courierKeys evs).length := by
    have := congrArg List.length hinv.ckeys
    simpa using this
  have hO : (FifoAbs.run ⟨b0, [], []⟩ evs).waitO = [] :=
    List.eq_nil_of_length_eq_zero (by omega)
  have hC : (FifoAbs.run ⟨b0, [], []⟩ evs).waitC = [] :=
    List.eq_nil_of_length_eq_zero (by omega)
  have hbase : (fifoOrderManager.run ⟨b0, GoList.New, GoList.New⟩ evs).base
      = (FifoAbs.run ⟨b0, [], []⟩ evs).base := hrel.base
  rw [hbase]
  refine ⟨by rw [hinv.count, hlog], ?_⟩
  rw [hO, hC] at hp
  simpa using hp


/-- The difference of the wait totals of a matched run, in nanoseconds, when the
difference of the waits of the pair of each identifier is given by `D`. -/
theorem matched_diff (b0 : orderManagerBase) (ids : List String) (hids : ids.Nodup)
    (D : String → Int) (pre : List Arrival) (hnd : (tags pre).Nodup)
    (hsub : ∀ a ∈ pre, a.ev.key ∈ ids)
    (hD : ∀ p a q, pre = p ++ a :: q → ∀ b ∈ p, b.tag = a.cotag →
      1000000 * (foodWaitOf a b - courierWaitOf a b) = D a.ev.key) :
    1000000 * ((matchedOrderManager.run ⟨b0, [], []⟩ pre).base.stats.TotalFoodWaitTime
        - (matchedOrderManager.run ⟨b0, [], []⟩ pre).base.stats.TotalCourierWaitTime)
      = 1000000 * (b0.stats.TotalFoodWaitTime - b0.stats.TotalCourierWaitTime)
        + ((pairedIds ids pre).map D).sum := by
  induction pre using List.reverseRecOn with
  | nil => simp [matchedOrderManager.run, pairedIds, tags]
  | append_singleton pre a ih =>
    have hnd1 : (tags pre).Nodup ∧ a.tag ∉ tags pre := by
      rw [tags_append] at hnd
      have := List.nodup_append.mp hnd
      exact ⟨this.1, fun hmem => this.2.2 hmem (by simp)⟩
    have hsub1 : ∀ b ∈ pre, b.ev.key ∈ ids := fun b hb => hsub b (by simp [hb])
    have hkey : a.ev.key ∈ ids := hsub a (by simp)
    have hD1 : ∀ p a1 q, pre = p ++ a1 :: q → ∀ b ∈ p, b.tag = a1.cotag →
        1000000 * (foodWaitOf a1 b - courierWaitOf a1 b) = D a1.ev.key := by
      intro p a1 q hsplit
      exact hD p a1 (q ++ [a]) (by rw [hsplit]; simp)
    have hprev := ih hnd1.1 hsub1 hD1
    have hinv := matched_inv b0 pre hnd1.1
    obtain ⟨_, _, hno, hyes⟩ := hinv.map_step a hnd1.2
    rw [matchedOrderManager.run_append]
    by_cases hco : a.cotag ∈ tags pre
    · obtain ⟨b, hb, hbt, o, c, hbase, _, _, _, hfw, hcw⟩ := hyes hco
      have hDa := hD pre a [] rfl b hb hbt
      have hperm := pairedIds_append_of_mem ids hids pre a hco hnd1.2 hkey
      rw [hbase, (hperm.map D).sum_eq]
      simp only [pairedBase, List.map_cons, List.sum_cons, hfw, hcw]
      linarith
    · rw [pairedIds_append_of_not_mem ids pre a hco, hno hco]
      exact hprev

theorem readyOf_cons (x : Arrival) (xs : List Arrival) (t : Bool × String) :
    readyOf (x :: xs) t = if x.tag = t then x.ready else readyOf xs t := by
  unfold readyOf
  rw [List.find?_cons]
  by_cases h : x.tag = t <;> simp [h]

/-- The ready instant found for the side and key of an arrival of the list is the ready
instant of that arrival, when no side and key occurs twice. -/
theorem readyOf_mem (evs : List Arrival) (hnd : (tags evs).Nodup) (a : Arrival)
    (ha : a ∈ evs) : readyOf evs a.tag = a.ready := by
  induction evs with
  | nil => simp at ha
  | cons x xs ih =>
    have hnd1 : x.tag ∉ tags xs ∧ (tags xs).Nodup := by
      simpa [tags] using hnd
    rw [readyOf_cons]
    rcases List.mem_cons.mp ha with rfl | h
    · simp
    · have hne : x.tag ≠ a.tag := by
        intro heq
        exact hnd1.1 (heq ▸ List.mem_map.mpr ⟨a, h, rfl⟩)
      rw [if_neg hne]
      exact ih hnd1.2 h

theorem finishSum_eq_filter (evs : List Arrival) :
    finishSum evs
      = ((evs.filter (fun a => a.ev.isOrder == true)).map (fun a => a.ready)).sum := by
  induction evs with
  | nil => rfl
  | cons a evs ih =>
    unfold finishSum at ih ⊢
    cases hev : a.ev <;>
      simp [orderKeys, hev, Ready.isOrder, List.filter_cons, ih]

theorem arrivedSum_eq_filter (evs : List Arrival) :
    arrivedSum evs
      = ((evs.filter (fun a => a.ev.isOrder == false)).map (fun a => a.ready)).sum := by
  induction evs with
  | nil => rfl
  | cons a evs ih =>
    unfold arrivedSum at ih ⊢
    cases hev : a.ev <;>
      simp [courierKeys, hev, Ready.isOrder, List.filter_cons, ih]

/-- The arrivals of one side, for arrivals that are one order and one courier per
identifier: their tags are the identifiers, in some order. -/
theorem side_tags (ids : List String) (evs : List Arrival)
    (hperm : (tags evs).Perm (ids.map (Prod.mk true) ++ ids.map (Prod.mk false)))
    (s : Bool) :
    ((evs.filter (fun a => a.ev.isOrder == s)).map Arrival.tag).Perm
      (ids.map (Prod.mk s)) := by
  have e2 : (evs.filter (fun a => a.ev.isOrder == s)).map Arrival.tag
      = (tags evs).filter (fun t => t.1 == s) := by
    unfold tags
    rw [List.filter_map]
    rfl
  have e3 := hperm.filter (fun t => t.1 == s)
  have e4 : (ids.map (Prod.mk true) ++ ids.map (Prod.mk false)).filter (fun t => t.1 == s)
      = ids.map (Prod.mk s) := by
    cases s <;> simp [List.filter_append, List.filter_map, Function.comp_def]
  rw [e2]
  rw [e4] at e3
  exact e3

/-- The sum of the ready instants of one side is the sum over the identifiers. -/
theorem side_sum (ids : List String) (evs : List Arrival)
    (hperm : (tags evs).Perm (ids.map (Prod.mk true) ++ ids.map (Prod.mk false)))
    (hnd : (tags evs).Nodup) (s : Bool) :
    ((evs.filter (fun a => a.ev.isOrder == s)).map (fun a => a.ready)).sum
      = (ids.map (fun k => readyOf evs (s, k))).sum := by
  have e1 : (evs.filter (fun a => a.ev.isOrder == s)).map (fun a => a.ready)
      = ((evs.filter (fun a => a.ev.isOrder == s)).map Arrival.tag).map (readyOf evs) := by
    rw [List.map_map]
    apply List.map_congr_left
    intro a ha
    exact (readyOf_mem evs hnd a (List.mem_of_mem_filter ha)).symm
  rw [e1, ((side_tags ids evs hperm s).map (readyOf evs)).sum_eq, List.map_map]
  rfl

theorem sum_map_sub_int (ids : List String) (f g : String → Int) :
    (ids.map (fun k => f k - g k)).sum = (ids.map f).sum - (ids.map g).sum := by
  induction ids with
  | nil => simp
  | cons k ks ih => simp only [List.map_cons, List.sum_cons, ih]; ring

theorem orderKeys_length_filter (evs : List Arrival) :
    (orderKeys evs).length = (evs.filter (fun a => a.ev.isOrder == true)).length := by
  induction evs with
  | nil => rfl
  | cons a evs ih =>
    cases hev : a.ev <;>
      simp [orderKeys, hev, Ready.isOrder, List.filter_cons, ih]

theorem courierKeys_length_filter (evs : List Arrival) :
    (courierKeys evs).length = (evs.filter (fun a => a.ev.isOrder == false)).length := by
  induction evs with
  | nil => rfl
  | cons a evs ih =>
    cases hev : a.ev <;>
      simp [courierKeys, hev, Ready.isOrder, List.filter_cons, ih]

/-- The arrivals that are one order and one courier per identifier have as many orders
as couriers, one per identifier. -/
theorem keys_length (ids : List String) (evs : List Arrival)
    (hperm : (tags evs).Perm (ids.map (Prod.mk true) ++ ids.map (Prod.mk false))) :
    (orderKeys evs).length = ids.length ∧ (courierKeys evs).length = ids.length := by
  have h1 := (side_tags ids evs hperm true).length_eq
  have h2 := (side_tags ids evs hperm false).length_eq
  simp only [List.length_map] at h1 h2
  exact ⟨by rw [orderKeys_length_filter, h1], by rw [courierKeys_length_filter, h2]⟩


/-- C16, as stated, fails: the waits are truncated to whole milliseconds pair by pair,
so the difference of the totals depends on the pairing. For the four arrivals of
`halfMsArrivals` (order 1 ready at 0, order 2 and its courier at 0.5 ms, the courier of
order 1 at 1 ms), each pick-up taking the instant of the later arrival, the sum of the
courier arrival instants minus the sum of the order finish instants is exactly 1 ms;
the matched strategy ends with a food total of 1 ms and a courier total of 0, the FIFO
strategy with both totals 0. -/
theorem wait_difference_truncated :
    ((fifoDispatched none 2).run halfMsArrivals).base.stats = ⟨2, 0, 0⟩ ∧
    ((matchedDispatched none 2).run halfMsArrivals).base.stats = ⟨2, 1, 0⟩ ∧
    arrivedSum halfMsArrivals - finishSum halfMsArrivals = 1000000 ∧
    (tags halfMsArrivals).Perm
      ((["1", "2"] : List String).map (Prod.mk true)
        ++ (["1", "2"] : List String).map (Prod.mk false)) ∧
    halfMsArrivals.all (fun a => decide (a.now = a.ready ∧ a.wake = a.ready)) = true := by
  decide

/-- C16 (amended): wait-difference conservation for instants that are whole
milliseconds. The 2N ready events, one order and one courier for each of N pairwise
distinct identifiers, enter one after the other in any order; both halves of each pair
take the ready instant of the later of the two arrivals as their pick-up time, and
every ready instant is a whole number of milliseconds. Then under the matched and under
the FIFO strategy all N orders are paired and `TotalFoodWaitTime -
TotalCourierWaitTime`, in milliseconds, is the sum of the courier arrival instants
minus the sum of the order finish instants, whichever order is paired with whichever
courier. -/
theorem wait_difference (random : Option resource.Rand) (ids : List String)
    (hids : ids.Nodup) (evs : List Arrival)
    (hperm : (tags evs).Perm (ids.map (Prod.mk true) ++ ids.map (Prod.mk false)))
    (hpick : ∀ a ∈ evs, a.now = a.ready ∧ a.wake = a.ready)
    (hms : ∀ a ∈ evs, (1000000 : Int) ∣ a.ready) :
    ((matchedDispatched random ids.length).run evs).base.stats.TotalOrderCount
      = ids.length ∧
    1000000 * (((matchedDispatched random ids.length).run evs).base.stats.TotalFoodWaitTime
        - ((matchedDispatched random ids.length).run evs).base.stats.TotalCourierWaitTime)
      = arrivedSum evs - finishSum evs ∧
    ((fifoDispatched random ids.length).run evs).base.stats.TotalOrderCount
      = ids.length ∧
    1000000 * (((fifoDispatched random ids.length).run evs).base.stats.TotalFoodWaitTime
        - ((fifoDispatched random ids.length).run evs).base.stats.TotalCourierWaitTime)
      = arrivedSum evs - finishSum evs := by
  obtain ⟨hnd, hsub, _, hpaired⟩ := full_arrivals ids hids evs hperm
  obtain ⟨_, hs, _⟩ := wgAdd_iterate ids.length (getOrderManagerBaseClass random)
  obtain ⟨hlenO, hlenC⟩ := keys_length ids evs hperm
  have hs0 : ((orderManagerBase.wgAdd)^[ids.length]
      (getOrderManagerBaseClass random)).stats = ⟨0, 0, 0⟩ := by rw [hs]; rfl
  have hD : ∀ p a q, evs = p ++ a :: q → ∀ b ∈ p, b.tag = a.cotag →
      1000000 * (foodWaitOf a b - courierWaitOf a b)
        = readyOf evs (false, a.ev.key) - readyOf evs (true, a.ev.key) := by
    intro p a q hsplit b hb hbt
    have hbmem : b ∈ evs := by simp [hsplit, hb]
    have hamem : a ∈ evs := by simp [hsplit]
    obtain ⟨hnow, hwake⟩ := hpick a hamem
    have hra := readyOf_mem evs hnd a hamem
    have hrb := readyOf_mem evs hnd b hbmem
    have hm := Milliseconds_mul (a.ready - b.ready) (dvd_sub (hms a hamem) (hms b hbmem))
    rw [hbt] at hrb
    cases hside : a.ev.isOrder with
    | true =>
      have hta : a.tag = (true, a.ev.key) := by simp [Arrival.tag, hside]
      have htb : a.cotag = (false, a.ev.key) := by simp [Arrival.cotag, hside]
      rw [hta] at hra
      rw [htb] at hrb
      simp only [foodWaitOf, courierWaitOf, hside, if_true, hnow, hwake, sub_self,
        Milliseconds_zero, hra, hrb]
      linarith
    | false =>
      have hta : a.tag = (false, a.ev.key) := by simp [Arrival.tag, hside]
      have htb : a.cotag = (true, a.ev.key) := by simp [Arrival.cotag, hside]
      rw [hta] at hra
      rw [htb] at hrb
      simp only [foodWaitOf, courierWaitOf, hside, Bool.false_eq_true, if_false, hnow,
        hwake, sub_self, Milliseconds_zero, hra, hrb]
      linarith
  have hmd := matched_diff
    ((orderManagerBase.wgAdd)^[ids.length] (getOrderManagerBaseClass random)) ids hids
    (fun k => readyOf evs (false, k) - readyOf evs (true, k)) evs hnd hsub hD
  obtain ⟨_, _, hcount, _⟩ := matched_run_state
    ((orderManagerBase.wgAdd)^[ids.length] (getOrderManagerBaseClass random)) ids hids evs
    hnd hsub
  obtain ⟨hfcount, hfd⟩ := fifo_diff
    ((orderManagerBase.wgAdd)^[ids.length] (getOrderManagerBaseClass random)) evs
    (by rw [hlenO, hlenC]) hpick hms
  rw [matchedDispatched_eq, fifoDispatched_eq]
  refine ⟨?_, ?_, ?_, ?_⟩
  · rw [hcount, hpaired, hs0]; simp
  · rw [hmd, hpaired, hs0, sum_map_sub_int, finishSum_eq_filter, arrivedSum_eq_filter,
      side_sum ids evs hperm hnd true, side_sum ids evs hperm hnd false]
    simp
  · rw [hfcount, hlenO, hs0]; simp
  · rw [hfd, hs0]; simp

/-- C16 at the test scenario: preparation times 2, 10, 4, 6 s and travel times 4, 5, 3,
8 s give the totals 4000 and 6000 ms (matched) and 1000 and 3000 ms (FIFO), and the
instants sum to 20 s for the couriers and 22 s for the orders: the difference is
-2000 ms under both strategies. -/
theorem wait_difference_witness :
    (tags testArrivals).Perm
      ((["1", "2", "3", "4"] : List String).map (Prod.mk true)
        ++ (["1", "2", "3", "4"] : List String).map (Prod.mk false)) ∧
    (∀ a ∈ testArrivals, a.now = a.ready ∧ a.wake = a.ready) ∧
    (∀ a ∈ testArrivals, (1000000 : Int) ∣ a.ready) ∧
    1000000 * (((matchedDispatched none 4).run testArrivals).base.stats.TotalFoodWaitTime
        - ((matchedDispatched none 4).run testArrivals).base.stats.TotalCourierWaitTime)
      = arrivedSum testArrivals - finishSum testArrivals ∧
    1000000 * (((fifoDispatched none 4).run testArrivals).base.stats.TotalFoodWaitTime
        - ((fifoDispatched none 4).run testArrivals).base.stats.TotalCourierWaitTime)
      = arrivedSum testArrivals - finishSum testArrivals ∧
    ((matchedDispatched none 4).run testArrivals).base.stats = ⟨4, 4000, 6000⟩ ∧
    ((fifoDispatched none 4).run testArrivals).base.stats = ⟨4, 1000, 3000⟩ ∧
    arrivedSum testArrivals = 20 * Second ∧ finishSum testArrivals = 22 * Second :=
  have h := wait_difference none ["1", "2", "3", "4"] (by decide) testArrivals (by decide)
    (by decide) (by decide)
  ⟨by decide, by decide, by decide, h.2.1, h.2.2.2, by decide, by decide, by decide,
    by decide⟩


end CloudKitchens
